import Mathlib

/-!
Verification of the Excalidraw YAML push engine (`src/libs/excalidraw/push.py`).

This file gives a shallow embedding of the engine: the canonical JSON
serialization and SHA-256 content fingerprint (`compute_hash`), the document
validator (`validate_yaml`), the arrow geometry (`parse_pos`, `clip_to_rect`,
`compute_arrow`), the diff (`compute_diff`) and the reconciliation driver
(`push`), and proves or refutes the specified properties over it.

Machine conventions: Python ints are `Int`/`Nat` (SHA-256 words are `Nat`
reduced mod 2^32); Python floats in the geometry are modelled as `ℚ` (the
geometric claims checked here do not depend on rounding); Python exceptions
are `Except String`; the wall-clock `pushed_at` timestamp written by
`save_state` is omitted from the state model.
-/

set_option maxRecDepth 100000

namespace Box

/-! ## SHA-256 (pure, over `Nat` bytes and 32-bit words) -/

/-- Reduce a `Nat` to a 32-bit word. -/
def wordMod (n : Nat) : Nat := n % 4294967296

/-- Right rotation of a 32-bit word. -/
def rotr (n w : Nat) : Nat := wordMod ((w >>> n) ||| (w <<< (32 - n)))

/-- Big-endian word from a list of bytes. -/
def bytesToWordBE (bs : List Nat) : Nat := bs.foldl (fun a b => a * 256 + b) 0

/-- Big-endian byte expansion of `n` to `k` bytes. -/
def toBytesBE : Nat → Nat → List Nat
  | 0, _ => []
  | k + 1, n => toBytesBE k (n / 256) ++ [n % 256]

/-- SHA-256 round constants. -/
def shaK : List Nat :=
  [1116352408, 1899447441, 3049323471, 3921009573, 961987163, 1508970993,
   2453635748, 2870763221, 3624381080, 310598401, 607225278, 1426881987,
   1925078388, 2162078206, 2614888103, 3248222580, 3835390401, 4022224774,
   264347078, 604807628, 770255983, 1249150122, 1555081692, 1996064986,
   2554220882, 2821834349, 2952996808, 3210313671, 3336571891, 3584528711,
   113926993, 338241895, 666307205, 773529912, 1294757372, 1396182291,
   1695183700, 1986661051, 2177026350, 2456956037, 2730485921, 2820302411,
   3259730800, 3345764771, 3516065817, 3600352804, 4094571909, 275423344,
   430227734, 506948616, 659060556, 883997877, 958139571, 1322822218,
   1537002063, 1747873779, 1955562222, 2024104815, 2227730452, 2361852424,
   2428436474, 2756734187, 3204031479, 3329325298]

/-- SHA-256 initial hash value. -/
def shaH0 : List Nat :=
  [1779033703, 3144134277, 1013904242, 2773480762, 1359893119, 2600822924,
   528734635, 1541459225]

/-- Split a byte string into 64-byte chunks (structural on a fuel bound so
the kernel can evaluate it; the fuel never runs out, since each step consumes
at least one byte). -/
def chunkBytesAux : Nat → List Nat → List (List Nat)
  | 0, _ => []
  | fuel + 1, bs => if bs.isEmpty then [] else bs.take 64 :: chunkBytesAux fuel (bs.drop 64)

/-- Split a byte string into 64-byte chunks. -/
def chunkBytes (bs : List Nat) : List (List Nat) := chunkBytesAux (bs.length + 1) bs

/-- Next word of the SHA-256 message schedule, from the schedule built so far. -/
def scheduleNext (w : List Nat) : Nat :=
  let g := fun i => w.getD i 0
  let l := w.length
  let s0 := (rotr 7 (g (l - 15))) ^^^ (rotr 18 (g (l - 15))) ^^^ ((g (l - 15)) >>> 3)
  let s1 := (rotr 17 (g (l - 2))) ^^^ (rotr 19 (g (l - 2))) ^^^ ((g (l - 2)) >>> 10)
  wordMod (g (l - 16) + s0 + g (l - 7) + s1)

/-- Extend the first 16 schedule words to 64. -/
def buildSchedule (w0 : List Nat) : List Nat :=
  (List.range 48).foldl (fun w _ => w ++ [scheduleNext w]) w0

/-- SHA-256 compression state. -/
structure Sha256St where
  a : Nat
  b : Nat
  c : Nat
  d : Nat
  e : Nat
  f : Nat
  g : Nat
  h : Nat

/-- One SHA-256 compression round. -/
def compressStep (s : Sha256St) (kw : Nat × Nat) : Sha256St :=
  let S1 := (rotr 6 s.e) ^^^ (rotr 11 s.e) ^^^ (rotr 25 s.e)
  let ch := (s.e &&& s.f) ^^^ ((0xFFFFFFFF ^^^ s.e) &&& s.g)
  let t1 := wordMod (s.h + S1 + ch + kw.1 + kw.2)
  let S0 := (rotr 2 s.a) ^^^ (rotr 13 s.a) ^^^ (rotr 22 s.a)
  let mj := (s.a &&& s.b) ^^^ (s.a &&& s.c) ^^^ (s.b &&& s.c)
  let t2 := wordMod (S0 + mj)
  ⟨wordMod (t1 + t2), s.a, s.b, s.c, wordMod (s.d + t1), s.e, s.f, s.g⟩

/-- Compress one 64-byte chunk into the running hash value. -/
def compressChunk (H : List Nat) (chunk : List Nat) : List Nat :=
  let w0 := (List.range 16).map (fun i => bytesToWordBE ((chunk.drop (4 * i)).take 4))
  let w := buildSchedule w0
  let s0 : Sha256St :=
    ⟨H.getD 0 0, H.getD 1 0, H.getD 2 0, H.getD 3 0, H.getD 4 0, H.getD 5 0, H.getD 6 0, H.getD 7 0⟩
  let s := (shaK.zip w).foldl compressStep s0
  [wordMod (H.getD 0 0 + s.a), wordMod (H.getD 1 0 + s.b), wordMod (H.getD 2 0 + s.c),
   wordMod (H.getD 3 0 + s.d), wordMod (H.getD 4 0 + s.e), wordMod (H.getD 5 0 + s.f),
   wordMod (H.getD 6 0 + s.g), wordMod (H.getD 7 0 + s.h)]

/-- SHA-256 digest (32 bytes) of a byte string. -/
def sha256Bytes (msg : List Nat) : List Nat :=
  let ml := msg.length
  let padZeros := (64 - ((ml + 9) % 64)) % 64
  let padded := msg ++ [0x80] ++ List.replicate padZeros 0 ++ toBytesBE 8 (8 * ml)
  let Hf := (chunkBytes padded).foldl compressChunk shaH0
  Hf.foldr (fun w acc => toBytesBE 4 w ++ acc) []

/-- Lowercase hex digits. -/
def hexChars : List Char :=
  "0123456789abcdef".data

/-- Lowercase hex digit for `n < 16`. -/
def hexDigit (n : Nat) : Char := hexChars.getD n '0'

/-- Two lowercase hex characters of a byte. -/
def byteHex (b : Nat) : List Char := [hexDigit (b / 16), hexDigit (b % 16)]

/-- Lowercase hex string of a byte string. -/
def hexOfBytes (bs : List Nat) : String := ⟨bs.foldr (fun b acc => byteHex b ++ acc) []⟩

/-- UTF-8 encoding of one character, as byte values. -/
def utf8Char (c : Char) : List Nat :=
  let n := c.toNat
  if n < 0x80 then [n]
  else if n < 0x800 then [0xC0 ||| (n >>> 6), 0x80 ||| (n &&& 0x3F)]
  else if n < 0x10000 then
    [0xE0 ||| (n >>> 12), 0x80 ||| ((n >>> 6) &&& 0x3F), 0x80 ||| (n &&& 0x3F)]
  else
    [0xF0 ||| (n >>> 18), 0x80 ||| ((n >>> 12) &&& 0x3F), 0x80 ||| ((n >>> 6) &&& 0x3F),
     0x80 ||| (n &&& 0x3F)]

/-- UTF-8 encoding of a string, as byte values (Python `str.encode()`). -/
def utf8Bytes (s : String) : List Nat := s.data.foldr (fun c acc => utf8Char c ++ acc) []

/-- Lowercase hex digest of the SHA-256 of a string (Python
`hashlib.sha256(s.encode()).hexdigest()`). -/
def sha256HexOfString (s : String) : String := hexOfBytes (sha256Bytes (utf8Bytes s))

/-! ## JSON values and Python's canonical `json.dumps`

YAML entries are dictionaries of JSON-compatible values; `compute_hash`
serializes them with `json.dumps(hash_data, sort_keys=True,
separators=(',', ':'))`. -/

/-- A JSON-compatible Python value (the payload of a YAML entry). -/
inductive JVal where
  | null : JVal
  | bool : Bool → JVal
  | int : Int → JVal
  | str : String → JVal
  | list : List JVal → JVal
  | obj : List (String × JVal) → JVal
deriving Repr

/-- Python dict assignment `d[k] = v`: overwrite the first binding of `k` in
place, or append a new binding at the end. -/
def dictSet {α : Type} (k : String) (v : α) : List (String × α) → List (String × α)
  | [] => [(k, v)]
  | p :: ps => if p.1 = k then (k, v) :: ps else p :: dictSet k v ps

/-- Python dict lookup `d.get(k)`. -/
def dictGet {α : Type} (k : String) : List (String × α) → Option α
  | [] => none
  | p :: ps => if p.1 = k then some p.2 else dictGet k ps

/-- Python `k in d`. -/
def dictHas {α : Type} (k : String) (d : List (String × α)) : Bool :=
  (dictGet k d).isSome

/-- Decimal digits, structural on a fuel bound so the kernel can evaluate it
(the fuel never runs out: dividing by ten at least halves the number). -/
def natDigsAux : Nat → Nat → List Char
  | 0, _ => []
  | fuel + 1, n => if n < 10 then [hexDigit n] else natDigsAux fuel (n / 10) ++ [hexDigit (n % 10)]

/-- Python decimal digits of a natural number. -/
def natDigs (n : Nat) : List Char := natDigsAux (n + 1) n

/-- Python `str` of an int (also how `json.dumps` renders ints). -/
def pyIntRepr (n : Int) : String :=
  if n < 0 then "-" ++ ⟨natDigs (-n).toNat⟩ else ⟨natDigs n.toNat⟩

/-- One `\uXXXX` JSON escape. -/
def uEsc (n : Nat) : List Char :=
  ['\\', 'u', hexDigit (n / 4096 % 16), hexDigit (n / 256 % 16), hexDigit (n / 16 % 16),
   hexDigit (n % 16)]

/-- JSON escaping of one character as CPython's `ensure_ascii` encoder does:
quote, backslash and the short control escapes specially, every other
character outside `0x20`-`0x7E` as `\uXXXX` (surrogate pairs beyond the BMP),
printable ASCII verbatim. -/
def jsonEscapeChar (c : Char) : List Char :=
  if c = '"' then ['\\', '"']
  else if c = '\\' then ['\\', '\\']
  else if c.toNat = 8 then ['\\', 'b']
  else if c.toNat = 9 then ['\\', 't']
  else if c.toNat = 10 then ['\\', 'n']
  else if c.toNat = 12 then ['\\', 'f']
  else if c.toNat = 13 then ['\\', 'r']
  else if c.toNat < 0x20 ∨ c.toNat > 0x7E then
    if c.toNat < 0x10000 then uEsc c.toNat
    else uEsc (0xD800 + ((c.toNat - 0x10000) >>> 10)) ++ uEsc (0xDC00 + ((c.toNat - 0x10000) &&& 0x3FF))
  else [c]

/-- JSON string literal serialization. -/
def serStr (s : String) : String :=
  "\"" ++ ⟨s.data.foldr (fun c acc => jsonEscapeChar c ++ acc) []⟩ ++ "\""

/-- Lexicographic comparison of characters by code point, as a Boolean
(both Python's `<` on `str` and Lean's `≤` on `String` are this order). -/
def charsLe : List Char → List Char → Bool
  | [], _ => true
  | _ :: _, [] => false
  | a :: as, b :: bs =>
    if a.toNat < b.toNat then true
    else if b.toNat < a.toNat then false
    else charsLe as bs

/-- String comparison by code points. -/
def strLe (s t : String) : Bool := charsLe s.data t.data

/-- Insert a field into a key-sorted field list, keeping it sorted
(stable: an incoming field precedes existing fields with an equal key). -/
def insertByKey (p : String × JVal) : List (String × JVal) → List (String × JVal)
  | [] => [p]
  | q :: qs => if strLe p.1 q.1 then p :: q :: qs else q :: insertByKey p qs

/-- Stable insertion sort of object fields by key (Python `sort_keys=True`;
string comparison is lexicographic on code points in both languages). -/
def sortByKey : List (String × JVal) → List (String × JVal)
  | [] => []
  | p :: ps => insertByKey p (sortByKey ps)

mutual

/-- Recursively sort every object's fields by key. -/
def canon : JVal → JVal
  | .null => .null
  | .bool b => .bool b
  | .int n => .int n
  | .str s => .str s
  | .list xs => .list (canonList xs)
  | .obj fs => .obj (sortByKey (canonFields fs))

/-- `canon` mapped over a list. -/
def canonList : List JVal → List JVal
  | [] => []
  | x :: xs => canon x :: canonList xs

/-- `canon` mapped over field values. -/
def canonFields : List (String × JVal) → List (String × JVal)
  | [] => []
  | p :: ps => (p.1, canon p.2) :: canonFields ps

end

mutual

/-- Serialize a (key-sorted) value with separators `(',', ':')`. -/
def serJ : JVal → String
  | .null => "null"
  | .bool b => if b then "true" else "false"
  | .int n => pyIntRepr n
  | .str s => serStr s
  | .list xs => "[" ++ serJList xs ++ "]"
  | .obj fs => "\x7b" ++ serJFields fs ++ "\x7d"

/-- Comma-joined serialization of list items. -/
def serJList : List JVal → String
  | [] => ""
  | [x] => serJ x
  | x :: xs => serJ x ++ "," ++ serJList xs

/-- Comma-joined serialization of object fields. -/
def serJFields : List (String × JVal) → String
  | [] => ""
  | [p] => serStr p.1 ++ ":" ++ serJ p.2
  | p :: ps => serStr p.1 ++ ":" ++ serJ p.2 ++ "," ++ serJFields ps

end

/-- Python `json.dumps(v, sort_keys=True, separators=(',', ':'))`. -/
def canonicalDumps (v : JVal) : String := serJ (canon v)

/-! ## Fingerprints (`compute_hash`, `generate_group_id`) -/

/-- Group membership info, as stored in `group_map`:
`(group_yaml_id, offset_x, offset_y, excalidraw_group_id)`. -/
abbrev GroupInfo := String × Int × Int × String

/-- Source `generate_group_id`: stable Excalidraw groupId from a YAML group
id, `sha256(group_yaml_id.encode()).hexdigest()[:16]`. -/
def generate_group_id (groupYamlId : String) : String :=
  (sha256HexOfString groupYamlId).take 16

/-- The `_group_` object folded into the hash input. -/
def groupJVal (gid : String) (x y : Int) : JVal :=
  .obj [("id", .str gid), ("x", .int x), ("y", .int y)]

/-- Source `compute_hash`'s `hash_data`: a copy of the entry, with the
`_group_` key set from `group_info[0..2]` when the element is in a group.
A non-dict entry admits no key assignment; entries are always dicts after
validation. -/
def hashData (entry : JVal) (gi : Option GroupInfo) : JVal :=
  match gi with
  | none => entry
  | some (g, x, y, _) =>
    match entry with
    | .obj fs => .obj (dictSet "_group_" (groupJVal g x y) fs)
    | v => v

/-- Source `compute_hash`: SHA-256 hex digest, truncated to 16 characters, of
the canonical JSON serialization of the entry (plus group info). -/
def compute_hash (entry : JVal) (gi : Option GroupInfo := none) : String :=
  (sha256HexOfString (canonicalDumps (hashData entry gi))).take 16

/-! ## Persisted state and `compute_diff` -/

/-- One entry of the persisted `mappings`: remote identifier and content
fingerprint of a pushed element. -/
structure Mapping where
  excalidraw_id : String
  hash : String
deriving Repr, DecidableEq

/-- The persisted state file. The source also stores a `version` field (always
written as 1 and never read back) and a `pushed_at` wall-clock timestamp
(never read back), which are omitted here. -/
structure StateFile where
  mappings : List (String × Mapping)
deriving Repr, DecidableEq

/-- The state `load_state` returns when no state file exists. -/
def emptyState : StateFile := ⟨[]⟩

/-- Fingerprint of one `(yaml_id, entry)` pair given the group map, as the
diff loop computes it. -/
def entryHash (groupMap : List (String × GroupInfo)) (p : String × JVal) : String :=
  compute_hash p.2 (dictGet p.1 groupMap)

/-- Source `compute_diff`: classify each current element against the persisted
mappings, and pair each stale persisted id with its old remote identifier.
Returns `(to_create, to_update, to_delete, unchanged)`. -/
def compute_diff (yamlEntries : List (String × JVal)) (oldState : StateFile)
    (groupMap : List (String × GroupInfo)) :
    List (String × JVal × String) × List (String × JVal × String) ×
      List (String × String) × List String :=
  let mappings := oldState.mappings
  let step := fun (acc : List (String × JVal × String) × List (String × JVal × String) × List String)
      (p : String × JVal) =>
    let h := entryHash groupMap p
    match dictGet p.1 mappings with
    | none => (acc.1 ++ [(p.1, p.2, h)], acc.2.1, acc.2.2)
    | some m =>
      if m.hash ≠ h then (acc.1, acc.2.1 ++ [(p.1, p.2, h)], acc.2.2)
      else (acc.1, acc.2.1, acc.2.2 ++ [p.1])
  let r := yamlEntries.foldl step ([], [], [])
  let currentIds := yamlEntries.map Prod.fst
  let toDelete :=
    (mappings.filter (fun m => ¬ currentIds.contains m.1)).map (fun m => (m.1, m.2.excalidraw_id))
  (r.1, r.2.1, toDelete, r.2.2)

/-- Classification predicate: the element is new (its id is absent from the
persisted mappings). -/
def isCreate (oldState : StateFile) (p : String × JVal) : Bool :=
  (dictGet p.1 oldState.mappings).isNone

/-- Classification predicate: the element is present but its fingerprint
differs from the stored one. -/
def isUpdate (oldState : StateFile) (groupMap : List (String × GroupInfo))
    (p : String × JVal) : Bool :=
  match dictGet p.1 oldState.mappings with
  | none => false
  | some m => m.hash != entryHash groupMap p

/-- Classification predicate: the element is present with an identical
fingerprint. -/
def isUnchanged (oldState : StateFile) (groupMap : List (String × GroupInfo))
    (p : String × JVal) : Bool :=
  match dictGet p.1 oldState.mappings with
  | none => false
  | some m => m.hash == entryHash groupMap p

theorem diff_foldl_eq (oldState : StateFile) (groupMap : List (String × GroupInfo))
    (entries : List (String × JVal))
    (tc : List (String × JVal × String)) (tu : List (String × JVal × String))
    (un : List String) :
    entries.foldl
      (fun acc p =>
        let h := entryHash groupMap p
        match dictGet p.1 oldState.mappings with
        | none => (acc.1 ++ [(p.1, p.2, h)], acc.2.1, acc.2.2)
        | some m =>
          if m.hash ≠ h then (acc.1, acc.2.1 ++ [(p.1, p.2, h)], acc.2.2)
          else (acc.1, acc.2.1, acc.2.2 ++ [p.1])) (tc, tu, un) =
      (tc ++ (entries.filter (isCreate oldState)).map
          (fun p => (p.1, p.2, entryHash groupMap p)),
       tu ++ (entries.filter (isUpdate oldState groupMap)).map
          (fun p => (p.1, p.2, entryHash groupMap p)),
       un ++ (entries.filter (isUnchanged oldState groupMap)).map Prod.fst) := by
  induction entries generalizing tc tu un with
  | nil => simp
  | cons p ps ih =>
    simp only [List.foldl_cons]
    rcases hm : dictGet p.1 oldState.mappings with _ | m
    · simp only [hm]
      rw [ih]
      simp [isCreate, isUpdate, isUnchanged, hm, List.filter_cons]
    · simp only [hm]
      by_cases hh : m.hash = entryHash groupMap p
      · simp only [hh, ne_eq, not_true_eq_false, if_false, ite_false]
        rw [ih]
        simp [isCreate, isUpdate, isUnchanged, hm, List.filter_cons, hh]
      · simp only [ne_eq, hh, not_false_eq_true, if_true, ite_true]
        rw [ih]
        simp [isCreate, isUpdate, isUnchanged, hm, List.filter_cons, hh]

/-- Equational characterization of `compute_diff`. -/
theorem compute_diff_eq (entries : List (String × JVal)) (oldState : StateFile)
    (groupMap : List (String × GroupInfo)) :
    compute_diff entries oldState groupMap =
      ((entries.filter (isCreate oldState)).map (fun p => (p.1, p.2, entryHash groupMap p)),
       (entries.filter (isUpdate oldState groupMap)).map
          (fun p => (p.1, p.2, entryHash groupMap p)),
       (oldState.mappings.filter (fun m => ¬ (entries.map Prod.fst).contains m.1)).map
          (fun m => (m.1, m.2.excalidraw_id)),
       (entries.filter (isUnchanged oldState groupMap)).map Prod.fst) := by
  simp only [compute_diff]
  rw [diff_foldl_eq]
  simp

/-- Every element is classified: absent, present-differing, or
present-identical. -/
theorem classify_total (st : StateFile) (gm : List (String × GroupInfo)) (p : String × JVal) :
    isCreate st p = true ∨ isUpdate st gm p = true ∨ isUnchanged st gm p = true := by
  unfold isCreate isUpdate isUnchanged
  rcases dictGet p.1 st.mappings with _ | m
  · simp
  · by_cases h : m.hash = entryHash gm p <;> simp [h]

theorem not_isCreate_of_isUpdate (st : StateFile) (gm : List (String × GroupInfo))
    (p : String × JVal) (h : isUpdate st gm p = true) : isCreate st p = false := by
  unfold isCreate isUpdate at *
  rcases hd : dictGet p.1 st.mappings with _ | m
  · rw [hd] at h
    simp at h
  · simp

theorem isUnchanged_iff (st : StateFile) (gm : List (String × GroupInfo)) (p : String × JVal) :
    isUnchanged st gm p = (!isCreate st p && !isUpdate st gm p) := by
  unfold isCreate isUpdate isUnchanged
  rcases hd : dictGet p.1 st.mappings with _ | m
  · simp
  · by_cases h : m.hash = entryHash gm p <;> simp [bne, h]

/-- The ids of the create, update and unchanged buckets together are a
permutation of the current document's ids. -/
theorem classified_ids_perm (entries : List (String × JVal)) (st : StateFile)
    (gm : List (String × GroupInfo)) :
    ((entries.filter (isCreate st)).map Prod.fst ++
      (entries.filter (isUpdate st gm)).map Prod.fst ++
      (entries.filter (isUnchanged st gm)).map Prod.fst).Perm
      (entries.map Prod.fst) := by
  have h1 := List.filter_append_perm (isCreate st) entries
  have h2 := List.filter_append_perm (isUpdate st gm) (entries.filter (fun p => !isCreate st p))
  have e2 : (entries.filter (fun p => !isCreate st p)).filter (isUpdate st gm) =
      entries.filter (isUpdate st gm) := by
    rw [List.filter_filter]
    apply List.filter_congr
    intro p _
    by_cases h : isUpdate st gm p = true
    · simp [h, not_isCreate_of_isUpdate st gm p h]
    · simp [h]
  have e3 : (entries.filter (fun p => !isCreate st p)).filter (fun p => !isUpdate st gm p) =
      entries.filter (isUnchanged st gm) := by
    rw [List.filter_filter]
    apply List.filter_congr
    intro p _
    rw [isUnchanged_iff]
    simp [Bool.and_comm]
  rw [e2, e3] at h2
  have hshape : ((entries.filter (isCreate st)).map Prod.fst ++
      (entries.filter (isUpdate st gm)).map Prod.fst ++
      (entries.filter (isUnchanged st gm)).map Prod.fst) =
      ((entries.filter (isCreate st)) ++
        ((entries.filter (isUpdate st gm)) ++ (entries.filter (isUnchanged st gm)))).map
          Prod.fst := by
    simp [List.map_append]
  rw [hshape]
  exact List.Perm.map Prod.fst ((List.Perm.append_left _ h2).trans h1)

/-- C1: For every current document and persisted state, the diff classifies
each element id exactly once: an id absent from the persisted mappings is
classified create; an id present in the mappings whose current fingerprint
differs from the stored one is classified update; an id present with an
identical fingerprint is classified unchanged; and every persisted id absent
from the current document is classified delete, paired with its old remote
identifier. -/
theorem diff_classifies_each_id_exactly_once
    (entries : List (String × JVal)) (st : StateFile) (gm : List (String × GroupInfo))
    (hse : (entries.map Prod.fst).Nodup) (hsm : (st.mappings.map Prod.fst).Nodup) :
    ((compute_diff entries st gm).1.map (fun t => t.1) ++
      (compute_diff entries st gm).2.1.map (fun t => t.1) ++
      (compute_diff entries st gm).2.2.2 ++
      (compute_diff entries st gm).2.2.1.map Prod.fst).Nodup
    ∧ (∀ id e, (id, e) ∈ entries →
        (dictGet id st.mappings = none →
          (id, e, entryHash gm (id, e)) ∈ (compute_diff entries st gm).1)
        ∧ (∀ m, dictGet id st.mappings = some m →
            (m.hash ≠ entryHash gm (id, e) →
              (id, e, entryHash gm (id, e)) ∈ (compute_diff entries st gm).2.1)
            ∧ (m.hash = entryHash gm (id, e) → id ∈ (compute_diff entries st gm).2.2.2)))
    ∧ (∀ id m, (id, m) ∈ st.mappings → id ∉ entries.map Prod.fst →
        (id, m.excalidraw_id) ∈ (compute_diff entries st gm).2.2.1)
    ∧ (∀ id eid, (id, eid) ∈ (compute_diff entries st gm).2.2.1 →
        id ∉ entries.map Prod.fst ∧ ∃ m, (id, m) ∈ st.mappings ∧ eid = m.excalidraw_id) := by
  rw [compute_diff_eq]
  refine ⟨?_, ?_, ?_, ?_⟩
  · -- exactly-once: the four id lists concatenated are duplicate-free
    simp only [List.map_map]
    have hfst : ∀ (P : String × JVal → Bool),
        (entries.filter P).map ((fun t : String × JVal × String => t.1) ∘
          (fun p : String × JVal => (p.1, p.2, entryHash gm p))) =
        (entries.filter P).map Prod.fst := by
      intro P
      apply List.map_congr_left
      intro p _
      rfl
    have hfstD : (st.mappings.filter (fun m => ¬ (entries.map Prod.fst).contains m.1)).map
        (Prod.fst ∘ (fun m : String × Mapping => (m.1, m.2.excalidraw_id))) =
        (st.mappings.filter (fun m => ¬ (entries.map Prod.fst).contains m.1)).map
          Prod.fst := by
      apply List.map_congr_left
      intro p _
      rfl
    rw [hfst, hfst, hfstD]
    have hperm := classified_ids_perm entries st gm
    have hnd3 : ((entries.filter (isCreate st)).map Prod.fst ++
        (entries.filter (isUpdate st gm)).map Prod.fst ++
        (entries.filter (isUnchanged st gm)).map Prod.fst).Nodup :=
      hperm.nodup_iff.mpr hse
    have hndd : ((st.mappings.filter
        (fun m => ¬ (entries.map Prod.fst).contains m.1)).map Prod.fst).Nodup :=
      ((List.filter_sublist st.mappings).map Prod.fst).nodup hsm
    apply List.Nodup.append hnd3 hndd
    -- disjointness: classified ids are current, delete ids are not
    intro a ha hb
    have hacur : a ∈ entries.map Prod.fst := hperm.mem_iff.mp ha
    obtain ⟨m, hmf, hm1⟩ := List.mem_map.mp hb
    have hm2 := (List.mem_filter.mp hmf).2
    rw [hm1] at hm2
    simp only [decide_not, Bool.not_eq_true', decide_eq_false_iff_not] at hm2
    exact hm2 (by simpa using hacur)
  · intro id e hmem
    constructor
    · intro hnone
      simp only [List.mem_map, List.mem_filter]
      exact ⟨(id, e), ⟨hmem, by simp [isCreate, hnone]⟩, rfl⟩
    · intro m hm
      constructor
      · intro hne
        simp only [List.mem_map, List.mem_filter]
        exact ⟨(id, e), ⟨hmem, by simp [isUpdate, hm, hne]⟩, rfl⟩
      · intro heq
        simp only [List.mem_map, List.mem_filter]
        exact ⟨(id, e), ⟨hmem, by simp [isUnchanged, hm, heq]⟩, rfl⟩
  · intro id m hmem hnot
    simp only [List.mem_map, List.mem_filter]
    exact ⟨(id, m), ⟨hmem, by simpa using hnot⟩, rfl⟩
  · intro id eid hmem
    simp only [List.mem_map, List.mem_filter] at hmem
    obtain ⟨⟨mid, mm⟩, ⟨hmm, hcond⟩, heq⟩ := hmem
    rw [Prod.mk.injEq] at heq
    obtain ⟨h1, h2⟩ := heq
    constructor
    · intro hcur
      simp only [decide_not, Bool.not_eq_true', decide_eq_false_iff_not] at hcond
      exact hcond (by rw [← h1] at hcur; simpa using hcur)
    · exact ⟨mm, by rw [← h1]; exact hmm, h2.symm⟩

/-- Concrete instantiation of the exactly-once diff classification. -/
theorem diff_classifies_each_id_exactly_once_witness :
    ((([("a", JVal.str "x")].map Prod.fst).Nodup ∧
      (([("b", Mapping.mk "e1" "h1")] : List (String × Mapping)).map Prod.fst).Nodup) ∧
     (("b", "e1") ∈ (compute_diff [("a", JVal.str "x")] ⟨[("b", ⟨"e1", "h1"⟩)]⟩ []).2.2.1)) := by
  refine ⟨⟨by decide, by decide⟩, ?_⟩
  have h := diff_classifies_each_id_exactly_once [("a", JVal.str "x")]
    ⟨[("b", ⟨"e1", "h1"⟩)]⟩ [] (by decide) (by decide)
  exact h.2.2.1 "b" ⟨"e1", "h1"⟩ (by decide) (by decide)

/-! ## Document validation (`validate_yaml`)

Elements are Python dicts, modelled as `JVal.obj`. Dynamic type errors
(indexing a non-list, `int()` of a non-numeric value, a non-mapping element)
are modelled as `Except.error`, like the exceptions they raise. Non-string
element identifiers are outside the model (they are rejected here, where
Python would accept any hashable key). -/

/-- A raw diagram document: the `shapes` and `connectors` sections. -/
structure Doc where
  shapes : List JVal
  connectors : List JVal

/-- String payload of a JSON value, when it is one. -/
def getStr : JVal → Option String
  | .str s => some s
  | _ => none

/-- Python `int(str)`: optional sign followed by decimal digits. -/
def pyIntOfString (s : String) : Except String Int :=
  let core := fun (ds : List Char) =>
    if ds ≠ [] ∧ ds.all (fun c => '0' ≤ c ∧ c ≤ '9') then
      Except.ok (ds.foldl (fun a c => a * 10 + (c.toNat - 48)) 0 : Nat)
    else Except.error "ValueError: invalid literal for int()"
  match s.data with
  | '-' :: ds => (core ds).map (fun n => -(n : Int))
  | ds => (core ds).map (fun n => (n : Int))

/-- Python `v == s` for a string literal `s`: true only when `v` is that
string (how the source compares `elem.get('type')` against `'group'`). -/
def isStrVal (v : Option JVal) (s : String) : Bool :=
  match v with
  | some (.str t) => t == s
  | _ => false

/-- Python `int(v)` on a JSON value. -/
def pyInt : JVal → Except String Int
  | .int n => .ok n
  | .bool b => .ok (if b then 1 else 0)
  | .str s => pyIntOfString s
  | _ => .error "TypeError: int() argument"

/-- Validator state threaded through `process_element`: flattened shapes,
the id set, the group map, and the text id counter. -/
structure VState where
  shapes : List JVal
  shape_ids : List String
  group_map : List (String × GroupInfo)
  text_counter : Nat

/-- Initial validator state. -/
def VState.init : VState := ⟨[], [], [], 0⟩

/-- Continuation of `processShape` after the text auto-id step: the required
field checks, the duplicate-id check, and the state extension. -/
def processShapeRest (gctx : Option GroupInfo) (st : VState) (fs : List (String × JVal))
    (ctr : Nat) (isText : Bool) : Except String VState :=
  match dictGet "id" fs with
  | none => .error "Shape missing 'id'"
  | some idv =>
    match getStr idv with
    | none => .error "TypeError: non-string element id (outside the model)"
    | some elemId =>
      if elemId ∈ st.shape_ids then
        .error ("Duplicate element ID: '" ++ elemId ++ "'")
      else if isText && ! dictHas "text" fs then
        .error ("Text element '" ++ elemId ++ "' missing 'text' field")
      else if ¬ dictHas "pos" fs then
        .error ("Element '" ++ elemId ++ "' missing 'pos'")
      else
        let st1 : VState :=
          ⟨st.shapes ++ [.obj fs], st.shape_ids ++ [elemId], st.group_map, ctr⟩
        match gctx with
        | none => .ok st1
        | some ctx =>
          if (dictGet elemId st.group_map).isSome then
            .error ("Element '" ++ elemId ++ "' belongs to multiple groups")
          else .ok { st1 with group_map := st.group_map ++ [(elemId, ctx)] }

/-- The non-group branch of `process_element`: validate one shape or text
(with its enclosing group context, if any) and append it to the state.
Anonymous text elements get the synthetic id `_text_{n}` written into their
entry. -/
def processShape (gctx : Option GroupInfo) (st : VState) (fs : List (String × JVal)) :
    Except String VState :=
  if ¬ dictHas "type" fs then
    .error "Element missing 'type'"
  else if isStrVal (dictGet "type" fs) "text" && ! dictHas "id" fs then
    processShapeRest gctx st (dictSet "id" (.str ("_text_" ++ (⟨natDigs st.text_counter⟩ : String))) fs)
      (st.text_counter + 1) (isStrVal (dictGet "type" fs) "text")
  else
    processShapeRest gctx st fs st.text_counter (isStrVal (dictGet "type" fs) "text")

/-- Inherit the group's z-index when the member has none
(`nested['z'] = group_z`). -/
def withZ (groupZ : JVal) (nested : JVal) : JVal :=
  match nested with
  | .obj nfs => if dictHas "z" nfs then .obj nfs else .obj (dictSet "z" groupZ nfs)
  | v => v

/-- `process_element` for a member of a group: a nested group is an error,
anything else is a shape/text with the group's context. -/
def processMember (ctx : GroupInfo) (st : VState) (elem : JVal) : Except String VState :=
  match elem with
  | .obj fs =>
    if isStrVal (dictGet "type" fs) "group" then
      .error "Nested groups are not allowed (found group inside group)"
    else processShape (some ctx) st fs
  | _ => .error "TypeError: element is not a mapping"

/-- `process_element` for a top-level element: either a group (validate its
header, then process each member with the group context and inherited z) or
a plain shape/text. -/
def processTopElem (st : VState) (elem : JVal) : Except String VState :=
  match elem with
  | .obj fs =>
    if isStrVal (dictGet "type" fs) "group" then do
      if ¬ dictHas "id" fs then
        throw "Group missing 'id'"
      match getStr ((dictGet "id" fs).getD JVal.null) with
      | none => throw "TypeError: non-string group id (outside the model)"
      | some groupId => do
        if ¬ dictHas "pos" fs then
          throw ("Group '" ++ groupId ++ "' missing 'pos'")
        if ¬ dictHas "shapes" fs then
          throw ("Group '" ++ groupId ++ "' missing 'shapes' array")
        match dictGet "pos" fs with
        | some (.list pos) => do
          match pos.get? 0, pos.get? 1 with
          | some p0, some p1 => do
            let gx ← pyInt p0
            let gy ← pyInt p1
            let egid := generate_group_id groupId
            let groupZ := (dictGet "z" fs).getD (.int 0)
            match dictGet "shapes" fs with
            | some (.list members) =>
              members.foldlM (fun st m => processMember (groupId, gx, gy, egid) st (withZ groupZ m)) st
            | _ => throw "TypeError: group 'shapes' is not a list"
          | _, _ => throw "IndexError: group 'pos' too short"
        | _ => throw "TypeError: group 'pos' is not a list"
    else processShape none st fs
  | _ => .error "TypeError: element is not a mapping"

/-- Validate one connector against the flattened shape-id set, filling in
the default id `{from}-to-{to}` and default type `arrow`. -/
def validateConnector (ids : List String) (c : JVal) : Except String JVal :=
  match c with
  | .obj fs => do
    if ! dictHas "from" fs || ! dictHas "to" fs then
      throw "Connector missing 'from' or 'to'"
    let fs1 ←
      if dictHas "id" fs then pure fs
      else
        match getStr ((dictGet "from" fs).getD JVal.null), getStr ((dictGet "to" fs).getD JVal.null) with
        | some f, some t => pure (dictSet "id" (.str (f ++ "-to-" ++ t)) fs)
        | _, _ => throw "TypeError: non-string connector endpoint (outside the model)"
    let fs2 := if dictHas "type" fs1 then fs1 else dictSet "type" (.str "arrow") fs1
    match dictGet "from" fs2 with
    | some (.str f) =>
      if f ∈ ids then
        match dictGet "to" fs2 with
        | some (.str t) =>
          if t ∈ ids then pure (.obj fs2)
          else throw ("Connector: 'to' references unknown shape '" ++ t ++ "'")
        | _ => throw "Connector: 'to' references unknown shape"
      else throw ("Connector: 'from' references unknown shape '" ++ f ++ "'")
    | _ => throw "Connector: 'from' references unknown shape"
  | _ => .error "TypeError: connector is not a mapping"

/-- Source `validate_yaml`: flatten the shapes (processing groups), then
validate and normalize the connectors. Returns
`(shapes, connectors, group_map)`. -/
def validate_yaml (doc : Doc) :
    Except String (List JVal × List JVal × List (String × GroupInfo)) := do
  let st ← doc.shapes.foldlM processTopElem VState.init
  let cs ← doc.connectors.foldlM
    (fun acc c => do
      let c' ← validateConnector st.shape_ids c
      pure (acc ++ [c'])) []
  pure (st.shapes, cs, st.group_map)

/-- The identifier of a flattened element (its `id` field). -/
def elemIdOf (v : JVal) : String :=
  match v with
  | .obj fs =>
    match dictGet "id" fs with
    | some (.str s) => s
    | _ => ""
  | _ => ""

/-- An invariant preserved by a fallible fold is an invariant of its result. -/
theorem foldlM_inv {σ α : Type} (P : σ → Prop) (f : σ → α → Except String σ)
    (hf : ∀ s a s', P s → f s a = .ok s' → P s') :
    ∀ (l : List α) (s s' : σ), P s → l.foldlM f s = .ok s' → P s' := by
  intro l
  induction l with
  | nil =>
    intro s s' hp h
    simp only [List.foldlM_nil, pure, Except.pure] at h
    cases h
    exact hp
  | cons a l ih =>
    intro s s' hp h
    simp only [List.foldlM_cons] at h
    cases hfa : f s a with
    | error e => rw [hfa] at h; simp [bind, Except.bind] at h
    | ok mid =>
      rw [hfa] at h
      simp only [bind, Except.bind] at h
      exact ih mid s' (hf s a mid hp hfa) h

/-- The validator state invariant: the recorded id set is duplicate-free and
is exactly the ids of the flattened shapes, in order. -/
def VInv (st : VState) : Prop :=
  st.shape_ids.Nodup ∧ st.shapes.map elemIdOf = st.shape_ids

theorem processShapeRest_inv (g : Option GroupInfo) (st : VState)
    (fs : List (String × JVal)) (ctr : Nat) (tx : Bool) (st' : VState)
    (hinv : VInv st) (h : processShapeRest g st fs ctr tx = .ok st') : VInv st' := by
  unfold processShapeRest at h
  split at h
  · cases h
  · rename_i idv hget
    split at h
    · cases h
    · rename_i elemId hstr
      have hid : idv = .str elemId := by
        cases idv <;> simp [getStr] at hstr
        rw [hstr]
      have hnew : elemIdOf (.obj fs) = elemId := by
        simp [elemIdOf, hget, hid]
      split at h
      · cases h
      · rename_i hdup
        split at h
        · cases h
        · split at h
          · cases h
          · have hres : ∀ (st2 : VState),
                st2.shapes = st.shapes ++ [.obj fs] → st2.shape_ids = st.shape_ids ++ [elemId] →
                VInv st2 := by
              intro st2 h1 h2
              refine ⟨?_, ?_⟩
              · rw [h2]
                simp only [List.nodup_append]
                exact ⟨hinv.1, List.nodup_singleton _,
                  by intro a ha hb; simp at hb; subst hb; exact hdup ha⟩
              · rw [h1, h2, List.map_append, hinv.2, List.map_singleton, hnew]
            split at h
            · cases h
              exact hres _ rfl rfl
            · split at h
              · cases h
              · cases h
                exact hres _ rfl rfl

theorem processShape_inv (g : Option GroupInfo) (st : VState)
    (fs : List (String × JVal)) (st' : VState)
    (hinv : VInv st) (h : processShape g st fs = .ok st') : VInv st' := by
  unfold processShape at h
  split at h
  · cases h
  · split at h
    · exact processShapeRest_inv _ _ _ _ _ _ hinv h
    · exact processShapeRest_inv _ _ _ _ _ _ hinv h

theorem processMember_inv (ctx : GroupInfo) (st : VState) (e : JVal) (st' : VState)
    (hinv : VInv st) (h : processMember ctx st e = .ok st') : VInv st' := by
  unfold processMember at h
  split at h
  · split at h
    · cases h
    · exact processShape_inv _ _ _ _ hinv h
  · cases h

theorem processTopElem_inv (st : VState) (e : JVal) (st' : VState)
    (hinv : VInv st) (h : processTopElem st e = .ok st') : VInv st' := by
  unfold processTopElem at h
  split at h
  · split at h
    · simp only [bind, Except.bind, pure, Except.pure] at h
      repeat' split at h
      all_goals first
        | cases h
        | exact foldlM_inv VInv _
            (fun s a s' hp hf => processMember_inv _ s _ s' hp hf) _ st st' hinv h
    · exact processShape_inv _ _ _ _ hinv h
  · cases h

/-- Successful validation yields flattened shapes with pairwise-distinct
identifiers. -/
theorem validate_ok_ids_nodup (doc : Doc)
    (out : List JVal × List JVal × List (String × GroupInfo))
    (h : validate_yaml doc = .ok out) : (out.1.map elemIdOf).Nodup := by
  unfold validate_yaml at h
  simp only [bind, Except.bind, pure, Except.pure] at h
  split at h
  · cases h
  · rename_i st hfold
    have hst : VInv st :=
      foldlM_inv VInv _ (fun s a s' hp hf => processTopElem_inv s _ s' hp hf)
        _ _ _ ⟨List.nodup_nil, rfl⟩ hfold
    split at h
    · cases h
    · cases h
      rw [hst.2]
      exact hst.1

/-! ## C8: identifier uniqueness -/

/-- A rectangle with id `a`. -/
def rectA : JVal :=
  .obj [("id", .str "a"), ("type", .str "rectangle"),
        ("pos", .list [.int 0, .int 0, .str "10x10"])]

/-- A second shape also with id `a`. -/
def rectA2 : JVal :=
  .obj [("id", .str "a"), ("type", .str "rectangle"), ("pos", .list [.int 5, .int 5])]

/-- A rectangle with id `b`. -/
def rectB : JVal :=
  .obj [("id", .str "b"), ("type", .str "rectangle"),
        ("pos", .list [.int 9, .int 9, .str "10x10"])]

/-- A connector with explicit id `c1`. -/
def connC1 : JVal := .obj [("id", .str "c1"), ("from", .str "a"), ("to", .str "b")]

/-- Two shapes sharing id `a`. -/
def dupShapeDoc : Doc := ⟨[rectA, rectA2], []⟩

/-- Two connectors sharing id `c1` (both referencing valid shapes). -/
def dupConnDoc : Doc := ⟨[rectA, rectB], [connC1, connC1]⟩

/-- C8 counterexample: a document in which two connectors share the
identifier `c1` passes validation, although the claim says any collision
anywhere in the document (connectors included) fails validation. -/
theorem duplicate_connector_id_accepted : (validate_yaml dupConnDoc).isOk = true := by rfl

/-- C8 (amended): a duplicate identifier among shapes and texts fails
validation (a successfully validated document has pairwise-distinct flattened
element ids), and an otherwise-well-formed duplicate fails with an error
naming the colliding identifier; connector identifiers are not checked. -/
theorem duplicate_shape_id_rejected
    : (∀ (doc : Doc) out, validate_yaml doc = .ok out → (out.1.map elemIdOf).Nodup)
      ∧ validate_yaml dupShapeDoc = .error "Duplicate element ID: 'a'" :=
  ⟨fun doc out h => validate_ok_ids_nodup doc out h, by rfl⟩

/-- Concrete instantiation of the amended C8 theorem. -/
theorem duplicate_shape_id_rejected_witness :
    validate_yaml ⟨[], []⟩ = .ok ([], [], []) ∧ (([] : List JVal).map elemIdOf).Nodup :=
  ⟨rfl, duplicate_shape_id_rejected.1 ⟨[], []⟩ ([], [], []) rfl⟩

/-! ## Arrow geometry (`parse_pos`, `clip_to_rect`, `compute_arrow`)

Python floats are modelled as `ℚ`; the properties checked here (failure on a
missing dimension, the zero-length-ray identity) do not involve rounding. -/

/-- Python `str(v)` for the values that can appear in a `pos` entry. -/
def pyStr : JVal → String
  | .str s => s
  | .int n => pyIntRepr n
  | .bool b => if b then "True" else "False"
  | .null => "None"
  | _ => ""

/-- Python `str.split(sep)` for a one-character separator, over characters. -/
def splitOnChar (c : Char) : List Char → List (List Char)
  | [] => [[]]
  | ch :: rest =>
    match splitOnChar c rest with
    | [] => if ch = c then [[], []] else [[ch]]
    | s :: ss => if ch = c then [] :: s :: ss else (ch :: s) :: ss

/-- Source `parse_pos`: `[x, y, 'WIDTHxHEIGHT']` or `[x, y]`; a third item
without an `x` is ignored; a malformed dimension string raises. -/
def parse_pos (pos : List JVal) : Except String (Int × Int × Option Int × Option Int) := do
  match pos.get? 0, pos.get? 1 with
  | some p0, some p1 => do
    let x ← pyInt p0
    let y ← pyInt p1
    if pos.length ≥ 3 then
      let dim := pyStr ((pos.get? 2).getD JVal.null)
      if dim.data.contains 'x' then
        match splitOnChar 'x' dim.data with
        | [ws, hs] => do
          let w ← pyIntOfString ⟨ws⟩
          let h ← pyIntOfString ⟨hs⟩
          pure (x, y, some w, some h)
        | _ => throw "ValueError: dimension split did not give two values"
      else pure (x, y, none, none)
    else pure (x, y, none, none)
  | _, _ => throw "IndexError: pos has fewer than two items"

/-- Source `clip_to_rect`: where the ray from `(cx, cy)` toward `(tx, ty)`
exits the rectangle expanded by `pad`; the candidate crossings are collected
in source order (right, left, bottom, top) and the one with the smallest
parameter wins (earliest on ties, like Python's stable sort). -/
def clip_to_rect (cx cy tx ty rx ry rw rh : ℚ) (pad : ℚ := 5) : ℚ × ℚ :=
  let dx := tx - cx
  let dy := ty - cy
  if dx = 0 ∧ dy = 0 then (cx, cy)
  else
    let cands : List (ℚ × ℚ × ℚ) :=
      (if dx > 0 then
        let t := (rx + rw + pad - cx) / dx
        let yAt := cy + t * dy
        if ry - pad ≤ yAt ∧ yAt ≤ ry + rh + pad then [(t, rx + rw + pad, yAt)] else []
      else []) ++
      (if dx < 0 then
        let t := (rx - pad - cx) / dx
        let yAt := cy + t * dy
        if ry - pad ≤ yAt ∧ yAt ≤ ry + rh + pad then [(t, rx - pad, yAt)] else []
      else []) ++
      (if dy > 0 then
        let t := (ry + rh + pad - cy) / dy
        let xAt := cx + t * dx
        if rx - pad ≤ xAt ∧ xAt ≤ rx + rw + pad then [(t, xAt, ry + rh + pad)] else []
      else []) ++
      (if dy < 0 then
        let t := (ry - pad - cy) / dy
        let xAt := cx + t * dx
        if rx - pad ≤ xAt ∧ xAt ≤ rx + rw + pad then [(t, xAt, ry - pad)] else []
      else [])
    match cands.foldl
        (fun acc c =>
          match acc with
          | none => some c
          | some b => if c.1 < b.1 then some c else acc) none with
    | none => (cx, cy)
    | some b => (b.2.1, b.2.2)

/-- Python `w / 2` when `w` may be `None`: the `TypeError` the source hits for
an endpoint without a width/height. -/
def halfDim : Option Int → Except String ℚ
  | none => .error "TypeError: unsupported operand type(s) for /: 'NoneType' and 'int'"
  | some w => .ok ((w : ℚ) / 2)

/-- A dimension as a number (for the rectangle passed to `clip_to_rect`). -/
def dimQ (d : Option Int) : ℚ := ((d.getD 0 : Int) : ℚ)

/-- Arrow geometry: position, bounding box, and two-point path. -/
structure ArrowGeom where
  x : ℚ
  y : ℚ
  width : ℚ
  height : ℚ
  points : List (List ℚ)
deriving Repr, DecidableEq

/-- The `pos` field of an element, as a list. -/
def posListOf (v : JVal) : Except String (List JVal) :=
  match v with
  | .obj fs =>
    match dictGet "pos" fs with
    | some (.list l) => .ok l
    | some _ => .error "TypeError: pos is not a list"
    | none => .error "KeyError: 'pos'"
  | _ => .error "TypeError: element is not a mapping"

/-- Group offset applied to a parsed position (`fx += gx; fy += gy`). -/
def applyGroupOffset (gmap : List (String × GroupInfo)) (elemId : String)
    (x y : Int) : Int × Int :=
  match dictGet elemId gmap with
  | some (_, gx, gy, _) => (x + gx, y + gy)
  | none => (x, y)

/-- Source `compute_arrow`: center-to-center ray between two shapes, clipped
to each shape's padded bounding box. An endpoint whose `pos` carries no
width/height makes `fw / 2` raise a `TypeError`, exactly as in the source. -/
def compute_arrow (fromShape toShape : JVal) (gmap : List (String × GroupInfo)) :
    Except String ArrowGeom := do
  let fpos ← posListOf fromShape
  let tpos ← posListOf toShape
  let (fx0, fy0, fw, fh) ← parse_pos fpos
  let (tx0, ty0, tw, th) ← parse_pos tpos
  let (fx, fy) := applyGroupOffset gmap (elemIdOf fromShape) fx0 fy0
  let (tx, ty) := applyGroupOffset gmap (elemIdOf toShape) tx0 ty0
  let fwh ← halfDim fw
  let fhh ← halfDim fh
  let twh ← halfDim tw
  let thh ← halfDim th
  let fcx := (fx : ℚ) + fwh
  let fcy := (fy : ℚ) + fhh
  let tcx := (tx : ℚ) + twh
  let tcy := (ty : ℚ) + thh
  let s := clip_to_rect fcx fcy tcx tcy (fx : ℚ) (fy : ℚ) (dimQ fw) (dimQ fh) 5
  let e := clip_to_rect tcx tcy fcx fcy (tx : ℚ) (ty : ℚ) (dimQ tw) (dimQ th) 5
  pure ⟨s.1, s.2, abs (e.1 - s.1), abs (e.2 - s.2), [[0, 0], [e.1 - s.1, e.2 - s.2]]⟩

/-! ## Skeleton compilation

Skeleton values: most fields copy JSON values from the document (with
defaults merged in); connector geometry carries exact rationals. Skeletons
are opaque payloads for the canvas client, so no claim inspects them beyond
how they are produced and batched. -/

/-- A value in a skeleton element. -/
inductive SVal where
  | jv : JVal → SVal
  | q : ℚ → SVal
  | pts : List (List ℚ) → SVal
deriving Repr

/-- A skeleton element: the normalized dict sent to the canvas. -/
abbrev Skel := List (String × SVal)

/-- Python truthiness of a JSON value. -/
def pyTruthy : JVal → Bool
  | .null => false
  | .bool b => b
  | .int n => n != 0
  | .str s => s != ""
  | .list xs => !xs.isEmpty
  | .obj fs => !fs.isEmpty

/-- Source `resolve_font_family`: ints pass through (including bools, which
are ints in Python), known font names map to their ids, anything else falls
back to the label default `1`. -/
def resolve_font_family (v : JVal) : Int :=
  match v with
  | .int n => n
  | .bool b => if b then 1 else 0
  | .str s =>
    if s = "Virgil" then 1 else if s = "Helvetica" then 2 else if s = "Cascadia" then 3 else 1
  | _ => 1

/-- Source `SHAPE_DEFAULTS`. -/
def SHAPE_DEFAULTS : List (String × JVal) :=
  [("fillStyle", .str "solid"), ("strokeWidth", .int 2), ("strokeStyle", .str "solid"),
   ("roughness", .int 1), ("opacity", .int 100)]

/-- A `color`/`style` sub-dict of an element: absent means empty, a present
non-dict raises. -/
def subDict (k : String) (fs : List (String × JVal)) :
    Except String (List (String × JVal)) :=
  match dictGet k fs with
  | none => .ok []
  | some (.obj c) => .ok c
  | some _ => .error "AttributeError: value has no attribute get"

/-- Source `shape_to_skeleton`. -/
def shape_to_skeleton (shape : JVal) (gmap : List (String × GroupInfo)) :
    Except String Skel := do
  match shape with
  | .obj fs => do
    let pos ← posListOf shape
    let (x0, y0, w, h) ← parse_pos pos
    let (x, y) := applyGroupOffset gmap (elemIdOf shape) x0 y0
    let egidOpt : Option String :=
      match dictGet (elemIdOf shape) gmap with
      | some (_, _, _, egid) => some egid
      | none => none
    let color ← subDict "color" fs
    let style ← subDict "style" fs
    let dimJ := fun (d : Option Int) => match d with
      | some n => JVal.int n
      | none => JVal.null
    let sk0 : Skel :=
      [("type", .jv ((dictGet "type" fs).getD .null)),
       ("x", .jv (.int x)), ("y", .jv (.int y)),
       ("width", .jv (dimJ w)), ("height", .jv (dimJ h)),
       ("strokeColor", .jv ((dictGet "stroke" color).getD (.str "#1e1e1e"))),
       ("backgroundColor", .jv ((dictGet "bg" color).getD (.str "transparent")))]
    let sk1 := SHAPE_DEFAULTS.foldl
      (fun sk kd => dictSet kd.1 (SVal.jv ((dictGet kd.1 style).getD kd.2)) sk) sk0
    let sk2 :=
      match egidOpt with
      | some egid => dictSet "groupIds" (.jv (.list [.str egid])) sk1
      | none => sk1
    let sk3 :=
      if pyTruthy ((dictGet "label" fs).getD .null) then
        dictSet "label"
          (.jv (.obj
            [("text", (dictGet "label" fs).getD .null),
             ("fontSize", (dictGet "fontSize" fs).getD (.int 16)),
             ("fontFamily", .int (resolve_font_family ((dictGet "fontFamily" fs).getD (.int 1))))]))
          sk2
      else sk2
    pure sk3
  | _ => .error "TypeError: element is not a mapping"

/-- Source `text_to_skeleton`. -/
def text_to_skeleton (entry : JVal) (gmap : List (String × GroupInfo)) :
    Except String Skel := do
  match entry with
  | .obj fs => do
    let pos ← posListOf entry
    let (x0, y0, _, _) ← parse_pos pos
    let (x, y) := applyGroupOffset gmap (elemIdOf entry) x0 y0
    let egidOpt : Option String :=
      match dictGet (elemIdOf entry) gmap with
      | some (_, _, _, egid) => some egid
      | none => none
    let color ← subDict "color" fs
    match dictGet "text" fs with
    | none => throw "KeyError: 'text'"
    | some tv =>
      let sk0 : Skel :=
        [("type", .jv (.str "text")), ("x", .jv (.int x)), ("y", .jv (.int y)),
         ("text", .jv tv),
         ("fontSize", .jv ((dictGet "fontSize" fs).getD (.int 20))),
         ("fontFamily", .jv (.int (resolve_font_family ((dictGet "fontFamily" fs).getD (.int 1))))),
         ("strokeColor", .jv ((dictGet "stroke" color).getD (.str "#1e1e1e")))]
      pure (match egidOpt with
        | some egid => dictSet "groupIds" (.jv (.list [.str egid])) sk0
        | none => sk0)
  | _ => .error "TypeError: element is not a mapping"

/-- Source `connector_to_skeleton`. -/
def connector_to_skeleton (connector : JVal) (shapesLookup : List (String × JVal))
    (gmap : List (String × GroupInfo)) : Except String Skel := do
  match connector with
  | .obj fs => do
    let fromShape ←
      match getStr ((dictGet "from" fs).getD .null) with
      | some f =>
        match dictGet f shapesLookup with
        | some s => pure s
        | none => throw "KeyError: from shape"
      | none => throw "KeyError: from shape"
    let toShape ←
      match getStr ((dictGet "to" fs).getD .null) with
      | some t =>
        match dictGet t shapesLookup with
        | some s => pure s
        | none => throw "KeyError: to shape"
      | none => throw "KeyError: to shape"
    let geom ← compute_arrow fromShape toShape gmap
    let ctype := (dictGet "type" fs).getD .null
    let style ← subDict "style" fs
    let color ← subDict "color" fs
    let sk0 : Skel :=
      [("type", .jv ctype),
       ("x", .q geom.x), ("y", .q geom.y),
       ("width", .q geom.width), ("height", .q geom.height),
       ("points", .pts geom.points),
       ("strokeColor", .jv ((dictGet "stroke" color).getD (.str "#1e1e1e"))),
       ("strokeWidth", .jv ((dictGet "strokeWidth" style).getD (.int 2))),
       ("strokeStyle", .jv ((dictGet "strokeStyle" style).getD (.str "solid"))),
       ("startArrowhead", .jv ((dictGet "startArrowhead" fs).getD .null)),
       ("endArrowhead", .jv ((dictGet "endArrowhead" fs).getD
          (if isStrVal (some ctype) "arrow" then .str "arrow" else .null)))]
    let sk1 :=
      if pyTruthy ((dictGet "label" fs).getD .null) then
        dictSet "label"
          (.jv (.obj
            [("text", (dictGet "label" fs).getD .null),
             ("fontFamily", .int (resolve_font_family ((dictGet "fontFamily" fs).getD (.int 1))))]))
          sk0
      else sk0
    pure sk1
  | _ => .error "TypeError: connector is not a mapping"

/-- A text element at `[100, 100]` (no width/height). -/
def c7Text : JVal :=
  .obj [("id", .str "t"), ("type", .str "text"), ("text", .str "hi"),
        ("pos", .list [.int 100, .int 100])]

/-- C7: the claim says an endpoint without width/height in its `pos` is
treated as a zero-size point and the geometry succeeds; the code instead
raises a `TypeError` (`None / 2`) for such an endpoint, so only the
zero-length-ray half of the claim holds (`clip_to_rect` with coincident
centers returns the shared center unchanged). -/
theorem arrow_to_dimensionless_endpoint_raises :
    compute_arrow c7Text rectB [] =
      .error "TypeError: unsupported operand type(s) for /: 'NoneType' and 'int'"
    ∧ ∀ cx cy rx ry rw rh pad : ℚ, clip_to_rect cx cy cx cy rx ry rw rh pad = (cx, cy) := by
  constructor
  · rfl
  · intro cx cy rx ry rw rh pad
    simp [clip_to_rect]

/-! ## The reconciliation driver (`push`)

`push` is parametric in the canvas client (the Python client is duck-typed);
a client is four fallible operations over an abstract connection state `σ`.
The state file is threaded as an `Option StateFile` (`none`: no file on
disk, `load_state` returns the empty state). A failed operation yields
`Except.error` and leaves `σ` at its last known value. -/

/-- A created/listed remote element, reduced to the only field the driver
reads: `el.get('id')`. -/
structure Created where
  idOpt : Option String
deriving Repr, DecidableEq

/-- The canvas client interface (list / batch-create / delete / clear). -/
structure Client (σ : Type) where
  clearAll : σ → Except String σ
  create_elements : σ → List Skel → Except String (List Created × σ)
  delete_element : σ → String → Except String σ
  get_elements : σ → Except String (List Created × σ)

/-- The printed outcome of a push: which ids were created, updated, deleted
(with their remote ids), unchanged, and whether this was a clear-mode push. -/
structure Summary where
  created : List String
  updated : List String
  deleted : List (String × String)
  unchangedIds : List String
  clearMode : Bool
deriving Repr, DecidableEq

/-- Everything `push` computes before touching the network: the z-ordered
`yaml_entries`, the compiled `skeletons`, and the group map. -/
structure Prep where
  entries : List (String × JVal)
  skels : List (String × Skel)
  gmap : List (String × GroupInfo)

/-- The z-index of a shape for sorting (`shape.get('z', 0)`); non-integer z
values are outside the model. -/
def zOf (s : JVal) : Int :=
  match s with
  | .obj fs =>
    match dictGet "z" fs with
    | some (.int n) => n
    | _ => 0
  | _ => 0

/-- Strict lexicographic order on `(z, original index)` sort keys; the keys
are pairwise distinct, so this fully determines `sorted`'s output. -/
def zKeyLt (a b : Int × Nat) : Bool :=
  if a.1 < b.1 then true else if b.1 < a.1 then false else a.2 < b.2

/-- Insertion into a list sorted by `zKeyLt`. -/
def insertZ (p : (Int × Nat) × JVal) : List ((Int × Nat) × JVal) → List ((Int × Nat) × JVal)
  | [] => [p]
  | q :: qs => if zKeyLt q.1 p.1 then q :: insertZ p qs else p :: q :: qs

/-- Sort `enumerate(shapes)` by `(z, index)` (Python's `sorted`). -/
def sortShapesByZ (shapes : List JVal) : List JVal :=
  ((shapes.enum.map (fun si => ((zOf si.2, si.1), si.2))).foldr insertZ []).map
    (fun p => p.2)

/-- The pre-network phase of `push`: validate, build the shapes lookup,
z-sort, and compile `yaml_entries` and `skeletons` (shapes in z order, then
connectors). -/
def prepare (doc : Doc) : Except String Prep := do
  let (shapes, connectors, gmap) ← validate_yaml doc
  let shapesLookup := shapes.foldl (fun acc s => dictSet (elemIdOf s) s acc) []
  let sorted := sortShapesByZ shapes
  let (entries0, skels0) ← sorted.foldlM
    (fun (acc : List (String × JVal) × List (String × Skel)) s => do
      let sk ← if isStrVal (some ((match s with | .obj fs => (dictGet "type" fs).getD .null | _ => .null) : JVal)) "text"
        then text_to_skeleton s gmap
        else shape_to_skeleton s gmap
      pure (dictSet (elemIdOf s) s acc.1, dictSet (elemIdOf s) sk acc.2))
    ([], [])
  let (entries1, skels1) ← connectors.foldlM
    (fun (acc : List (String × JVal) × List (String × Skel)) c => do
      let sk ← connector_to_skeleton c shapesLookup gmap
      pure (dictSet (elemIdOf c) c acc.1, dictSet (elemIdOf c) sk acc.2))
    (entries0, skels0)
  pure ⟨entries1, skels1, gmap⟩

/-- The remote identifier stored for `yid` (`old_state["mappings"][yid]
["excalidraw_id"]`; callers only use it for ids present in the mappings). -/
def mappingEidOf (st : StateFile) (yid : String) : String :=
  ((dictGet yid st.mappings).getD ⟨"", ""⟩).excalidraw_id

/-- The state written by a clear-mode push: pair each entry with the created
element at the same index (`created[i]` raises `IndexError` when the batch
response is shorter than the request). -/
def buildClearMappings (gmap : List (String × GroupInfo)) :
    List (String × JVal) → List Created → Except String (List (String × Mapping))
  | [], _ => .ok []
  | _ :: _, [] => .error "IndexError: list index out of range"
  | (yid, e) :: es, c :: cs =>
    (buildClearMappings gmap es cs).map
      (fun ms => (yid, ⟨c.idOpt.getD "", compute_hash e (dictGet yid gmap)⟩) :: ms)

/-- The fresh mappings of an incremental push, in batch order: entry `i` gets
`created[i].get("id", "")` when the response is long enough, else `""`. -/
def buildIncrMappings :
    List (String × JVal × String) → List Created → List (String × Mapping)
  | [], _ => []
  | (yid, _, h) :: bs, [] => (yid, ⟨"", h⟩) :: buildIncrMappings bs []
  | (yid, _, h) :: bs, c :: cs => (yid, ⟨c.idOpt.getD "", h⟩) :: buildIncrMappings bs cs

/-- A delete call with its failure swallowed (`try ... except: pass`). -/
def swallowDelete {σ : Type} (C : Client σ) (s : σ) (eid : String) : σ :=
  match C.delete_element s eid with
  | .ok s' => s'
  | .error _ => s

/-- Final stage of a clear-mode push: build the fresh state (an `IndexError`
when the batch response is too short) and write it. -/
def pushClearFinish (p : Prep) (created : List Created) {σ : Type} (s2 : σ)
    (sf : Option StateFile) : Except String Summary × σ × Option StateFile :=
  match buildClearMappings p.gmap p.entries created with
  | .error e => (.error e, s2, sf)
  | .ok maps => (.ok ⟨p.entries.map Prod.fst, [], [], [], true⟩, s2, some ⟨maps⟩)

/-- Create stage of a clear-mode push: one batch with every skeleton in
entry order. -/
def pushClearCreate {σ : Type} (C : Client σ) (p : Prep) (s1 : σ)
    (sf : Option StateFile) : Except String Summary × σ × Option StateFile :=
  match C.create_elements s1 (p.entries.map (fun q => (dictGet q.1 p.skels).getD [])) with
  | .error e => (.error e, s1, sf)
  | .ok (created, s2) => pushClearFinish p created s2 sf

/-- Clear-mode push: clear the canvas, create every element in one batch,
write a brand-new state. -/
def pushClear {σ : Type} (C : Client σ) (p : Prep) (s0 : σ) (sf : Option StateFile) :
    Except String Summary × σ × Option StateFile :=
  match C.clearAll s0 with
  | .error e => (.error e, s0, sf)
  | .ok s1 => pushClearCreate C p s1 sf

/-- Final stage of an incremental push: assemble the new state (unchanged
mappings carried forward, then the fresh batch mappings in submission order)
and write it. -/
def pushIncrFinish (old : StateFile)
    (d : List (String × JVal × String) × List (String × JVal × String) ×
      List (String × String) × List String)
    (created : List Created) {σ : Type} (s4 : σ) :
    Except String Summary × σ × Option StateFile :=
  let unMaps := d.2.2.2.map (fun yid => (yid, (dictGet yid old.mappings).getD ⟨"", ""⟩))
  let newMaps := buildIncrMappings (d.1 ++ d.2.1) created
  (.ok ⟨d.1.map Prod.fst, d.2.1.map Prod.fst, d.2.2.1, d.2.2.2, false⟩,
   s4, some ⟨unMaps ++ newMaps⟩)

/-- The delete phase: delete removed elements (by their stored remote ids),
then modified elements, every failure swallowed. -/
def deletePhase {σ : Type} (C : Client σ) (old : StateFile)
    (d : List (String × JVal × String) × List (String × JVal × String) ×
      List (String × String) × List String)
    (s : σ) : σ :=
  (d.2.1.map (fun t => mappingEidOf old t.1)).foldl (swallowDelete C)
    ((d.2.2.1.map Prod.snd).foldl (swallowDelete C) s)

/-- The create stage of an incremental push (reached only when the batch is
nonempty). -/
def pushApplyCreate {σ : Type} (C : Client σ) (p : Prep) (old : StateFile)
    (d : List (String × JVal × String) × List (String × JVal × String) ×
      List (String × String) × List String)
    (s3 : σ) (sf : Option StateFile) : Except String Summary × σ × Option StateFile :=
  match C.create_elements s3 ((d.1 ++ d.2.1).map (fun t => (dictGet t.1 p.skels).getD [])) with
  | .error e => (.error e, s3, sf)
  | .ok (created, s4) => pushIncrFinish old d created s4

/-- The delete-then-create phase of an incremental push, after the staleness
check has passed: deletes (failures swallowed) for removed then modified
elements, then one batch create for new and modified elements (skipped when
the batch is empty), then the state write. -/
def pushApply {σ : Type} (C : Client σ) (p : Prep) (old : StateFile)
    (d : List (String × JVal × String) × List (String × JVal × String) ×
      List (String × String) × List String)
    (s : σ) (sf : Option StateFile) : Except String Summary × σ × Option StateFile :=
  if (d.1 ++ d.2.1).isEmpty then pushIncrFinish old d [] (deletePhase C old d s)
  else pushApplyCreate C p old d (deletePhase C old d s) sf

/-- Staleness decision after the listing call: fall back to a full clear
push when an unchanged element's stored remote id is missing remotely. -/
def pushAfterList {σ : Type} (C : Client σ) (p : Prep) (old : StateFile)
    (d : List (String × JVal × String) × List (String × JVal × String) ×
      List (String × String) × List String)
    (els : List Created) (s1 : σ) (sf : Option StateFile) :
    Except String Summary × σ × Option StateFile :=
  if (d.2.2.2.filter
      (fun yid =>
        ¬ (els.map (fun el => el.idOpt)).contains (some (mappingEidOf old yid)))).isEmpty
  then pushApply C p old d s1 sf
  else pushClear C p s1 sf

/-- Incremental push: diff against the loaded state, verify unchanged
elements still exist remotely (listing call, only when there are unchanged
elements), then delete and create. -/
def pushIncr {σ : Type} (C : Client σ) (p : Prep) (s0 : σ) (sf : Option StateFile) :
    Except String Summary × σ × Option StateFile :=
  if (compute_diff p.entries (sf.getD emptyState) p.gmap).2.2.2.isEmpty then
    pushApply C p (sf.getD emptyState) (compute_diff p.entries (sf.getD emptyState) p.gmap)
      s0 sf
  else
    match C.get_elements s0 with
    | .error e => (.error e, s0, sf)
    | .ok (els, s1) =>
      pushAfterList C p (sf.getD emptyState)
        (compute_diff p.entries (sf.getD emptyState) p.gmap) els s1 sf

/-- Source `push`: parse/validate/compile, then clear-mode or incremental
reconciliation. Returns the printed summary (or the raised error), the final
client state, and the state file on disk afterwards. -/
def push {σ : Type} (C : Client σ) (doc : Doc) (clearFlag : Bool) (s0 : σ)
    (sf : Option StateFile) : Except String Summary × σ × Option StateFile :=
  match prepare doc with
  | .error e => (.error e, s0, sf)
  | .ok p => if clearFlag then pushClear C p s0 sf else pushIncr C p s0 sf

/-! ### A deterministic ideal canvas server (for runs of the driver) -/

/-- Operations the ideal server logs. -/
inductive SrvOp where
  | listOp : SrvOp
  | clearOp : SrvOp
  | createOp : Nat → SrvOp
  | deleteOp : String → SrvOp
deriving Repr, DecidableEq

/-- Ideal server state: stored elements, a fresh-id counter, an op log. -/
structure Srv where
  elements : List (String × Skel)
  counter : Nat
  log : List SrvOp
deriving Repr

/-- The fresh remote id with serial number `n`. -/
def freshId (n : Nat) : String := "r" ++ (⟨natDigs n⟩ : String)

/-- The ideal client: clear empties the canvas, batch-create appends fresh
ids in request order, delete errors on a missing id (a 404), list returns
the stored ids. -/
def idealClient : Client Srv where
  clearAll := fun s => .ok ⟨[], s.counter, s.log ++ [.clearOp]⟩
  create_elements := fun s skels =>
    let ids := (List.range skels.length).map (fun i => freshId (s.counter + i))
    .ok (ids.map (fun i => ⟨some i⟩),
      ⟨s.elements ++ ids.zip skels, s.counter + skels.length, s.log ++ [.createOp skels.length]⟩)
  delete_element := fun s eid =>
    if (dictGet eid s.elements).isSome then
      .ok ⟨s.elements.filter (fun p => !(p.1 == eid)), s.counter, s.log ++ [.deleteOp eid]⟩
    else .error "404: element not found"
  get_elements := fun s => .ok (s.elements.map (fun p => ⟨some p.1⟩), ⟨s.elements, s.counter, s.log ++ [.listOp]⟩)

/-! ## C4: the moved-endpoint scenario -/

/-- Shape `api`: rectangle at `[100, 100, '200x80']`. -/
def apiShape : JVal :=
  .obj [("id", .str "api"), ("type", .str "rectangle"),
        ("pos", .list [.int 100, .int 100, .str "200x80"])]

/-- Shape `db`: rectangle at `[400, 100, '200x80']`. -/
def dbShape : JVal :=
  .obj [("id", .str "db"), ("type", .str "rectangle"),
        ("pos", .list [.int 400, .int 100, .str "200x80"])]

/-- Shape `db` moved to `[400, 300, '200x80']`. -/
def dbShapeMoved : JVal :=
  .obj [("id", .str "db"), ("type", .str "rectangle"),
        ("pos", .list [.int 400, .int 300, .str "200x80"])]

/-- The connector `api → db` (auto id `api-to-db`). -/
def connApiDb : JVal := .obj [("from", .str "api"), ("to", .str "db")]

/-- The scenario document before the move. -/
def scenarioDoc1 : Doc := ⟨[apiShape, dbShape], [connApiDb]⟩

/-- The scenario document after moving `db`. -/
def scenarioDoc2 : Doc := ⟨[apiShape, dbShapeMoved], [connApiDb]⟩

/-- C4: the first push creates 3 elements and persists 3 mappings, and the
second push (with `db` moved) performs exactly one delete + one create for
`db` and reports `api` unchanged — but, contrary to the claim, the connector
is NOT deleted and recreated: its fingerprint hashes only its authored entry
(`from`/`to`/`id`/`type`), which does not change when an endpoint moves, so
the connector is classified unchanged and its remote element keeps the stale
geometry. -/
theorem moved_endpoint_leaves_connector_unchanged :
    (push idealClient scenarioDoc1 false ⟨[], 0, []⟩ none).1 =
      .ok ⟨["api", "db", "api-to-db"], [], [], [], false⟩
    ∧ ((push idealClient scenarioDoc1 false ⟨[], 0, []⟩ none).2.2.getD
        emptyState).mappings.map Prod.fst = ["api", "db", "api-to-db"]
    ∧ (push idealClient scenarioDoc2 false
        (push idealClient scenarioDoc1 false ⟨[], 0, []⟩ none).2.1
        (push idealClient scenarioDoc1 false ⟨[], 0, []⟩ none).2.2).1 =
      .ok ⟨[], ["db"], [], ["api", "api-to-db"], false⟩ := by
  exact ⟨by rfl, by rfl, by rfl⟩

/-! ## C9: failure atomicity of the state file -/

theorem pushClearFinish_error (p : Prep) (created : List Created) {σ : Type} (s2 : σ)
    (sf : Option StateFile) (e : String)
    (h : (pushClearFinish p created s2 sf).1 = .error e) :
    (pushClearFinish p created s2 sf).2.2 = sf := by
  unfold pushClearFinish at *
  cases hb : buildClearMappings p.gmap p.entries created with
  | error e1 => rfl
  | ok maps => rw [hb] at h; cases h

theorem pushClearCreate_error {σ : Type} (C : Client σ) (p : Prep) (s1 : σ)
    (sf : Option StateFile) (e : String)
    (h : (pushClearCreate C p s1 sf).1 = .error e) : (pushClearCreate C p s1 sf).2.2 = sf := by
  unfold pushClearCreate at *
  cases hcr : C.create_elements s1 (p.entries.map (fun q => (dictGet q.1 p.skels).getD [])) with
  | error e1 => try rfl
  | ok cs =>
    try rw [hcr] at h
    exact pushClearFinish_error p cs.1 cs.2 sf e h

theorem pushClear_error {σ : Type} (C : Client σ) (p : Prep) (s0 : σ)
    (sf : Option StateFile) (e : String)
    (h : (pushClear C p s0 sf).1 = .error e) : (pushClear C p s0 sf).2.2 = sf := by
  unfold pushClear at *
  cases hc : C.clearAll s0 with
  | error e1 => try rfl
  | ok s1 =>
    try rw [hc] at h
    exact pushClearCreate_error C p s1 sf e h

theorem pushApply_error {σ : Type} (C : Client σ) (p : Prep) (old : StateFile)
    (d : List (String × JVal × String) × List (String × JVal × String) ×
      List (String × String) × List String)
    (s : σ) (sf : Option StateFile) (e : String)
    (h : (pushApply C p old d s sf).1 = .error e) : (pushApply C p old d s sf).2.2 = sf := by
  unfold pushApply at *
  split at h
  · simp only [pushIncrFinish] at h
    cases h
  · rename_i hne
    rw [if_neg hne]
    unfold pushApplyCreate at *
    cases hcr : C.create_elements (deletePhase C old d s)
        ((d.1 ++ d.2.1).map (fun t => (dictGet t.1 p.skels).getD [])) with
    | error e2 => try rfl
    | ok cs =>
      try rw [hcr] at h
      simp only [pushIncrFinish] at h
      cases h

theorem pushAfterList_error {σ : Type} (C : Client σ) (p : Prep) (old : StateFile)
    (d : List (String × JVal × String) × List (String × JVal × String) ×
      List (String × String) × List String)
    (els : List Created) (s1 : σ) (sf : Option StateFile) (e : String)
    (h : (pushAfterList C p old d els s1 sf).1 = .error e) :
    (pushAfterList C p old d els s1 sf).2.2 = sf := by
  unfold pushAfterList at *
  split at h
  · rename_i hst
    rw [if_pos hst]
    exact pushApply_error C p old d s1 sf e h
  · rename_i hst
    rw [if_neg hst]
    exact pushClear_error C p s1 sf e h

theorem pushIncr_error {σ : Type} (C : Client σ) (p : Prep) (s0 : σ)
    (sf : Option StateFile) (e : String)
    (h : (pushIncr C p s0 sf).1 = .error e) : (pushIncr C p s0 sf).2.2 = sf := by
  unfold pushIncr at *
  split at h
  · rename_i hc
    rw [if_pos hc]
    exact pushApply_error C p _ _ s0 sf e h
  · rename_i hc
    rw [if_neg hc]
    cases hg : C.get_elements s0 with
    | error e1 => try rfl
    | ok els =>
      try rw [hg] at h
      try rw [hg]
      exact pushAfterList_error C p _ _ els.1 els.2 sf e h

/-- C9: a push either fully succeeds and then rewrites the state file, or
raises with the previous state file intact: a validation/compilation error
raises before any remote call (the client state is returned untouched), any
error result leaves the state file exactly as it was, and delete-call
failures are swallowed (a client whose every delete fails drives the push to
the same result as one whose deletes succeed without effect). -/
theorem push_error_leaves_state_intact :
    (∀ (σ : Type) (C : Client σ) (doc : Doc) (b : Bool) (s0 : σ) (sf : Option StateFile)
       (e : String),
       (push C doc b s0 sf).1 = .error e → (push C doc b s0 sf).2.2 = sf)
    ∧ (∀ (σ : Type) (C : Client σ) (doc : Doc) (b : Bool) (s0 : σ) (sf : Option StateFile)
        (e : String),
        prepare doc = .error e → push C doc b s0 sf = (.error e, s0, sf))
    ∧ (∀ (σ : Type) (C : Client σ) (doc : Doc) (s0 : σ) (sf : Option StateFile),
        push { C with delete_element := fun s _ => .error "boom" } doc false s0 sf =
          push { C with delete_element := fun s _ => .ok s } doc false s0 sf) := by
  refine ⟨?_, ?_, ?_⟩
  · intro σ C doc b s0 sf e h
    unfold push at *
    cases hp : prepare doc with
    | error e1 => rfl
    | ok p =>
      try rw [hp] at h
      try rw [hp]
      cases b with
      | true => exact pushClear_error C p s0 sf e h
      | false => exact pushIncr_error C p s0 sf e h
  · intro σ C doc b s0 sf e hp
    unfold push
    rw [hp]
  · intro σ C doc s0 sf
    have hsw : swallowDelete { C with delete_element := fun s _ => .error "boom" } =
        swallowDelete { C with delete_element := fun s _ => .ok s } := by
      funext s eid
      simp [swallowDelete]
    unfold push
    cases prepare doc with
    | error e => rfl
    | ok p =>
      simp only [if_neg Bool.false_ne_true]
      unfold pushIncr pushAfterList pushApply pushApplyCreate deletePhase pushClear pushClearCreate pushClearFinish pushIncrFinish
      rw [hsw]

/-! ### Association-list lemmas -/

theorem dictGet_eq_none_iff {α : Type} (k : String) (l : List (String × α)) :
    dictGet k l = none ↔ k ∉ l.map Prod.fst := by
  induction l with
  | nil => simp [dictGet]
  | cons p ps ih =>
    rw [List.map_cons]
    by_cases h : p.1 = k
    · simp [dictGet, h]
    · simp only [dictGet, if_neg h, ih, List.mem_cons, not_or]
      constructor
      · intro hq
        exact ⟨fun he => h he.symm, hq⟩
      · intro hq
        exact hq.2

theorem dictGet_of_mem_nodup {α : Type} {k : String} {v : α} {l : List (String × α)}
    (hnd : (l.map Prod.fst).Nodup) (hmem : (k, v) ∈ l) : dictGet k l = some v := by
  induction l with
  | nil => cases hmem
  | cons p ps ih =>
    rw [List.map_cons] at hnd
    obtain ⟨hout, hnd2⟩ := List.nodup_cons.mp hnd
    rcases List.mem_cons.mp hmem with heq | htail
    · subst heq
      simp [dictGet]
    · have hk : k ∈ ps.map Prod.fst := List.mem_map.mpr ⟨(k, v), htail, rfl⟩
      have hp : p.1 ≠ k := by
        intro hc
        rw [hc] at hout
        exact hout hk
      simp only [dictGet, if_neg hp]
      exact ih hnd2 htail

theorem dictGet_mem {α : Type} {k : String} {v : α} :
    ∀ {l : List (String × α)}, dictGet k l = some v → (k, v) ∈ l := by
  intro l
  induction l with
  | nil => intro h; cases h
  | cons p ps ih =>
    intro h
    by_cases hp : p.1 = k
    · simp only [dictGet, if_pos hp] at h
      cases h
      have hpe : (k, p.2) = p := by
        rw [← hp]
      exact List.mem_cons.mpr (Or.inl hpe)
    · simp only [dictGet, if_neg hp] at h
      exact List.mem_cons_of_mem _ (ih h)

theorem dictGet_append_left {α : Type} {k : String} {v : α} {l r : List (String × α)}
    (h : dictGet k l = some v) : dictGet k (l ++ r) = some v := by
  induction l with
  | nil => cases h
  | cons p ps ih =>
    by_cases hp : p.1 = k
    · simp only [dictGet, if_pos hp] at h ⊢
      exact h
    · simp only [List.cons_append, dictGet, if_neg hp] at h ⊢
      exact ih h

theorem dictGet_append_right {α : Type} {k : String} {l r : List (String × α)}
    (h : k ∉ l.map Prod.fst) : dictGet k (l ++ r) = dictGet k r := by
  induction l with
  | nil => rfl
  | cons p ps ih =>
    rw [List.map_cons] at h
    have hp : p.1 ≠ k := by
      intro hc
      exact h (List.mem_cons.mpr (Or.inl hc.symm))
    simp only [List.cons_append, dictGet, if_neg hp]
    exact ih (fun hc => h (List.mem_cons_of_mem _ hc))

theorem dictSet_keys_mem {α : Type} (k : String) (v : α) :
    ∀ (l : List (String × α)) (a : String),
      a ∈ (dictSet k v l).map Prod.fst → a ∈ l.map Prod.fst ∨ a = k := by
  intro l
  induction l with
  | nil =>
    intro a ha
    right
    simpa [dictSet] using ha
  | cons p ps ih =>
    intro a ha
    by_cases hp : p.1 = k
    · simp only [dictSet, if_pos hp, List.map_cons, List.mem_cons] at ha
      rcases ha with h | h
      · right; exact h
      · left
        rw [List.map_cons]
        exact List.mem_cons_of_mem _ h
    · simp only [dictSet, if_neg hp, List.map_cons, List.mem_cons] at ha
      rcases ha with h | h
      · left
        rw [List.map_cons]
        exact List.mem_cons.mpr (Or.inl h)
      · rcases ih a h with h2 | h2
        · left
          rw [List.map_cons]
          exact List.mem_cons_of_mem _ h2
        · right; exact h2

theorem dictSet_keys_nodup {α : Type} (k : String) (v : α) :
    ∀ (l : List (String × α)), (l.map Prod.fst).Nodup → ((dictSet k v l).map Prod.fst).Nodup := by
  intro l
  induction l with
  | nil =>
    intro _
    simp [dictSet]
  | cons p ps ih =>
    intro hnd
    rw [List.map_cons] at hnd
    obtain ⟨hout, hnd2⟩ := List.nodup_cons.mp hnd
    by_cases hp : p.1 = k
    · simp only [dictSet, if_pos hp, List.map_cons]
      refine List.nodup_cons.mpr ⟨?_, hnd2⟩
      rw [← hp]
      exact hout
    · simp only [dictSet, if_neg hp, List.map_cons]
      refine List.nodup_cons.mpr ⟨?_, ih hnd2⟩
      intro hc
      rcases dictSet_keys_mem k v ps p.1 hc with h2 | h2
      · exact hout h2
      · exact hp h2

/-- Injectivity extracted from a duplicate-free mapped list. -/
theorem nodup_map_inj {α β : Type} {f : α → β} {l : List α} (hmn : (l.map f).Nodup)
    {a b : α} (hal : a ∈ l) (hbl : b ∈ l) (hab : f a = f b) : a = b :=
  List.inj_on_of_nodup_map hmn hal hbl hab

/-- Pair each member of a list with some member of an equally long partner. -/
theorem exists_zip_partner {α β : Type} :
    ∀ (l : List α) (r : List β), l.length = r.length → ∀ q ∈ l,
      ∃ k, (q, k) ∈ l.zip r ∧ k ∈ r := by
  intro l
  induction l with
  | nil => intro r _ q hq; cases hq
  | cons a as ih =>
    intro r hlen q hq
    cases r with
    | nil => cases hlen
    | cons b bs =>
      rcases List.mem_cons.mp hq with heq | htail
      · subst heq
        exact ⟨b, by simp, by simp⟩
      · obtain ⟨k, hk1, hk2⟩ := ih bs (by simpa using hlen) q htail
        exact ⟨k, List.mem_cons_of_mem _ hk1, List.mem_cons_of_mem _ hk2⟩

/-! ## C3: staleness recovery -/

/-- Pairing entries with the ideal server's fresh ids produces exactly the
fresh id and recomputed fingerprint for every document element. -/
theorem buildClearMappings_fresh (gmap : List (String × GroupInfo)) :
    ∀ (entries : List (String × JVal)) (c : Nat),
    buildClearMappings gmap entries
        ((List.range' c entries.length).map (fun k => Created.mk (some (freshId k)))) =
      .ok ((entries.zip (List.range' c entries.length)).map
        (fun pe => (pe.1.1, ⟨freshId pe.2, compute_hash pe.1.2 (dictGet pe.1.1 gmap)⟩))) := by
  intro entries
  induction entries with
  | nil => intro c; rfl
  | cons pe es ih =>
    intro c
    rw [List.length_cons, List.range'_succ, List.map_cons]
    obtain ⟨yid, e⟩ := pe
    show (buildClearMappings gmap es ((List.range' (c + 1) es.length).map
        (fun k => Created.mk (some (freshId k))))).map _ = _
    rw [ih (c + 1)]
    rfl

/-- What a clear-mode push does against the ideal server: clear, one batch
create of every entry's skeleton (fresh ids in order), and a brand-new state
file mapping each entry to its fresh id and recomputed fingerprint. -/
theorem pushClear_ideal (p : Prep) (s : Srv) (sf : Option StateFile) :
    pushClear idealClient p s sf =
      (.ok ⟨p.entries.map Prod.fst, [], [], [], true⟩,
       ⟨((List.range' s.counter p.entries.length).map freshId).zip
          (p.entries.map (fun q => (dictGet q.1 p.skels).getD [])),
        s.counter + p.entries.length,
        s.log ++ [.clearOp, .createOp p.entries.length]⟩,
       some ⟨(p.entries.zip (List.range' s.counter p.entries.length)).map
          (fun pe => (pe.1.1, ⟨freshId pe.2, compute_hash pe.1.2 (dictGet pe.1.1 p.gmap)⟩))⟩) := by
  unfold pushClear idealClient
  show pushClearCreate _ _ _ _ = _
  unfold pushClearCreate
  show pushClearFinish _ _ _ _ = _
  unfold pushClearFinish
  have hids : (List.range ((p.entries.map
      (fun q => (dictGet q.1 p.skels).getD [])).length)).map
        (fun i => freshId (s.counter + i)) =
      (List.range' s.counter p.entries.length).map freshId := by
    rw [List.length_map, List.range'_eq_map_range, List.map_map]
    rfl
  rw [hids, List.map_map]
  have hcreated : (List.range' s.counter p.entries.length).map
      ((fun i => Created.mk (some i)) ∘ freshId) =
      (List.range' s.counter p.entries.length).map (fun k => Created.mk (some (freshId k))) := rfl
  rw [hcreated, buildClearMappings_fresh]
  simp [List.append_assoc]

/-- C3: during an incremental push, if some unchanged element's persisted
remote identifier is absent from the server's current element listing, the
push is restarted in full-recreate mode: the canvas is cleared, every
document element is recreated in a single batch, and a brand-new state is
written mapping every document element id to a fresh remote identifier and
fingerprint. -/
theorem stale_unchanged_triggers_full_recreate
    (doc : Doc) (p : Prep) (s0 : Srv) (sf : Option StateFile)
    (hp : prepare doc = .ok p)
    (hstale : ∃ yid ∈ (compute_diff p.entries (sf.getD emptyState) p.gmap).2.2.2,
       ¬ (s0.elements.map Prod.fst).contains (mappingEidOf (sf.getD emptyState) yid)) :
    push idealClient doc false s0 sf =
      pushClear idealClient p ⟨s0.elements, s0.counter, s0.log ++ [.listOp]⟩ sf
    ∧ (push idealClient doc false s0 sf).1 = .ok ⟨p.entries.map Prod.fst, [], [], [], true⟩
    ∧ (push idealClient doc false s0 sf).2.1.log =
        s0.log ++ [.listOp, .clearOp, .createOp p.entries.length]
    ∧ (push idealClient doc false s0 sf).2.2 =
        some ⟨(p.entries.zip (List.range' s0.counter p.entries.length)).map
          (fun pe => (pe.1.1, ⟨freshId pe.2, compute_hash pe.1.2 (dictGet pe.1.1 p.gmap)⟩))⟩ := by
  obtain ⟨yid, hmem, hmiss⟩ := hstale
  have hmain : push idealClient doc false s0 sf =
      pushClear idealClient p ⟨s0.elements, s0.counter, s0.log ++ [.listOp]⟩ sf := by
    unfold push
    rw [hp]
    show pushIncr idealClient p s0 sf = _
    unfold pushIncr
    have hun : ¬ ((compute_diff p.entries (sf.getD emptyState) p.gmap).2.2.2.isEmpty = true) := by
      intro hemp
      rw [List.isEmpty_iff.mp hemp] at hmem
      cases hmem
    rw [if_neg hun]
    show pushAfterList _ _ _ _ _ _ _ = _
    unfold pushAfterList
    have hstalemem : yid ∈ (compute_diff p.entries (sf.getD emptyState) p.gmap).2.2.2.filter
        (fun y => ¬ (((s0.elements.map (fun q => Created.mk (some q.1))).map
          (fun el => el.idOpt)).contains (some (mappingEidOf (sf.getD emptyState) y)))) := by
      rw [List.mem_filter]
      refine ⟨hmem, ?_⟩
      simp only [List.map_map, decide_eq_true_eq]
      intro hcont
      apply hmiss
      have hcont' : some (mappingEidOf (sf.getD emptyState) yid) ∈
          s0.elements.map ((fun el => el.idOpt) ∘ (fun q => Created.mk (some q.1))) :=
        List.elem_iff.mp hcont
      obtain ⟨q, hq, hqe⟩ := List.mem_map.mp hcont'
      have hq1 : q.1 = mappingEidOf (sf.getD emptyState) yid := by
        simpa using hqe
      exact List.elem_iff.mpr (List.mem_map.mpr ⟨q, hq, hq1⟩)
    have hne : ¬ (((compute_diff p.entries (sf.getD emptyState) p.gmap).2.2.2.filter
        (fun y => ¬ (((s0.elements.map (fun q => Created.mk (some q.1))).map
          (fun el => el.idOpt)).contains
            (some (mappingEidOf (sf.getD emptyState) y))))).isEmpty = true) := by
      intro hemp
      rw [List.isEmpty_iff.mp hemp] at hstalemem
      cases hstalemem
    rw [if_neg hne]
  refine ⟨hmain, ?_, ?_, ?_⟩
  · rw [hmain, pushClear_ideal]
  · rw [hmain, pushClear_ideal]
    simp
  · rw [hmain, pushClear_ideal]

/-- Concrete instantiation of the staleness-recovery theorem: one shape whose
persisted mapping has a matching fingerprint but a remote id (`gone`) absent
from the (empty) server. -/
theorem stale_unchanged_triggers_full_recreate_witness :
    (push idealClient ⟨[rectA], []⟩ false ⟨[], 0, []⟩
        (some ⟨[("a", ⟨"gone", compute_hash rectA none⟩)]⟩)).1 =
      .ok ⟨["a"], [], [], [], true⟩ := by
  have hp : prepare ⟨[rectA], []⟩ =
      .ok ⟨[("a", rectA)], [("a", (shape_to_skeleton rectA []).toOption.getD [])], []⟩ := by
    rfl
  have hmem : "a" ∈ (compute_diff [("a", rectA)]
      ((some (StateFile.mk [("a", ⟨"gone", compute_hash rectA none⟩)])).getD emptyState)
      []).2.2.2 := by
    rw [compute_diff_eq]
    refine List.mem_map.mpr ⟨("a", rectA), List.mem_filter.mpr ⟨?_, ?_⟩, rfl⟩
    · exact List.mem_singleton.mpr rfl
    · rfl
  have h := stale_unchanged_triggers_full_recreate ⟨[rectA], []⟩
    ⟨[("a", rectA)], [("a", (shape_to_skeleton rectA []).toOption.getD [])], []⟩
    ⟨[], 0, []⟩ (some ⟨[("a", ⟨"gone", compute_hash rectA none⟩)]⟩) hp
    ⟨"a", hmem, by decide⟩
  exact h.2.1

/-! ## C2: idempotence -/

/-- The entry map a push computes has duplicate-free keys (it is built as a
Python dict). -/
theorem prepare_entries_nodup (doc : Doc) (p : Prep) (hp : prepare doc = .ok p) :
    (p.entries.map Prod.fst).Nodup := by
  unfold prepare at hp
  simp only [bind, Except.bind, pure, Except.pure] at hp
  split at hp
  · cases hp
  · rename_i v hv
    split at hp
    · cases hp
    · rename_i acc0 hacc0
      split at hp
      · cases hp
      · rename_i acc1 hacc1
        cases hp
        have h0 : ((acc0.1.map Prod.fst) : List String).Nodup := by
          refine foldlM_inv (fun acc : List (String × JVal) × List (String × Skel) =>
            ((acc.1.map Prod.fst) : List String).Nodup) _ ?_ _ ([], []) acc0 (by simp) hacc0
          intro s a s' hps hf
          split at hf
          · split at hf
            · cases hf
            · cases hf
              exact dictSet_keys_nodup _ _ _ hps
          · split at hf
            · cases hf
            · cases hf
              exact dictSet_keys_nodup _ _ _ hps
        have h1 : ((acc1.1.map Prod.fst) : List String).Nodup := by
          refine foldlM_inv (fun acc : List (String × JVal) × List (String × Skel) =>
            ((acc.1.map Prod.fst) : List String).Nodup) _ ?_ _ (acc0.1, acc0.2) acc1 h0 hacc1
          intro s a s' hps hf
          split at hf
          · cases hf
          · cases hf
            exact dictSet_keys_nodup _ _ _ hps
        exact h1

/-- The post-state of a successful push: every current entry is mapped, with
the fingerprint the diff recomputes and a remote id live on the server, and
the state holds no other ids. -/
def PushPost (p : Prep) (s1 : Srv) (st1 : StateFile) : Prop :=
  (∀ q ∈ p.entries, ∃ m, dictGet q.1 st1.mappings = some m ∧
      m.hash = compute_hash q.2 (dictGet q.1 p.gmap) ∧
      m.excalidraw_id ∈ s1.elements.map Prod.fst)
  ∧ (∀ q ∈ st1.mappings, q.1 ∈ p.entries.map Prod.fst)

/-- Keys of the fresh clear-mode state are exactly the entry keys. -/
theorem zipFresh_keys (gmap : List (String × GroupInfo)) :
    ∀ (entries : List (String × JVal)) (c : Nat),
      ((entries.zip (List.range' c entries.length)).map
        (fun pe => (pe.1.1, Mapping.mk (freshId pe.2)
          (compute_hash pe.1.2 (dictGet pe.1.1 gmap))))).map Prod.fst =
      entries.map Prod.fst := by
  intro entries
  induction entries with
  | nil => intro c; rfl
  | cons p ps ih =>
    intro c
    rw [List.length_cons, List.range'_succ, List.zip_cons_cons, List.map_cons, List.map_cons,
      List.map_cons, ih (c + 1)]

/-- Every entry's binding in the fresh clear-mode state. -/
theorem zipFresh_member (gmap : List (String × GroupInfo)) :
    ∀ (entries : List (String × JVal)) (c : Nat),
      (entries.map Prod.fst).Nodup → ∀ q ∈ entries,
      ∃ k, k ∈ List.range' c entries.length ∧
        dictGet q.1 ((entries.zip (List.range' c entries.length)).map
          (fun pe => (pe.1.1, Mapping.mk (freshId pe.2)
            (compute_hash pe.1.2 (dictGet pe.1.1 gmap))))) =
          some ⟨freshId k, compute_hash q.2 (dictGet q.1 gmap)⟩ := by
  intro entries
  induction entries with
  | nil => intro c _ q hq; cases hq
  | cons p ps ih =>
    intro c hnd q hq
    rw [List.map_cons] at hnd
    obtain ⟨hout, hnd2⟩ := List.nodup_cons.mp hnd
    rw [List.length_cons, List.range'_succ, List.zip_cons_cons, List.map_cons]
    rcases List.mem_cons.mp hq with heq | htail
    · subst heq
      refine ⟨c, List.mem_cons_self _ _, ?_⟩
      simp [dictGet]
    · have hp : p.1 ≠ q.1 := by
        intro hc
        exact hout (hc ▸ List.mem_map.mpr ⟨q, htail, rfl⟩)
      obtain ⟨k, hk, hget⟩ := ih (c + 1) hnd2 q htail
      refine ⟨k, List.mem_cons_of_mem _ hk, ?_⟩
      simp only [dictGet, if_neg hp]
      exact hget

section SealedHash

attribute [local irreducible] compute_hash

set_option maxHeartbeats 1000000 in
/-- A clear-mode push establishes the post-state. -/
theorem clear_post (p : Prep) (s : Srv) (sf : Option StateFile)
    (hnd : (p.entries.map Prod.fst).Nodup) :
    PushPost p (pushClear idealClient p s sf).2.1
      ((pushClear idealClient p s sf).2.2.getD emptyState) := by
  rw [pushClear_ideal]
  simp only [Option.getD_some]
  constructor
  · intro q hq
    obtain ⟨k, hk, hget⟩ := zipFresh_member p.gmap p.entries s.counter hnd q hq
    refine ⟨⟨freshId k, compute_hash q.2 (dictGet q.1 p.gmap)⟩, hget, rfl, ?_⟩
    have hlen : ((List.range' s.counter p.entries.length).map freshId).length ≤
        (p.entries.map (fun q => (dictGet q.1 p.skels).getD [])).length := by
      simp
    rw [List.map_fst_zip _ _ hlen]
    exact List.mem_map.mpr ⟨k, hk, rfl⟩
  · intro q hq
    rw [← zipFresh_keys p.gmap p.entries s.counter]
    exact List.mem_map.mpr ⟨q, hq, rfl⟩

/-- Looking a key up in a map keyed by a list of ids. -/
theorem dictGet_map_self {b : Type} (f : String → b) :
    ∀ (l : List String) (k : String), k ∈ l →
      dictGet k (l.map (fun y => (y, f y))) = some (f k) := by
  intro l
  induction l with
  | nil => intro k hk; cases hk
  | cons a as ih =>
    intro k hk
    by_cases ha : a = k
    · subst ha
      simp [dictGet]
    · rcases List.mem_cons.mp hk with heq | htail
      · exact absurd heq.symm ha
      · simp only [List.map_cons, dictGet, if_neg ha]
        exact ih k htail

/-- Keys of a map keyed by a list of ids. -/
theorem map_self_keys {b : Type} (f : String → b) (l : List String) :
    (l.map (fun y => (y, f y))).map Prod.fst = l := by
  rw [List.map_map]
  exact List.map_id l

/-- Members of a map keyed by a list of ids have their key in the list. -/
theorem map_self_mem_keys {b : Type} (f : String → b) (l : List String)
    (q : String × b) (hq : q ∈ l.map (fun y => (y, f y))) : q.1 ∈ l := by
  obtain ⟨y, hy, he⟩ := List.mem_map.mp hq
  rw [← he]
  exact hy

/-- One swallowed delete against the ideal server filters the id out of the
stored elements (a missing id leaves them unchanged, as the filter also does)
and preserves the fresh-id counter. -/
theorem swallowDelete_ideal (s : Srv) (eid : String) :
    (swallowDelete idealClient s eid).elements =
        s.elements.filter (fun pr => !(pr.1 == eid))
      ∧ (swallowDelete idealClient s eid).counter = s.counter := by
  have hde : idealClient.delete_element s eid =
      if (dictGet eid s.elements).isSome = true then
        .ok ⟨s.elements.filter (fun pr => !(pr.1 == eid)), s.counter,
          s.log ++ [.deleteOp eid]⟩
      else .error "404: element not found" := rfl
  unfold swallowDelete
  rw [hde]
  by_cases hg : (dictGet eid s.elements).isSome = true
  · rw [if_pos hg]
    exact ⟨rfl, rfl⟩
  · rw [if_neg hg]
    have hnone : dictGet eid s.elements = none := by
      rcases hh : dictGet eid s.elements with _ | v
      · rfl
      · rw [hh] at hg
        exact absurd rfl hg
    have hfe : s.elements.filter (fun pr => !(pr.1 == eid)) = s.elements := by
      refine List.filter_eq_self.mpr ?_
      intro pr hpr
      have hne : pr.1 ≠ eid := by
        intro hc
        exact (dictGet_eq_none_iff eid s.elements).mp hnone
          (List.mem_map.mpr ⟨pr, hpr, hc⟩)
      simp [hne]
    exact ⟨hfe.symm, rfl⟩

/-- A run of swallowed deletes against the ideal server: iterated filtering
of the stored elements, counter untouched. -/
theorem deleteFold_ideal :
    ∀ (eids : List String) (s : Srv),
      (eids.foldl (swallowDelete idealClient) s).elements =
          eids.foldl (fun els eid => els.filter (fun pr => !(pr.1 == eid))) s.elements
        ∧ (eids.foldl (swallowDelete idealClient) s).counter = s.counter := by
  intro eids
  induction eids with
  | nil => intro s; exact ⟨rfl, rfl⟩
  | cons e es ih =>
    intro s
    simp only [List.foldl_cons]
    obtain ⟨h1, h2⟩ := ih (swallowDelete idealClient s e)
    obtain ⟨g1, g2⟩ := swallowDelete_ideal s e
    rw [h1, g1, h2, g2]
    exact ⟨rfl, rfl⟩

/-- An id distinct from every deleted id survives the filter run. -/
theorem filterFold_mem (x : String) :
    ∀ (eids : List String) (els : List (String × Skel)),
      x ∈ els.map Prod.fst → (∀ e ∈ eids, e ≠ x) →
      x ∈ (eids.foldl (fun els eid =>
        els.filter (fun pr => !(pr.1 == eid))) els).map Prod.fst := by
  intro eids
  induction eids with
  | nil => intro els hx _; exact hx
  | cons e es ih =>
    intro els hx hne
    simp only [List.foldl_cons]
    refine ih _ ?_ (fun e2 he2 => hne e2 (List.mem_cons_of_mem _ he2))
    obtain ⟨pr, hpr, hpe⟩ := List.mem_map.mp hx
    refine List.mem_map.mpr ⟨pr, List.mem_filter.mpr ⟨hpr, ?_⟩, hpe⟩
    have hxe : pr.1 ≠ e := by
      intro hc
      exact hne e (List.mem_cons_self _ _) (by rw [← hc, hpe])
    simp [hxe]

/-- Batch mappings of an incremental push against the ideal server's
fresh-id response: entry order, fresh ids in order, submitted fingerprints. -/
theorem buildIncrMappings_fresh :
    ∀ (bs : List (String × JVal × String)) (c : Nat),
      buildIncrMappings bs
        ((List.range' c bs.length).map (fun k => Created.mk (some (freshId k)))) =
      (bs.zip (List.range' c bs.length)).map
        (fun t => (t.1.1, Mapping.mk (freshId t.2) t.1.2.2)) := by
  intro bs
  induction bs with
  | nil => intro c; rfl
  | cons b bs ih =>
    intro c
    rw [List.length_cons, List.range'_succ, List.map_cons, List.zip_cons_cons,
      List.map_cons]
    obtain ⟨yid, e, h⟩ := b
    show (yid, Mapping.mk (freshId c) h) :: buildIncrMappings bs
        ((List.range' (c + 1) bs.length).map (fun k => Created.mk (some (freshId k)))) = _
    rw [ih (c + 1)]

/-- Keys of the batch mappings are the batch keys. -/
theorem incrZip_keys :
    ∀ (bs : List (String × JVal × String)) (c : Nat),
      ((bs.zip (List.range' c bs.length)).map
        (fun t => (t.1.1, Mapping.mk (freshId t.2) t.1.2.2))).map Prod.fst =
      bs.map Prod.fst := by
  intro bs
  induction bs with
  | nil => intro c; rfl
  | cons b bs ih =>
    intro c
    rw [List.length_cons, List.range'_succ, List.zip_cons_cons, List.map_cons,
      List.map_cons, List.map_cons, ih (c + 1)]

/-- Every batch entry's binding among the fresh batch mappings. -/
theorem incrZip_member :
    ∀ (bs : List (String × JVal × String)) (c : Nat),
      (bs.map Prod.fst).Nodup → ∀ b ∈ bs,
      ∃ k, k ∈ List.range' c bs.length ∧
        dictGet b.1 ((bs.zip (List.range' c bs.length)).map
          (fun t => (t.1.1, Mapping.mk (freshId t.2) t.1.2.2))) =
          some ⟨freshId k, b.2.2⟩ := by
  intro bs
  induction bs with
  | nil => intro c _ b hb; cases hb
  | cons p ps ih =>
    intro c hnd b hb
    rw [List.map_cons] at hnd
    obtain ⟨hout, hnd2⟩ := List.nodup_cons.mp hnd
    rw [List.length_cons, List.range'_succ, List.zip_cons_cons, List.map_cons]
    rcases List.mem_cons.mp hb with heq | htail
    · subst heq
      refine ⟨c, List.mem_cons_self _ _, ?_⟩
      simp [dictGet]
    · have hp : p.1 ≠ b.1 := by
        intro hc
        exact hout (hc ▸ List.mem_map.mpr ⟨b, htail, rfl⟩)
      obtain ⟨k, hk, hget⟩ := ih (c + 1) hnd2 b htail
      refine ⟨k, List.mem_cons_of_mem _ hk, ?_⟩
      simp only [dictGet, if_neg hp]
      exact hget

/-- A key whose element fails the filter is absent from the filtered keys. -/
theorem filter_key_not_mem {pb : (String × JVal) → Bool} {entries : List (String × JVal)}
    (hke : (entries.map Prod.fst).Nodup) {q : String × JVal} (hq : q ∈ entries)
    (hf : pb q = false) : q.1 ∉ (entries.filter pb).map Prod.fst := by
  intro hc
  obtain ⟨q2, hq2, he⟩ := List.mem_map.mp hc
  obtain ⟨hq2m, hq2t⟩ := List.mem_filter.mp hq2
  have heq : q2 = q := nodup_map_inj hke hq2m hq he
  rw [heq, hf] at hq2t
  cases hq2t

/-- The final stage of an incremental push, unfolded. -/
theorem pushIncrFinish_eq (old : StateFile)
    (d : List (String × JVal × String) × List (String × JVal × String) ×
      List (String × String) × List String)
    (created : List Created) {σ : Type} (s4 : σ) :
    pushIncrFinish old d created s4 =
      (.ok ⟨d.1.map Prod.fst, d.2.1.map Prod.fst, d.2.2.1, d.2.2.2, false⟩, s4,
       some ⟨(d.2.2.2.map (fun yid => (yid, (dictGet yid old.mappings).getD ⟨"", ""⟩))) ++
          buildIncrMappings (d.1 ++ d.2.1) created⟩) := rfl

/-- The create stage of an incremental push against the ideal server: one
batch create of the new and modified skeletons, fresh ids in order. -/
theorem pushApplyCreate_ideal (p : Prep) (st : StateFile)
    (d : List (String × JVal × String) × List (String × JVal × String) ×
      List (String × String) × List String)
    (s2 : Srv) (sf : Option StateFile) :
    pushApplyCreate idealClient p st d s2 sf =
      pushIncrFinish st d
        ((List.range' s2.counter (d.1 ++ d.2.1).length).map
          (fun k => Created.mk (some (freshId k))))
        ⟨s2.elements ++ ((List.range' s2.counter (d.1 ++ d.2.1).length).map freshId).zip
            ((d.1 ++ d.2.1).map (fun t => (dictGet t.1 p.skels).getD [])),
         s2.counter + (d.1 ++ d.2.1).length,
         s2.log ++ [.createOp (d.1 ++ d.2.1).length]⟩ := by
  unfold pushApplyCreate idealClient
  show pushIncrFinish _ _ _ _ = _
  have hlen : (((d.1 ++ d.2.1).map (fun t => (dictGet t.1 p.skels).getD [])).length) =
      (d.1 ++ d.2.1).length := by simp
  have hids : (List.range (((d.1 ++ d.2.1).map
      (fun t => (dictGet t.1 p.skels).getD [])).length)).map
        (fun i => freshId (s2.counter + i)) =
      (List.range' s2.counter (d.1 ++ d.2.1).length).map freshId := by
    rw [hlen, List.range'_eq_map_range, List.map_map]
    rfl
  rw [hids, hlen, List.map_map]
  rfl

/-- The apply phase of an incremental push always writes a state file. -/
theorem pushApply_some (p : Prep) (st : StateFile)
    (d : List (String × JVal × String) × List (String × JVal × String) ×
      List (String × String) × List String)
    (s : Srv) (sf : Option StateFile) :
    (pushApply idealClient p st d s sf).2.2.isSome = true := by
  unfold pushApply
  split
  · rw [pushIncrFinish_eq]
    rfl
  · rw [pushApplyCreate_ideal, pushIncrFinish_eq]
    rfl

/-- A push whose document compiles reduces to the selected mode. -/
theorem push_prepare_ok {σ : Type} (C : Client σ) (doc : Doc) (p : Prep)
    (flag : Bool) (s0 : σ) (sf : Option StateFile) (hp : prepare doc = .ok p) :
    push C doc flag s0 sf =
      if flag then pushClear C p s0 sf else pushIncr C p s0 sf := by
  unfold push
  rw [hp]


/-- No delete the apply phase performs (removed elements first, then modified
ones) targets the stored remote id of an unchanged element, provided the
entry keys and the stored remote ids are duplicate-free. -/
theorem unchanged_not_deleted (p : Prep) (st : StateFile)
    (hke : (p.entries.map Prod.fst).Nodup)
    (heo : (st.mappings.map (fun m => m.2.excalidraw_id)).Nodup)
    (q : String × JVal) (hq : q ∈ p.entries) (hun : isUnchanged st p.gmap q = true)
    (m : Mapping) (hg : dictGet q.1 st.mappings = some m) :
    (∀ e ∈ ((st.mappings.filter
        (fun mm => ¬ (p.entries.map Prod.fst).contains mm.1)).map
          (fun mm => (mm.1, mm.2.excalidraw_id))).map Prod.snd,
       e ≠ m.excalidraw_id)
    ∧ (∀ e ∈ ((p.entries.filter (isUpdate st p.gmap)).map
        (fun q2 => (q2.1, q2.2, entryHash p.gmap q2))).map
          (fun t => mappingEidOf st t.1),
       e ≠ m.excalidraw_id) := by
  have hqm : (q.1, m) ∈ st.mappings := dictGet_mem hg
  constructor
  · intro e he hc
    rw [List.map_map] at he
    obtain ⟨mm, hmm, hmme⟩ := List.mem_map.mp he
    have hmm2 : mm ∈ st.mappings := List.mem_of_mem_filter hmm
    have hmmc := (List.mem_filter.mp hmm).2
    have hkey : mm.1 ≠ q.1 := by
      intro hk
      simp only [decide_not, Bool.not_eq_true', decide_eq_false_iff_not] at hmmc
      exact hmmc (by
        rw [hk]
        exact List.elem_iff.mpr (List.mem_map.mpr ⟨q, hq, rfl⟩))
    have heq : mm = (q.1, m) :=
      nodup_map_inj heo hmm2 hqm (by
        show mm.2.excalidraw_id = m.excalidraw_id
        rw [← hc]
        exact hmme)
    exact hkey (by rw [heq])
  · intro e he hc
    rw [List.map_map] at he
    obtain ⟨q2, hq2, hq2e⟩ := List.mem_map.mp he
    have hq2m : q2 ∈ p.entries := List.mem_of_mem_filter hq2
    have hq2u : isUpdate st p.gmap q2 = true := (List.mem_filter.mp hq2).2
    have hne : q2 ≠ q := by
      intro hk
      rw [hk] at hq2u
      rw [isUnchanged_iff, hq2u] at hun
      simp at hun
    have hkey : q2.1 ≠ q.1 := fun hk => hne (nodup_map_inj hke hq2m hq hk)
    rcases hg2 : dictGet q2.1 st.mappings with _ | m2
    · unfold isUpdate at hq2u
      rw [hg2] at hq2u
      cases hq2u
    · have hq2me : mappingEidOf st q2.1 = m2.excalidraw_id := by
        unfold mappingEidOf
        rw [hg2]
        rfl
      have hm2m : (q2.1, m2) ∈ st.mappings := dictGet_mem hg2
      have heq : (q2.1, m2) = (q.1, m) :=
        nodup_map_inj heo hm2m hqm (by
          show m2.excalidraw_id = m.excalidraw_id
          rw [← hc, ← hq2e]
          exact hq2me.symm)
      exact hkey (by rw [Prod.mk.injEq] at heq; exact heq.1)

set_option maxHeartbeats 1000000 in
/-- The apply phase of an incremental push (staleness check already passed)
establishes the push post-state: every current entry mapped to its recomputed
fingerprint and a remote id live on the server, and no other ids persisted. -/
theorem apply_post (p : Prep) (st : StateFile) (s : Srv) (sf : Option StateFile)
    (hke : (p.entries.map Prod.fst).Nodup)
    (hko : (st.mappings.map Prod.fst).Nodup)
    (heo : (st.mappings.map (fun m => m.2.excalidraw_id)).Nodup)
    (hlive : ∀ yid ∈ (compute_diff p.entries st p.gmap).2.2.2,
        mappingEidOf st yid ∈ s.elements.map Prod.fst) :
    PushPost p (pushApply idealClient p st (compute_diff p.entries st p.gmap) s sf).2.1
      ((pushApply idealClient p st (compute_diff p.entries st p.gmap) s sf).2.2.getD
        emptyState) := by
  rw [compute_diff_eq] at hlive ⊢
  dsimp only at hlive
  have hck : ((p.entries.filter (isCreate st)).map
      (fun q2 => (q2.1, q2.2, entryHash p.gmap q2))).map Prod.fst =
      (p.entries.filter (isCreate st)).map Prod.fst := by
    rw [List.map_map]
    rfl
  have huk : ((p.entries.filter (isUpdate st p.gmap)).map
      (fun q2 => (q2.1, q2.2, entryHash p.gmap q2))).map Prod.fst =
      (p.entries.filter (isUpdate st p.gmap)).map Prod.fst := by
    rw [List.map_map]
    rfl
  have hall : ((p.entries.filter (isCreate st)).map Prod.fst ++
      (p.entries.filter (isUpdate st p.gmap)).map Prod.fst ++
      (p.entries.filter (isUnchanged st p.gmap)).map Prod.fst).Nodup :=
    (classified_ids_perm p.entries st p.gmap).nodup_iff.mpr hke
  have hcu : ((p.entries.filter (isCreate st)).map Prod.fst ++
      (p.entries.filter (isUpdate st p.gmap)).map Prod.fst).Nodup :=
    (List.sublist_append_left _ _).nodup hall
  have hbnd : (((p.entries.filter (isCreate st)).map
        (fun q2 => (q2.1, q2.2, entryHash p.gmap q2)) ++
      (p.entries.filter (isUpdate st p.gmap)).map
        (fun q2 => (q2.1, q2.2, entryHash p.gmap q2))).map Prod.fst).Nodup := by
    rw [List.map_append, hck, huk]
    exact hcu
  have hsurv : ∀ q ∈ p.entries, isUnchanged st p.gmap q = true →
      ∃ m, dictGet q.1 st.mappings = some m ∧ m.hash = entryHash p.gmap q ∧
        m.excalidraw_id ∈ (deletePhase idealClient st
          ((p.entries.filter (isCreate st)).map
             (fun q2 => (q2.1, q2.2, entryHash p.gmap q2)),
           (p.entries.filter (isUpdate st p.gmap)).map
             (fun q2 => (q2.1, q2.2, entryHash p.gmap q2)),
           (st.mappings.filter
             (fun mm => ¬ (p.entries.map Prod.fst).contains mm.1)).map
               (fun mm => (mm.1, mm.2.excalidraw_id)),
           (p.entries.filter (isUnchanged st p.gmap)).map Prod.fst) s).elements.map
          Prod.fst := by
    intro q hq hun
    rcases hg : dictGet q.1 st.mappings with _ | m
    · unfold isUnchanged at hun
      rw [hg] at hun
      cases hun
    · have hh : m.hash = entryHash p.gmap q := by
        unfold isUnchanged at hun
        rw [hg] at hun
        exact eq_of_beq hun
      refine ⟨m, rfl, hh, ?_⟩
      have hlv : m.excalidraw_id ∈ s.elements.map Prod.fst := by
        have hqin : q.1 ∈ (p.entries.filter (isUnchanged st p.gmap)).map Prod.fst :=
          List.mem_map.mpr ⟨q, List.mem_filter.mpr ⟨hq, hun⟩, rfl⟩
        have hme : mappingEidOf st q.1 = m.excalidraw_id := by
          unfold mappingEidOf
          rw [hg]
          rfl
        rw [← hme]
        exact hlive q.1 hqin
      obtain ⟨hne1, hne2⟩ := unchanged_not_deleted p st hke heo q hq hun m hg
      unfold deletePhase
      dsimp only
      obtain ⟨e1, c1⟩ := deleteFold_ideal
        (((st.mappings.filter
            (fun mm => ¬ (p.entries.map Prod.fst).contains mm.1)).map
              (fun mm => (mm.1, mm.2.excalidraw_id))).map Prod.snd) s
      obtain ⟨e2, c2⟩ := deleteFold_ideal
        (((p.entries.filter (isUpdate st p.gmap)).map
            (fun q2 => (q2.1, q2.2, entryHash p.gmap q2))).map
              (fun t => mappingEidOf st t.1))
        ((((st.mappings.filter
            (fun mm => ¬ (p.entries.map Prod.fst).contains mm.1)).map
              (fun mm => (mm.1, mm.2.excalidraw_id))).map Prod.snd).foldl
          (swallowDelete idealClient) s)
      rw [e2, e1]
      exact filterFold_mem _ _ _ (filterFold_mem _ _ _ hlv hne1) hne2
  unfold pushApply
  split
  · rename_i hbe
    have hCU : (p.entries.filter (isCreate st)).map
          (fun q2 => (q2.1, q2.2, entryHash p.gmap q2)) ++
        (p.entries.filter (isUpdate st p.gmap)).map
          (fun q2 => (q2.1, q2.2, entryHash p.gmap q2)) = [] :=
      List.isEmpty_iff.mp hbe
    rw [pushIncrFinish_eq]
    dsimp only [Option.getD_some]
    refine ⟨?_, ?_⟩
    · intro q hq
      rcases classify_total st p.gmap q with hc | hc | hc
      · have hbm : (q.1, q.2, entryHash p.gmap q) ∈
            ((p.entries.filter (isCreate st)).map
              (fun q2 => (q2.1, q2.2, entryHash p.gmap q2)) ++
            (p.entries.filter (isUpdate st p.gmap)).map
              (fun q2 => (q2.1, q2.2, entryHash p.gmap q2))) :=
          List.mem_append_left _
            (List.mem_map.mpr ⟨q, List.mem_filter.mpr ⟨hq, hc⟩, rfl⟩)
        rw [hCU] at hbm
        exact absurd hbm (List.not_mem_nil _)
      · have hbm : (q.1, q.2, entryHash p.gmap q) ∈
            ((p.entries.filter (isCreate st)).map
              (fun q2 => (q2.1, q2.2, entryHash p.gmap q2)) ++
            (p.entries.filter (isUpdate st p.gmap)).map
              (fun q2 => (q2.1, q2.2, entryHash p.gmap q2))) :=
          List.mem_append_right _
            (List.mem_map.mpr ⟨q, List.mem_filter.mpr ⟨hq, hc⟩, rfl⟩)
        rw [hCU] at hbm
        exact absurd hbm (List.not_mem_nil _)
      · obtain ⟨m, hg, hh, hsv⟩ := hsurv q hq hc
        have hqk : q.1 ∈ (p.entries.filter (isUnchanged st p.gmap)).map Prod.fst :=
          List.mem_map.mpr ⟨q, List.mem_filter.mpr ⟨hq, hc⟩, rfl⟩
        refine ⟨m, ?_, hh, hsv⟩
        refine dictGet_append_left ?_
        rw [dictGet_map_self _ _ q.1 hqk, hg]
        rfl
    · intro qm hqm
      rcases List.mem_append.mp hqm with hl | hr
      · obtain ⟨q2, hq2, he⟩ := List.mem_map.mp (map_self_mem_keys _ _ qm hl)
        exact List.mem_map.mpr ⟨q2, List.mem_of_mem_filter hq2, he⟩
      · rw [hCU] at hr
        exact absurd hr (List.not_mem_nil _)
  · rename_i hbe
    rw [pushApplyCreate_ideal, pushIncrFinish_eq]
    dsimp only [Option.getD_some]
    refine ⟨?_, ?_⟩
    · intro q hq
      have hmain : ∀ hc : (q.1, q.2, entryHash p.gmap q) ∈
          ((p.entries.filter (isCreate st)).map
            (fun q2 => (q2.1, q2.2, entryHash p.gmap q2)) ++
          (p.entries.filter (isUpdate st p.gmap)).map
            (fun q2 => (q2.1, q2.2, entryHash p.gmap q2))),
          isUnchanged st p.gmap q = false →
          ∃ m, dictGet q.1
            ((((p.entries.filter (isUnchanged st p.gmap)).map Prod.fst).map
              (fun yid => (yid, (dictGet yid st.mappings).getD ⟨"", ""⟩))) ++
             buildIncrMappings
               ((p.entries.filter (isCreate st)).map
                 (fun q2 => (q2.1, q2.2, entryHash p.gmap q2)) ++
                (p.entries.filter (isUpdate st p.gmap)).map
                 (fun q2 => (q2.1, q2.2, entryHash p.gmap q2)))
               ((List.range' (deletePhase idealClient st
                   ((p.entries.filter (isCreate st)).map
                      (fun q2 => (q2.1, q2.2, entryHash p.gmap q2)),
                    (p.entries.filter (isUpdate st p.gmap)).map
                      (fun q2 => (q2.1, q2.2, entryHash p.gmap q2)),
                    (st.mappings.filter
                      (fun mm => ¬ (p.entries.map Prod.fst).contains mm.1)).map
                        (fun mm => (mm.1, mm.2.excalidraw_id)),
                    (p.entries.filter (isUnchanged st p.gmap)).map Prod.fst) s).counter
                  ((p.entries.filter (isCreate st)).map
                     (fun q2 => (q2.1, q2.2, entryHash p.gmap q2)) ++
                   (p.entries.filter (isUpdate st p.gmap)).map
                     (fun q2 => (q2.1, q2.2, entryHash p.gmap q2))).length).map
                 (fun k => Created.mk (some (freshId k))))) = some m ∧
            m.hash = compute_hash q.2 (dictGet q.1 p.gmap) ∧
            m.excalidraw_id ∈
              ((deletePhase idealClient st
                  ((p.entries.filter (isCreate st)).map
                     (fun q2 => (q2.1, q2.2, entryHash p.gmap q2)),
                   (p.entries.filter (isUpdate st p.gmap)).map
                     (fun q2 => (q2.1, q2.2, entryHash p.gmap q2)),
                   (st.mappings.filter
                     (fun mm => ¬ (p.entries.map Prod.fst).contains mm.1)).map
                       (fun mm => (mm.1, mm.2.excalidraw_id)),
                   (p.entries.filter (isUnchanged st p.gmap)).map Prod.fst) s).elements ++
                ((List.range' (deletePhase idealClient st
                    ((p.entries.filter (isCreate st)).map
                       (fun q2 => (q2.1, q2.2, entryHash p.gmap q2)),
                     (p.entries.filter (isUpdate st p.gmap)).map
                       (fun q2 => (q2.1, q2.2, entryHash p.gmap q2)),
                     (st.mappings.filter
                       (fun mm => ¬ (p.entries.map Prod.fst).contains mm.1)).map
                         (fun mm => (mm.1, mm.2.excalidraw_id)),
                     (p.entries.filter (isUnchanged st p.gmap)).map Prod.fst) s).counter
                   ((p.entries.filter (isCreate st)).map
                      (fun q2 => (q2.1, q2.2, entryHash p.gmap q2)) ++
                    (p.entries.filter (isUpdate st p.gmap)).map
                      (fun q2 => (q2.1, q2.2, entryHash p.gmap q2))).length).map
                  freshId).zip
                  (((p.entries.filter (isCreate st)).map
                      (fun q2 => (q2.1, q2.2, entryHash p.gmap q2)) ++
                    (p.entries.filter (isUpdate st p.gmap)).map
                      (fun q2 => (q2.1, q2.2, entryHash p.gmap q2))).map
                    (fun t => (dictGet t.1 p.skels).getD []))).map Prod.fst := by
        intro hc hnu
        obtain ⟨k, hk, hget⟩ := incrZip_member _ _ hbnd (q.1, q.2, entryHash p.gmap q) hc
        have hqnun : q.1 ∉ (p.entries.filter (isUnchanged st p.gmap)).map Prod.fst :=
          filter_key_not_mem hke hq hnu
        refine ⟨⟨freshId k, entryHash p.gmap q⟩, ?_, rfl, ?_⟩
        · rw [dictGet_append_right (by rw [map_self_keys]; exact hqnun),
            buildIncrMappings_fresh]
          exact hget
        · rw [List.map_append]
          refine List.mem_append_right _ ?_
          rw [List.map_fst_zip]
          · exact List.mem_map.mpr ⟨k, hk, rfl⟩
          · simp
      rcases classify_total st p.gmap q with hc | hc | hc
      · refine hmain (List.mem_append_left _
          (List.mem_map.mpr ⟨q, List.mem_filter.mpr ⟨hq, hc⟩, rfl⟩)) ?_
        rw [isUnchanged_iff, hc]
        rfl
      · refine hmain (List.mem_append_right _
          (List.mem_map.mpr ⟨q, List.mem_filter.mpr ⟨hq, hc⟩, rfl⟩)) ?_
        rw [isUnchanged_iff, hc]
        simp
      · obtain ⟨m, hg, hh, hsv⟩ := hsurv q hq hc
        have hqk : q.1 ∈ (p.entries.filter (isUnchanged st p.gmap)).map Prod.fst :=
          List.mem_map.mpr ⟨q, List.mem_filter.mpr ⟨hq, hc⟩, rfl⟩
        refine ⟨m, ?_, hh, ?_⟩
        · refine dictGet_append_left ?_
          rw [dictGet_map_self _ _ q.1 hqk, hg]
          rfl
        · rw [List.map_append]
          exact List.mem_append_left _ hsv
    · intro qm hqm
      rcases List.mem_append.mp hqm with hl | hr
      · obtain ⟨q2, hq2, he⟩ := List.mem_map.mp (map_self_mem_keys _ _ qm hl)
        exact List.mem_map.mpr ⟨q2, List.mem_of_mem_filter hq2, he⟩
      · rw [buildIncrMappings_fresh] at hr
        obtain ⟨t, ht, hte⟩ := List.mem_map.mp hr
        have ht1 := (List.of_mem_zip ht).1
        have hq1 : qm.1 = t.1.1 := by rw [← hte]
        rcases List.mem_append.mp ht1 with hcl | hcr
        · obtain ⟨q2, hq2, he2⟩ := List.mem_map.mp hcl
          rw [hq1, ← he2]
          exact List.mem_map.mpr ⟨q2, List.mem_of_mem_filter hq2, rfl⟩
        · obtain ⟨q2, hq2, he2⟩ := List.mem_map.mp hcr
          rw [hq1, ← he2]
          exact List.mem_map.mpr ⟨q2, List.mem_of_mem_filter hq2, rfl⟩

/-- If the state file stores exactly the recomputed fingerprints of the
current entries (with every stored remote id live on the server), an
incremental push classifies every element as unchanged and performs zero
creates, zero updates, zero deletes. -/
theorem second_push_all_unchanged (p : Prep) (s1 : Srv) (st1 : StateFile)
    (hA : ∀ q ∈ p.entries, ∃ m, dictGet q.1 st1.mappings = some m ∧
        m.hash = compute_hash q.2 (dictGet q.1 p.gmap) ∧
        m.excalidraw_id ∈ s1.elements.map Prod.fst)
    (hB : ∀ q ∈ st1.mappings, q.1 ∈ p.entries.map Prod.fst) :
    (pushIncr idealClient p s1 (some st1)).1 =
      .ok ⟨[], [], [], p.entries.map Prod.fst, false⟩ := by
  have htc : p.entries.filter (isCreate st1) = [] := by
    refine List.filter_eq_nil_iff.mpr ?_
    intro q hq
    obtain ⟨m, hm, _, _⟩ := hA q hq
    simp [isCreate, hm]
  have htu : p.entries.filter (isUpdate st1 p.gmap) = [] := by
    refine List.filter_eq_nil_iff.mpr ?_
    intro q hq
    obtain ⟨m, hm, hh, _⟩ := hA q hq
    simp [isUpdate, hm, entryHash, hh]
  have hun : p.entries.filter (isUnchanged st1 p.gmap) = p.entries := by
    refine List.filter_eq_self.mpr ?_
    intro q hq
    obtain ⟨m, hm, hh, _⟩ := hA q hq
    simp [isUnchanged, hm, entryHash, hh]
  have htd : st1.mappings.filter
      (fun m => ¬ (p.entries.map Prod.fst).contains m.1) = [] := by
    refine List.filter_eq_nil_iff.mpr ?_
    intro q hq
    simp only [decide_not, Bool.not_eq_true', decide_eq_false_iff_not, not_not]
    exact List.elem_iff.mpr (hB q hq)
  unfold pushIncr
  simp only [Option.getD_some]
  rw [compute_diff_eq, htc, htu, htd, hun]
  simp only [List.map_nil]
  by_cases hne : p.entries = []
  · rw [hne]
    rfl
  · have hmapne : ¬ ((p.entries.map Prod.fst).isEmpty = true) := by
      cases he : p.entries with
      | nil => exact absurd he hne
      | cons a as => simp [he]
    rw [if_neg hmapne]
    show (pushAfterList idealClient p st1 ([], [], [], p.entries.map Prod.fst)
      (s1.elements.map (fun q => Created.mk (some q.1)))
      ⟨s1.elements, s1.counter, s1.log ++ [.listOp]⟩ (some st1)).1 = _
    unfold pushAfterList
    have hstale : (p.entries.map Prod.fst).filter
        (fun yid => ¬ (((s1.elements.map (fun q => Created.mk (some q.1))).map
          (fun el => el.idOpt)).contains (some (mappingEidOf st1 yid)))) = [] := by
      refine List.filter_eq_nil_iff.mpr ?_
      intro yid hyid
      obtain ⟨q, hq, hq1⟩ := List.mem_map.mp hyid
      obtain ⟨m, hm, _, heid⟩ := hA q hq
      simp only [List.map_map, decide_eq_true_eq, not_not]
      have heq : mappingEidOf st1 yid = m.excalidraw_id := by
        rw [← hq1]
        unfold mappingEidOf
        rw [hm]
        rfl
      rw [heq]
      refine List.elem_iff.mpr ?_
      obtain ⟨r, hr, hre⟩ := List.mem_map.mp heid
      refine List.mem_map.mpr ⟨r, hr, ?_⟩
      simp [hre]
    rw [hstale]
    rfl

set_option maxHeartbeats 1000000 in
/-- Any successful push against the ideal server from a well-formed state
file (duplicate-free mapping keys and stored remote ids) writes a state file
satisfying the push post-condition. -/
theorem push_post (doc : Doc) (p : Prep) (flag : Bool) (s0 : Srv)
    (sf : Option StateFile) (hp : prepare doc = .ok p)
    (hko : ((sf.getD emptyState).mappings.map Prod.fst).Nodup)
    (heo : ((sf.getD emptyState).mappings.map (fun m => m.2.excalidraw_id)).Nodup) :
    (push idealClient doc flag s0 sf).2.2.isSome = true ∧
    PushPost p (push idealClient doc flag s0 sf).2.1
      ((push idealClient doc flag s0 sf).2.2.getD emptyState) := by
  have hke := prepare_entries_nodup doc p hp
  rw [push_prepare_ok idealClient doc p flag s0 sf hp]
  cases flag with
  | true =>
    have hsome : (pushClear idealClient p s0 sf).2.2.isSome = true := by
      rw [pushClear_ideal]
      rfl
    exact ⟨hsome, clear_post p s0 sf hke⟩
  | false =>
    by_cases hemp :
        ((compute_diff p.entries (sf.getD emptyState) p.gmap).2.2.2.isEmpty = true)
    · have hred : pushIncr idealClient p s0 sf =
          pushApply idealClient p (sf.getD emptyState)
            (compute_diff p.entries (sf.getD emptyState) p.gmap) s0 sf := by
        unfold pushIncr
        rw [if_pos hemp]
      have hlive : ∀ yid ∈ (compute_diff p.entries (sf.getD emptyState) p.gmap).2.2.2,
          mappingEidOf (sf.getD emptyState) yid ∈ s0.elements.map Prod.fst := by
        intro yid hy
        rw [List.isEmpty_iff.mp hemp] at hy
        cases hy
      constructor
      · show (pushIncr idealClient p s0 sf).2.2.isSome = true
        rw [hred]
        exact pushApply_some p (sf.getD emptyState)
          (compute_diff p.entries (sf.getD emptyState) p.gmap) s0 sf
      · show PushPost p (pushIncr idealClient p s0 sf).2.1
          ((pushIncr idealClient p s0 sf).2.2.getD emptyState)
        rw [hred]
        exact apply_post p (sf.getD emptyState) s0 sf hke hko heo hlive
    · have hred : pushIncr idealClient p s0 sf =
          pushAfterList idealClient p (sf.getD emptyState)
            (compute_diff p.entries (sf.getD emptyState) p.gmap)
            (s0.elements.map (fun q => Created.mk (some q.1)))
            ⟨s0.elements, s0.counter, s0.log ++ [.listOp]⟩ sf := by
        unfold pushIncr
        rw [if_neg hemp]
        rfl
      by_cases hstale :
          (((compute_diff p.entries (sf.getD emptyState) p.gmap).2.2.2.filter
            (fun yid => ¬ (((s0.elements.map (fun q => Created.mk (some q.1))).map
              (fun el => el.idOpt)).contains
                (some (mappingEidOf (sf.getD emptyState) yid))))).isEmpty = true)
      · have hred2 : pushAfterList idealClient p (sf.getD emptyState)
            (compute_diff p.entries (sf.getD emptyState) p.gmap)
            (s0.elements.map (fun q => Created.mk (some q.1)))
            ⟨s0.elements, s0.counter, s0.log ++ [.listOp]⟩ sf =
            pushApply idealClient p (sf.getD emptyState)
              (compute_diff p.entries (sf.getD emptyState) p.gmap)
              ⟨s0.elements, s0.counter, s0.log ++ [.listOp]⟩ sf := by
          unfold pushAfterList
          rw [if_pos hstale]
        have hlive : ∀ yid ∈ (compute_diff p.entries (sf.getD emptyState) p.gmap).2.2.2,
            mappingEidOf (sf.getD emptyState) yid ∈
              ((⟨s0.elements, s0.counter, s0.log ++ [.listOp]⟩ : Srv)).elements.map
                Prod.fst := by
          intro yid hy
          by_contra hmiss
          have hsm : yid ∈
              (compute_diff p.entries (sf.getD emptyState) p.gmap).2.2.2.filter
                (fun y => ¬ (((s0.elements.map (fun q => Created.mk (some q.1))).map
                  (fun el => el.idOpt)).contains
                    (some (mappingEidOf (sf.getD emptyState) y)))) := by
            rw [List.mem_filter]
            refine ⟨hy, ?_⟩
            simp only [List.map_map, decide_eq_true_eq]
            intro hcont
            apply hmiss
            obtain ⟨q, hqm, hqe⟩ := List.mem_map.mp (List.elem_iff.mp hcont)
            have hq1 : q.1 = mappingEidOf (sf.getD emptyState) yid := by
              simpa using hqe
            exact List.mem_map.mpr ⟨q, hqm, hq1⟩
          rw [List.isEmpty_iff.mp hstale] at hsm
          cases hsm
        have hsome := pushApply_some p (sf.getD emptyState)
          (compute_diff p.entries (sf.getD emptyState) p.gmap)
          ⟨s0.elements, s0.counter, s0.log ++ [.listOp]⟩ sf
        have hpost := apply_post p (sf.getD emptyState)
          ⟨s0.elements, s0.counter, s0.log ++ [.listOp]⟩ sf hke hko heo hlive
        rw [← hred2, ← hred] at hsome hpost
        exact ⟨hsome, hpost⟩
      · have hred2 : pushAfterList idealClient p (sf.getD emptyState)
            (compute_diff p.entries (sf.getD emptyState) p.gmap)
            (s0.elements.map (fun q => Created.mk (some q.1)))
            ⟨s0.elements, s0.counter, s0.log ++ [.listOp]⟩ sf =
            pushClear idealClient p
              ⟨s0.elements, s0.counter, s0.log ++ [.listOp]⟩ sf := by
          unfold pushAfterList
          rw [if_neg hstale]
        constructor
        · show (pushIncr idealClient p s0 sf).2.2.isSome = true
          rw [hred, hred2, pushClear_ideal]
          rfl
        · show PushPost p (pushIncr idealClient p s0 sf).2.1
            ((pushIncr idealClient p s0 sf).2.2.getD emptyState)
          rw [hred, hred2]
          exact clear_post p ⟨s0.elements, s0.counter, s0.log ++ [.listOp]⟩ sf hke

/-- C2 (amended): pushing a document twice against the ideal server is
idempotent provided the starting persisted state is well-formed, meaning its
mapping keys and its stored remote ids are each duplicate-free (states the
engine itself writes satisfy this): whatever the first push's mode, the
second (incremental) push classifies every element unchanged and performs
zero creates, zero updates and zero deletes. -/
theorem wellformed_push_twice_second_all_unchanged
    (doc : Doc) (p : Prep) (flag : Bool) (s0 : Srv) (sf : Option StateFile)
    (hp : prepare doc = .ok p)
    (hko : ((sf.getD emptyState).mappings.map Prod.fst).Nodup)
    (heo : ((sf.getD emptyState).mappings.map (fun m => m.2.excalidraw_id)).Nodup) :
    (push idealClient doc false (push idealClient doc flag s0 sf).2.1
        (push idealClient doc flag s0 sf).2.2).1 =
      .ok ⟨[], [], [], p.entries.map Prod.fst, false⟩ := by
  obtain ⟨hsome, hpost⟩ := push_post doc p flag s0 sf hp hko heo
  obtain ⟨st1, hst1⟩ := Option.isSome_iff_exists.mp hsome
  have hg : (push idealClient doc flag s0 sf).2.2.getD emptyState = st1 := by
    rw [hst1]
    rfl
  rw [hg] at hpost
  rw [push_prepare_ok idealClient doc p false
    (push idealClient doc flag s0 sf).2.1 (push idealClient doc flag s0 sf).2.2 hp]
  show (pushIncr idealClient p (push idealClient doc flag s0 sf).2.1
      (push idealClient doc flag s0 sf).2.2).1 = _
  rw [hst1]
  exact second_push_all_unchanged p _ st1 hpost.1 hpost.2

end SealedHash

/-- The idempotence claim fails without a well-formedness condition on the
persisted state: here two document ids share the stored remote id `e1`. The
first (incremental) push succeeds — `b` is updated, which deletes remote
`e1`, also `a`'s stored remote id — and the second push of the unchanged
document then finds `a` stale and falls back to a full recreate instead of
reporting zero creates. -/
theorem shared_remote_id_push_twice_not_unchanged :
    (push idealClient ⟨[rectA, rectB], []⟩ false ⟨[("e1", [])], 0, []⟩
        (some ⟨[("a", ⟨"e1", compute_hash rectA none⟩),
                ("b", ⟨"e1", "stale"⟩)]⟩)).1 =
      .ok ⟨[], ["b"], [], ["a"], false⟩
    ∧ (push idealClient ⟨[rectA, rectB], []⟩ false
        (push idealClient ⟨[rectA, rectB], []⟩ false ⟨[("e1", [])], 0, []⟩
          (some ⟨[("a", ⟨"e1", compute_hash rectA none⟩),
                  ("b", ⟨"e1", "stale"⟩)]⟩)).2.1
        (push idealClient ⟨[rectA, rectB], []⟩ false ⟨[("e1", [])], 0, []⟩
          (some ⟨[("a", ⟨"e1", compute_hash rectA none⟩),
                  ("b", ⟨"e1", "stale"⟩)]⟩)).2.2).1 =
      .ok ⟨["a", "b"], [], [], [], true⟩ := by
  exact ⟨by rfl, by rfl⟩

/-- Concrete instantiation of the amended idempotence theorem: a fresh
single-shape document pushed twice starting from no state file. -/
theorem wellformed_push_twice_witness :
    prepare ⟨[rectA], []⟩ = .ok ⟨[("a", rectA)],
        [("a", (shape_to_skeleton rectA []).toOption.getD [])], []⟩
    ∧ (push idealClient ⟨[rectA], []⟩ false
        (push idealClient ⟨[rectA], []⟩ false ⟨[], 0, []⟩ none).2.1
        (push idealClient ⟨[rectA], []⟩ false ⟨[], 0, []⟩ none).2.2).1 =
      .ok ⟨[], [], [], ["a"], false⟩ := by
  refine ⟨by rfl, ?_⟩
  exact wellformed_push_twice_second_all_unchanged ⟨[rectA], []⟩
    ⟨[("a", rectA)], [("a", (shape_to_skeleton rectA []).toOption.getD [])], []⟩
    false ⟨[], 0, []⟩ none (by rfl) (by decide) (by decide)


/-- Concrete instantiation of the failure-atomicity theorem: a document whose
only shape lacks a `pos` fails validation and the push returns the error with
the client state and state file untouched. -/
theorem push_error_leaves_state_intact_witness :
    prepare ⟨[JVal.obj [("id", JVal.str "a"), ("type", JVal.str "rectangle")]], []⟩ =
      .error "Element 'a' missing 'pos'"
    ∧ push idealClient ⟨[JVal.obj [("id", JVal.str "a"), ("type", JVal.str "rectangle")]], []⟩
        false ⟨[], 0, []⟩ none =
      (.error "Element 'a' missing 'pos'", ⟨[], 0, []⟩, none) := by
  refine ⟨by rfl, ?_⟩
  exact push_error_leaves_state_intact.2.1 Srv idealClient _ false ⟨[], 0, []⟩ none
    "Element 'a' missing 'pos'" (by rfl)

/-! ## C10: short batch-create responses in incremental mode -/

/-- The fresh batch mappings for an arbitrary create response: response
entries are consumed positionally, and every batch entry beyond the response
(the shortfall) is stored with an empty remote identifier. -/
theorem buildIncrMappings_eq :
    ∀ (bs : List (String × JVal × String)) (created : List Created),
      buildIncrMappings bs created =
        (bs.zip created).map (fun t => (t.1.1, Mapping.mk (t.2.idOpt.getD "") t.1.2.2)) ++
        (bs.drop created.length).map (fun b => (b.1, Mapping.mk "" b.2.2)) := by
  intro bs
  induction bs with
  | nil => intro created; cases created <;> rfl
  | cons b bs ih =>
    intro created
    cases created with
    | nil =>
      obtain ⟨yid, e, h⟩ := b
      show (yid, Mapping.mk "" h) :: buildIncrMappings bs [] = _
      rw [ih [], List.zip_nil_right, List.zip_nil_right]
      rfl
    | cons c cs =>
      obtain ⟨yid, e, h⟩ := b
      show (yid, Mapping.mk (c.idOpt.getD "") h) :: buildIncrMappings bs cs = _
      rw [ih cs]
      rfl

/-- A degenerate client whose batch create always reports zero created
elements (and otherwise does nothing), exercising the shortfall path. -/
def stubShortClient : Client Srv where
  clearAll := fun s => .ok s
  create_elements := fun s _ => .ok ([], s)
  delete_element := fun s _ => .ok s
  get_elements := fun s => .ok ([], s)

/-- C10: in incremental mode a batch-create response shorter than the batch
(or a created element without an id) does not fail the push: the summary is
still ok and the state write pairs each shortfall element with an empty
remote identifier. Such an entry is repaired only by a later push's
staleness fallback, which fires since the empty id is never among the listed
remote ids. -/
theorem short_create_response_persists_empty_ids
    {σ : Type} (C : Client σ) (p : Prep) (old : StateFile)
    (d : List (String × JVal × String) × List (String × JVal × String) ×
      List (String × String) × List String)
    (s3 s4 : σ) (sf : Option StateFile) (created : List Created)
    (hc : C.create_elements s3
        ((d.1 ++ d.2.1).map (fun t => (dictGet t.1 p.skels).getD [])) =
      .ok (created, s4)) :
    (pushApplyCreate C p old d s3 sf).1 =
      .ok ⟨d.1.map Prod.fst, d.2.1.map Prod.fst, d.2.2.1, d.2.2.2, false⟩
    ∧ (pushApplyCreate C p old d s3 sf).2.2 =
      some ⟨(d.2.2.2.map (fun yid => (yid, (dictGet yid old.mappings).getD ⟨"", ""⟩))) ++
        ((d.1 ++ d.2.1).zip created).map
          (fun t => (t.1.1, Mapping.mk (t.2.idOpt.getD "") t.1.2.2)) ++
        ((d.1 ++ d.2.1).drop created.length).map
          (fun b => (b.1, Mapping.mk "" b.2.2))⟩
    ∧ (∀ b ∈ (d.1 ++ d.2.1).drop created.length,
        (b.1, Mapping.mk "" b.2.2) ∈
          ((pushApplyCreate C p old d s3 sf).2.2.getD emptyState).mappings)
    ∧ (∀ t ∈ (d.1 ++ d.2.1).zip created, t.2.idOpt = none →
        (t.1.1, Mapping.mk "" t.1.2.2) ∈
          ((pushApplyCreate C p old d s3 sf).2.2.getD emptyState).mappings)
    ∧ (∀ (p2 : Prep) (st2 : StateFile)
        (d2 : List (String × JVal × String) × List (String × JVal × String) ×
          List (String × String) × List String)
        (els : List Created) (s1 : σ) (yid hs : String),
        dictGet yid st2.mappings = some ⟨"", hs⟩ → yid ∈ d2.2.2.2 →
        some "" ∉ els.map (fun el => el.idOpt) →
        pushAfterList C p2 st2 d2 els s1 sf = pushClear C p2 s1 sf) := by
  have hred : pushApplyCreate C p old d s3 sf = pushIncrFinish old d created s4 := by
    unfold pushApplyCreate
    rw [hc]
  have hmain : pushApplyCreate C p old d s3 sf =
      (.ok ⟨d.1.map Prod.fst, d.2.1.map Prod.fst, d.2.2.1, d.2.2.2, false⟩, s4,
       some ⟨(d.2.2.2.map (fun yid => (yid, (dictGet yid old.mappings).getD ⟨"", ""⟩))) ++
         (((d.1 ++ d.2.1).zip created).map
           (fun t => (t.1.1, Mapping.mk (t.2.idOpt.getD "") t.1.2.2)) ++
         ((d.1 ++ d.2.1).drop created.length).map
           (fun b => (b.1, Mapping.mk "" b.2.2)))⟩) := by
    rw [hred, pushIncrFinish_eq, buildIncrMappings_eq]
  refine ⟨?_, ?_, ?_, ?_, ?_⟩
  · rw [hmain]
  · rw [hmain, ← List.append_assoc]
  · intro b hb
    rw [hmain]
    refine List.mem_append_right _ (List.mem_append_right _ ?_)
    exact List.mem_map.mpr ⟨b, hb, rfl⟩
  · intro t ht hnone
    rw [hmain]
    refine List.mem_append_right _ (List.mem_append_left _ ?_)
    refine List.mem_map.mpr ⟨t, ht, ?_⟩
    dsimp only
    rw [hnone]
    rfl
  · intro p2 st2 d2 els s1 yid hs hm hun hnm
    unfold pushAfterList
    have hcond : ¬ ((d2.2.2.2.filter
        (fun y => ¬ ((els.map (fun el => el.idOpt)).contains
          (some (mappingEidOf st2 y))))).isEmpty = true) := by
      intro hemp
      have heid : mappingEidOf st2 yid = "" := by
        unfold mappingEidOf
        rw [hm]
        rfl
      have hyf : yid ∈ d2.2.2.2.filter
          (fun y => ¬ ((els.map (fun el => el.idOpt)).contains
            (some (mappingEidOf st2 y)))) := by
        rw [List.mem_filter]
        refine ⟨hun, ?_⟩
        simp only [decide_eq_true_eq]
        intro hcont
        rw [heid] at hcont
        exact hnm (List.elem_iff.mp hcont)
      rw [List.isEmpty_iff.mp hemp] at hyf
      cases hyf
    rw [if_neg hcond]

/-- Concrete instantiation of the short-response theorem: a one-element
batch against a client that reports zero created elements. The push stage
returns an ok summary and persists the element with an empty remote id. -/
theorem short_create_response_witness :
    (pushApplyCreate stubShortClient ⟨[], [], []⟩ emptyState
        ([("x", JVal.null, "hx")], [], [], []) ⟨[], 0, []⟩ none).1 =
      .ok ⟨["x"], [], [], [], false⟩
    ∧ ("x", Mapping.mk "" "hx") ∈
      ((pushApplyCreate stubShortClient ⟨[], [], []⟩ emptyState
        ([("x", JVal.null, "hx")], [], [], []) ⟨[], 0, []⟩ none).2.2.getD
          emptyState).mappings := by
  have h := short_create_response_persists_empty_ids stubShortClient ⟨[], [], []⟩
    emptyState ([("x", JVal.null, "hx")], [], [], []) ⟨[], 0, []⟩ ⟨[], 0, []⟩ none []
    (by rfl)
  exact ⟨h.1, h.2.2.1 ("x", JVal.null, "hx") (List.mem_singleton.mpr rfl)⟩

/-! ## C5: group moves and fingerprints -/

/-- Decimal value of a digit string (proof-side inverse of `natDigs`). -/
def digitsVal (l : List Char) : Nat := l.foldl (fun a c => a * 10 + (c.toNat - 48)) 0

/-- `digitsVal` consumes a trailing digit. -/
theorem digitsVal_append (l : List Char) (c : Char) :
    digitsVal (l ++ [c]) = (digitsVal l) * 10 + (c.toNat - 48) := by
  unfold digitsVal
  rw [List.foldl_append]
  rfl

/-- Every character the decimal renderer produces is a digit `0`-`9`. -/
theorem natDigsAux_digits : ∀ (fuel n : Nat), ∀ c ∈ natDigsAux fuel n,
    48 ≤ c.toNat ∧ c.toNat ≤ 57 := by
  intro fuel
  induction fuel with
  | zero =>
    intro n c hc
    cases hc
  | succ fuel ih =>
    intro n c hc
    unfold natDigsAux at hc
    by_cases hn : n < 10
    · rw [if_pos hn] at hc
      have hce : c = hexDigit n := List.mem_singleton.mp hc
      subst hce
      interval_cases n <;> decide
    · rw [if_neg hn] at hc
      rcases List.mem_append.mp hc with h1 | h2
      · exact ih (n / 10) c h1
      · have hce : c = hexDigit (n % 10) := List.mem_singleton.mp h2
        subst hce
        have hm : n % 10 < 10 := Nat.mod_lt _ (by norm_num)
        generalize n % 10 = m at hm ⊢
        interval_cases m <;> decide

/-- The decimal renderer round-trips: its output evaluates back to the
number, hence it is injective. -/
theorem natDigsAux_val : ∀ (fuel n : Nat), n < fuel →
    digitsVal (natDigsAux fuel n) = n := by
  intro fuel
  induction fuel with
  | zero =>
    intro n h
    exact absurd h (Nat.not_lt_zero n)
  | succ fuel ih =>
    intro n h
    unfold natDigsAux
    by_cases hn : n < 10
    · rw [if_pos hn]
      have hd : digitsVal [hexDigit n] = n := by
        interval_cases n <;> decide
      exact hd
    · rw [if_neg hn]
      rw [digitsVal_append]
      have hdiv : n / 10 < fuel := by
        have h1 : n / 10 < n := Nat.div_lt_self (by omega) (by norm_num)
        omega
      rw [ih (n / 10) hdiv]
      have hm : n % 10 < 10 := Nat.mod_lt _ (by norm_num)
      have hd : (hexDigit (n % 10)).toNat - 48 = n % 10 := by
        generalize n % 10 = m at hm ⊢
        interval_cases m <;> decide
      rw [hd]
      omega

/-- The decimal renderer never returns an empty string. -/
theorem natDigsAux_ne_nil : ∀ (fuel n : Nat), n < fuel → natDigsAux fuel n ≠ [] := by
  intro fuel n h
  cases fuel with
  | zero => exact absurd h (Nat.not_lt_zero n)
  | succ f =>
    unfold natDigsAux
    by_cases hn : n < 10
    · rw [if_pos hn]
      exact List.cons_ne_nil _ _
    · rw [if_neg hn]
      intro hc
      exact List.cons_ne_nil _ _ (List.append_eq_nil.mp hc).2

/-- Characters of a rendered integer: a minus sign or a digit. -/
theorem pyIntRepr_chars (n : Int) : ∀ c ∈ (pyIntRepr n).data,
    c.toNat = 45 ∨ (48 ≤ c.toNat ∧ c.toNat ≤ 57) := by
  intro c hc
  unfold pyIntRepr at hc
  by_cases hn : n < 0
  · rw [if_pos hn] at hc
    rw [String.data_append] at hc
    rcases List.mem_append.mp hc with h1 | h2
    · left
      have : c = '-' := List.mem_singleton.mp h1
      subst this
      rfl
    · exact Or.inr (natDigsAux_digits _ _ c h2)
  · rw [if_neg hn] at hc
    exact Or.inr (natDigsAux_digits _ _ c hc)

/-- A comma is not a rendered-integer character. -/
theorem pyIntRepr_no_comma (n : Int) : ',' ∉ (pyIntRepr n).data := by
  intro hc
  rcases pyIntRepr_chars n ',' hc with h | h
  · exact absurd h (by decide)
  · exact absurd h (by decide)

/-- A closing brace is not a rendered-integer character. -/
theorem pyIntRepr_no_brace (n : Int) : '\x7d' ∉ (pyIntRepr n).data := by
  intro hc
  rcases pyIntRepr_chars n '\x7d' hc with h | h
  · exact absurd h (by decide)
  · exact absurd h (by decide)

/-- Integer rendering is injective (at the character-list level). -/
theorem pyIntRepr_inj (n m : Int) (h : (pyIntRepr n).data = (pyIntRepr m).data) :
    n = m := by
  unfold pyIntRepr at h
  by_cases hn : n < 0 <;> by_cases hm : m < 0
  · rw [if_pos hn, if_pos hm] at h
    rw [String.data_append, String.data_append] at h
    have hd : natDigs (-n).toNat = natDigs (-m).toNat :=
      List.append_cancel_left h
    have hv := congrArg digitsVal hd
    unfold natDigs at hv
    rw [natDigsAux_val _ _ (Nat.lt_succ_self _),
      natDigsAux_val _ _ (Nat.lt_succ_self _)] at hv
    omega
  · exfalso
    rw [if_pos hn, if_neg hm] at h
    rw [String.data_append] at h
    have h2 : ('-' :: natDigs (-n).toNat : List Char) = natDigs m.toNat := h
    have hmem : '-' ∈ natDigs m.toNat := by
      rw [← h2]
      exact List.mem_cons_self _ _
    rcases natDigsAux_digits _ _ '-' hmem with ⟨hlo, _⟩
    exact absurd hlo (by decide)
  · exfalso
    rw [if_neg hn, if_pos hm] at h
    rw [String.data_append] at h
    have h2 : natDigs n.toNat = ('-' :: natDigs (-m).toNat : List Char) := h
    have hmem : '-' ∈ natDigs n.toNat := by
      rw [h2]
      exact List.mem_cons_self _ _
    rcases natDigsAux_digits _ _ '-' hmem with ⟨hlo, _⟩
    exact absurd hlo (by decide)
  · rw [if_neg hn, if_neg hm] at h
    have hv := congrArg digitsVal h
    unfold natDigs at hv
    rw [natDigsAux_val _ _ (Nat.lt_succ_self _),
      natDigsAux_val _ _ (Nat.lt_succ_self _)] at hv
    omega

/-- Splitting at a separator character absent from both prefixes is
unambiguous. -/
theorem append_sep_inj (sep : Char) :
    ∀ (a b c d : List Char), sep ∉ a → sep ∉ b →
      a ++ sep :: c = b ++ sep :: d → a = b ∧ c = d := by
  intro a
  induction a with
  | nil =>
    intro b c d _ hb h
    cases b with
    | nil =>
      refine ⟨rfl, ?_⟩
      injection h
    | cons x xs =>
      rw [List.nil_append, List.cons_append] at h
      injection h with h1 _
      exact absurd (h1 ▸ List.mem_cons_self x xs) hb
  | cons x xs ih =>
    intro b c d ha hb h
    cases b with
    | nil =>
      rw [List.cons_append, List.nil_append] at h
      injection h with h1 _
      exact absurd (h1.symm ▸ List.mem_cons_self x xs) ha
    | cons y ys =>
      rw [List.cons_append, List.cons_append] at h
      injection h with h1 h2
      subst h1
      obtain ⟨e1, e2⟩ := ih ys c d
        (fun hm => ha (List.mem_cons_of_mem _ hm))
        (fun hm => hb (List.mem_cons_of_mem _ hm)) h2
      exact ⟨by rw [e1], e2⟩

/-- Left cancellation for string concatenation. -/
theorem strCancelLeft {a b c : String} (h : a ++ b = a ++ c) : b = c := by
  apply String.ext
  have h2 := congrArg String.data h
  rw [String.data_append, String.data_append] at h2
  exact List.append_cancel_left h2

/-- Right cancellation for string concatenation. -/
theorem strCancelRight {a b c : String} (h : a ++ c = b ++ c) : a = b := by
  apply String.ext
  have h2 := congrArg String.data h
  rw [String.data_append, String.data_append] at h2
  exact List.append_cancel_right h2

/-- Python dict assignment rewrites exactly one slot: the surrounding fields
do not depend on the assigned value. -/
theorem dictSet_split {α : Type} (k : String) :
    ∀ (l : List (String × α)), ∃ pre post, ∀ v : α,
      dictSet k v l = pre ++ (k, v) :: post := by
  intro l
  induction l with
  | nil => exact ⟨[], [], fun v => rfl⟩
  | cons p ps ih =>
    by_cases hp : p.1 = k
    · exact ⟨[], ps, fun v => by simp [dictSet, hp]⟩
    · obtain ⟨pre, post, hpp⟩ := ih
      exact ⟨p :: pre, post, fun v => by simp [dictSet, hp, hpp v]⟩

/-- `canonFields` distributes over append. -/
theorem canonFields_append :
    ∀ (l1 l2 : List (String × JVal)),
      canonFields (l1 ++ l2) = canonFields l1 ++ canonFields l2 := by
  intro l1
  induction l1 with
  | nil => intro l2; rfl
  | cons p ps ih =>
    intro l2
    show (p.1, canon p.2) :: canonFields (ps ++ l2) = _
    rw [ih l2]
    rfl

/-- Inserting a fixed field into a field list leaves the distinguished slot's
surroundings independent of the slot's value. -/
theorem insertByKey_slot (q : String × JVal) :
    ∀ (pre post : List (String × JVal)) (k : String),
      ∃ pre2 post2, ∀ v : JVal,
        insertByKey q (pre ++ (k, v) :: post) = pre2 ++ (k, v) :: post2 := by
  intro pre
  induction pre with
  | nil =>
    intro post k
    by_cases hle : strLe q.1 k = true
    · exact ⟨[q], post, fun v => by simp [insertByKey, hle]⟩
    · exact ⟨[], insertByKey q post, fun v => by simp [insertByKey, hle]⟩
  | cons p ps ih =>
    intro post k
    obtain ⟨pre2, post2, hpp⟩ := ih post k
    by_cases hle : strLe q.1 p.1 = true
    · exact ⟨q :: p :: ps, post, fun v => by simp [insertByKey, hle]⟩
    · exact ⟨p :: pre2, post2, fun v => by simp [insertByKey, hle, hpp v]⟩

/-- Inserting the distinguished field itself: its insertion point depends
only on its key. -/
theorem insertByKey_self (k : String) :
    ∀ (S : List (String × JVal)), ∃ pre2 post2, ∀ v : JVal,
      insertByKey (k, v) S = pre2 ++ (k, v) :: post2 := by
  intro S
  induction S with
  | nil => exact ⟨[], [], fun v => rfl⟩
  | cons p ps ih =>
    by_cases hle : strLe k p.1 = true
    · exact ⟨[], p :: ps, fun v => by simp [insertByKey, hle]⟩
    · obtain ⟨pre2, post2, hpp⟩ := ih
      exact ⟨p :: pre2, post2, fun v => by simp [insertByKey, hle, hpp v]⟩

/-- Key-sorting a field list with one distinguished slot: the sorted
surroundings do not depend on the slot's value. -/
theorem sortByKey_slot :
    ∀ (pre post : List (String × JVal)) (k : String),
      ∃ pre2 post2, ∀ v : JVal,
        sortByKey (pre ++ (k, v) :: post) = pre2 ++ (k, v) :: post2 := by
  intro pre
  induction pre with
  | nil =>
    intro post k
    obtain ⟨pre2, post2, hpp⟩ := insertByKey_self k (sortByKey post)
    exact ⟨pre2, post2, fun v => by
      show insertByKey (k, v) (sortByKey post) = _
      exact hpp v⟩
  | cons p ps ih =>
    intro post k
    obtain ⟨pre2, post2, hpp⟩ := ih post k
    obtain ⟨pre3, post3, hqq⟩ := insertByKey_slot p pre2 post2 k
    refine ⟨pre3, post3, fun v => ?_⟩
    show insertByKey p (sortByKey (ps ++ (k, v) :: post)) = _
    rw [hpp v]
    exact hqq v

/-- Field serialization of a nonempty-tailed cons. -/
theorem serJFields_cons_ne (p : String × JVal) (rest : List (String × JVal))
    (h : rest ≠ []) :
    serJFields (p :: rest) = serStr p.1 ++ ":" ++ serJ p.2 ++ "," ++ serJFields rest := by
  cases rest with
  | nil => exact absurd rfl h
  | cons r rs => rfl

/-- Two field lists agreeing everywhere but in one slot's value serialize
equally only if the slot values serialize equally. -/
theorem serJFields_slot_inj (k : String) (v v' : JVal) :
    ∀ (pre post : List (String × JVal)),
      serJFields (pre ++ (k, v) :: post) = serJFields (pre ++ (k, v') :: post) →
      serJ v = serJ v' := by
  intro pre
  induction pre with
  | nil =>
    intro post h
    cases post with
    | nil =>
      have h2 : serStr k ++ ":" ++ serJ v = serStr k ++ ":" ++ serJ v' := h
      exact strCancelLeft h2
    | cons p ps =>
      rw [List.nil_append, List.nil_append] at h
      rw [serJFields_cons_ne (k, v) (p :: ps) (List.cons_ne_nil p ps),
        serJFields_cons_ne (k, v') (p :: ps) (List.cons_ne_nil p ps)] at h
      exact strCancelLeft (strCancelRight (strCancelRight h))
  | cons p ps ih =>
    intro post h
    rw [List.cons_append, List.cons_append] at h
    rw [serJFields_cons_ne p (ps ++ (k, v) :: post) (by simp),
      serJFields_cons_ne p (ps ++ (k, v') :: post) (by simp)] at h
    exact ih post (strCancelLeft h)

/-- The serialized `_group_` object determines the offsets. -/
theorem groupJVal_ser_inj (g : String) (x y x' y' : Int)
    (h : serJ (canon (groupJVal g x y)) = serJ (canon (groupJVal g x' y'))) :
    x = x' ∧ y = y' := by
  have e1 : ∀ (a b : Int), serJ (canon (groupJVal g a b)) =
      "\x7b" ++ ("\"id\"" ++ ":" ++ serStr g ++ "," ++
        ("\"x\"" ++ ":" ++ pyIntRepr a ++ "," ++
          ("\"y\"" ++ ":" ++ pyIntRepr b))) ++ "\x7d" := fun a b => rfl
  rw [e1, e1] at h
  have hd := congrArg String.data h
  have dlb : ("\x7b" : String).data = ['\x7b'] := rfl
  have did : ("\"id\"" : String).data = ['"', 'i', 'd', '"'] := rfl
  have dco : ((":" : String)).data = [':'] := rfl
  have dcm : (("," : String)).data = [','] := rfl
  have dxx : ("\"x\"" : String).data = ['"', 'x', '"'] := rfl
  have dyy : ("\"y\"" : String).data = ['"', 'y', '"'] := rfl
  have drb : ("\x7d" : String).data = ['\x7d'] := rfl
  simp only [String.data_append, dlb, did, dco, dcm, dxx, dyy, drb, List.append_assoc,
    List.cons_append, List.singleton_append, List.nil_append] at hd
  simp only [List.cons.injEq, true_and] at hd
  have hd2 := List.append_cancel_left hd
  simp only [List.cons.injEq, true_and] at hd2
  obtain ⟨hxe, hrest⟩ := append_sep_inj ',' _ _ _ _
    (pyIntRepr_no_comma x) (pyIntRepr_no_comma x') hd2
  simp only [List.cons.injEq, true_and] at hrest
  obtain ⟨hye, _⟩ := append_sep_inj '\x7d' _ _ _ _
    (pyIntRepr_no_brace y) (pyIntRepr_no_brace y') hrest
  exact ⟨pyIntRepr_inj x x' hxe, pyIntRepr_inj y y' hye⟩

/-- C5 (amended): for an element in a group, changing the group's origin
always changes the element's serialized hash input: the `_group_` object
(group id plus absolute offset) is folded into the entry and survives key
sorting and canonical serialization. (The 16-character truncated digest
itself provably cannot separate every pair of distinct offsets.) -/
theorem group_offset_changes_hash_input
    (fs : List (String × JVal)) (g eg : String) (x y x' y' : Int)
    (hne : ¬ (x = x' ∧ y = y')) :
    canonicalDumps (hashData (.obj fs) (some (g, x, y, eg))) ≠
      canonicalDumps (hashData (.obj fs) (some (g, x', y', eg))) := by
  intro h
  have e : ∀ (a b : Int), canonicalDumps (hashData (.obj fs) (some (g, a, b, eg))) =
      "\x7b" ++ serJFields (sortByKey (canonFields
        (dictSet "_group_" (groupJVal g a b) fs))) ++ "\x7d" :=
    fun a b => rfl
  rw [e, e] at h
  have hf : serJFields (sortByKey (canonFields
      (dictSet "_group_" (groupJVal g x y) fs))) =
      serJFields (sortByKey (canonFields
        (dictSet "_group_" (groupJVal g x' y') fs))) :=
    strCancelLeft (strCancelRight h)
  obtain ⟨pre, post, hset⟩ := dictSet_split "_group_" fs
  obtain ⟨pre2, post2, hsort⟩ := sortByKey_slot (canonFields pre) (canonFields post) "_group_"
  have hrw : ∀ (a b : Int),
      sortByKey (canonFields (dictSet "_group_" (groupJVal g a b) fs)) =
        pre2 ++ ("_group_", canon (groupJVal g a b)) :: post2 := by
    intro a b
    rw [hset (groupJVal g a b), canonFields_append]
    show sortByKey (canonFields pre ++
      ("_group_", canon (groupJVal g a b)) :: canonFields post) = _
    exact hsort (canon (groupJVal g a b))
  rw [hrw, hrw] at hf
  have hser := serJFields_slot_inj "_group_"
    (canon (groupJVal g x y)) (canon (groupJVal g x' y')) pre2 post2 hf
  obtain ⟨hx, hy⟩ := groupJVal_ser_inj g x y x' y' hser
  exact hne ⟨hx, hy⟩

/-- A character's code point, as a member of the finite code space. -/
def charCode (c : Char) : Fin 4294967296 := ⟨c.toNat, c.val.toNat_lt⟩

/-- The 16-character truncated digest cannot separate every pair of distinct
group offsets: by pigeonhole over the finite digest space, some two distinct
offsets of the same member share a fingerprint, so the claim in its literal
universal form is false. -/
theorem group_move_fingerprint_collision :
    ¬ (∀ (entry : JVal) (g eg : String) (x y x' y' : Int),
        ¬ (x = x' ∧ y = y') →
        compute_hash entry (some (g, x, y, eg)) ≠
          compute_hash entry (some (g, x', y', eg))) := by
  intro hall
  have hdec : ∀ s t : String, s.data.length ≤ 16 → t.data.length ≤ 16 →
      (∀ i : Fin 17, (s.data.get? i.val).map charCode =
        (t.data.get? i.val).map charCode) →
      s = t := by
    intro s t hs ht hh
    apply String.ext
    apply List.ext
    intro n
    by_cases hn : n < 17
    · refine Option.map_injective ?_ (hh ⟨n, hn⟩)
      intro c d hcd
      apply Char.ext
      apply UInt32.toNat.inj
      exact congrArg Fin.val hcd
    · rw [List.get?_eq_none.mpr (by omega), List.get?_eq_none.mpr (by omega)]
  obtain ⟨a, b, hne, heq⟩ := Finite.exists_ne_map_eq_of_infinite
    (fun z : ℤ => (fun i : Fin 17 =>
      ((compute_hash (.obj []) (some ("g", z, 0, ""))).data.get? i.val).map charCode))
  have hlen : ∀ (z : ℤ),
      (compute_hash (.obj []) (some ("g", z, 0, ""))).data.length ≤ 16 := by
    intro z
    show ((sha256HexOfString
      (canonicalDumps (hashData (.obj []) (some ("g", z, 0, ""))))).take 16).data.length ≤ 16
    rw [String.data_take]
    exact List.length_take_le _ _
  have hhs : compute_hash (.obj []) (some ("g", a, 0, "")) =
      compute_hash (.obj []) (some ("g", b, 0, "")) :=
    hdec _ _ (hlen a) (hlen b) (fun i => congrFun heq i)
  exact hall (.obj []) "g" "" a 0 b 0 (fun hc => hne hc.1) hhs

/-- Concrete instantiation of the hash-input theorem on the spec's group
scenario (member `s1` of group `g1`, origin moved by `(30, 40)`): the hash
inputs differ, and here the truncated fingerprints differ too. -/
theorem group_offset_changes_hash_input_witness :
    (¬ ((100 : Int) = 130 ∧ (100 : Int) = 140))
    ∧ canonicalDumps (hashData (.obj [("id", .str "s1")]) (some ("g1", 100, 100, "")))
        ≠ canonicalDumps (hashData (.obj [("id", .str "s1")]) (some ("g1", 130, 140, "")))
    ∧ compute_hash (.obj [("id", .str "s1")]) (some ("g1", 100, 100, ""))
        ≠ compute_hash (.obj [("id", .str "s1")]) (some ("g1", 130, 140, "")) := by
  refine ⟨by decide, ?_, by decide⟩
  exact group_offset_changes_hash_input [("id", .str "s1")] "g1" ""
    100 100 130 140 (by decide)

/-! ## C6: fingerprint stability under document reordering -/

/-- A key lookup is unaffected by assignment to a different key. -/
theorem dictGet_dictSet_ne {α : Type} (k k2 : String) (v : α) (hk : k ≠ k2) :
    ∀ (l : List (String × α)), dictGet k (dictSet k2 v l) = dictGet k l := by
  intro l
  induction l with
  | nil =>
    simp only [dictSet, dictGet]
    rw [if_neg (fun h => hk h.symm)]
  | cons p ps ih =>
    simp only [dictSet]
    by_cases hp : p.1 = k2
    · rw [if_pos hp]
      simp only [dictGet]
      by_cases hq : p.1 = k
      · exact absurd (hq ▸ hp) hk
      · rw [if_neg hq, if_neg (fun (h : k2 = k) => hk h.symm)]
    · rw [if_neg hp]
      simp only [dictGet]
      by_cases hq : p.1 = k
      · rw [if_pos hq, if_pos hq]
      · rw [if_neg hq, if_neg hq, ih]

/-- The anonymous-text guard of `process_element`. -/
def anonText (fs : List (String × JVal)) : Bool :=
  isStrVal (dictGet "type" fs) "text" && ! dictHas "id" fs

/-- A group member that is not an anonymous text. -/
def noAnonElem (m : JVal) : Bool :=
  match m with
  | .obj fs => ! anonText fs
  | _ => true

/-- A top-level element free of anonymous texts (directly or as members). -/
def noAnonTop (e : JVal) : Bool :=
  match e with
  | .obj fs =>
    if isStrVal (dictGet "type" fs) "group" then
      match dictGet "shapes" fs with
      | some (.list ms) => ms.all noAnonElem
      | _ => true
    else ! anonText fs
  | _ => true

/-- What one validation step appends to the validator state. -/
structure VDelta where
  dsh : List JVal
  dids : List String
  dgm : List (String × GroupInfo)

/-- Apply a delta to a state (the text counter is unchanged on the
anonymous-text-free runs these lemmas describe). -/
def VState.addD (st : VState) (d : VDelta) : VState :=
  ⟨st.shapes ++ d.dsh, st.shape_ids ++ d.dids, st.group_map ++ d.dgm, st.text_counter⟩

/-- Concatenation of deltas. -/
def VDelta.comp (d1 d2 : VDelta) : VDelta :=
  ⟨d1.dsh ++ d2.dsh, d1.dids ++ d2.dids, d1.dgm ++ d2.dgm⟩

theorem addD_comp (st : VState) (d1 d2 : VDelta) :
    (st.addD d1).addD d2 = st.addD (d1.comp d2) := by
  simp [VState.addD, VDelta.comp]

theorem addD_nil (st : VState) : st.addD ⟨[], [], []⟩ = st := by
  simp [VState.addD]

/-- A well-formed delta over a start state: its group entries are keyed by a
sub-list of its new ids, and its new ids are fresh. -/
def VGrow (st : VState) (d : VDelta) : Prop :=
  (d.dgm.map Prod.fst).Sublist d.dids ∧ ∀ eid ∈ d.dids, eid ∉ st.shape_ids

/-- A delta is fresh for another state: none of its ids is recorded there. -/
def DFresh (st2 : VState) (d : VDelta) : Prop :=
  ∀ eid ∈ d.dids, eid ∉ st2.shape_ids ∧ dictGet eid st2.group_map = none

/-- The group-map entry a shape contributes. -/
def gmDelta (g : Option GroupInfo) (eid : String) : List (String × GroupInfo) :=
  match g with
  | none => []
  | some ctx => [(eid, ctx)]

/-- `processShapeRest` on a success: it appends the shape, its id, and its
group entry, and the very same step succeeds identically from any other
state in which that id is fresh. -/
theorem processShapeRest_tc (g : Option GroupInfo) (st : VState)
    (fs : List (String × JVal)) (tx : Bool) (st' : VState)
    (h : processShapeRest g st fs st.text_counter tx = .ok st') :
    ∃ eid, st' = st.addD ⟨[.obj fs], [eid], gmDelta g eid⟩ ∧
      VGrow st ⟨[.obj fs], [eid], gmDelta g eid⟩ ∧
      ∀ st2 : VState, DFresh st2 ⟨[.obj fs], [eid], gmDelta g eid⟩ →
        processShapeRest g st2 fs st2.text_counter tx =
          .ok (st2.addD ⟨[.obj fs], [eid], gmDelta g eid⟩) := by
  unfold processShapeRest at h
  split at h
  · cases h
  · rename_i idv hget
    split at h
    · cases h
    · rename_i elemId hstr
      split at h
      · cases h
      · rename_i hdup
        split at h
        · cases h
        · rename_i htxt
          split at h
          · cases h
          · rename_i hpos
            refine ⟨elemId, ?_, ?_, ?_⟩
            · cases g with
              | none =>
                dsimp only [] at h
                cases h
                simp [VState.addD, gmDelta]
              | some ctx =>
                dsimp only [] at h
                by_cases hgs : (dictGet elemId st.group_map).isSome = true
                · rw [if_pos hgs] at h
                  cases h
                · rw [if_neg hgs] at h
                  cases h
                  simp [VState.addD, gmDelta]
            · refine ⟨?_, ?_⟩
              · cases g with
                | none => simp [gmDelta]
                | some ctx => simp [gmDelta]
              · intro eid he
                rw [List.mem_singleton.mp he]
                exact hdup
            · intro st2 hf
              obtain ⟨hid2, hgm2⟩ := hf elemId (List.mem_singleton.mpr rfl)
              simp only [processShapeRest, hget, hstr]
              rw [if_neg hid2, if_neg htxt, if_neg hpos]
              cases g with
              | none =>
                dsimp only []
                simp [VState.addD, gmDelta]
              | some ctx =>
                have hns : (dictGet elemId st2.group_map).isSome = false := by
                  rw [hgm2]
                  rfl
                dsimp only []
                rw [hns]
                simp [VState.addD, gmDelta]

/-- `processShape` on a non-anonymous success: delta form and replayability
from any state where the id is fresh. -/
theorem processShape_tc (g : Option GroupInfo) (st : VState)
    (fs : List (String × JVal)) (st' : VState)
    (hna : anonText fs = false)
    (h : processShape g st fs = .ok st') :
    ∃ d : VDelta, st' = st.addD d ∧ VGrow st d ∧
      ∀ st2 : VState, DFresh st2 d → processShape g st2 fs = .ok (st2.addD d) := by
  unfold anonText at hna
  unfold processShape at h
  split at h
  · cases h
  · rename_i htype
    rw [hna, if_neg Bool.false_ne_true] at h
    obtain ⟨eid, h1, h2, h3⟩ := processShapeRest_tc g st fs _ st' h
    refine ⟨⟨[.obj fs], [eid], gmDelta g eid⟩, h1, h2, ?_⟩
    intro st2 hf
    unfold processShape
    rw [if_neg htype, hna, if_neg Bool.false_ne_true]
    exact h3 st2 hf

/-- `withZ` only touches the `z` key: the text/id/group classification of a
member is unchanged. -/
theorem anonText_withZ (z : JVal) (mfs : List (String × JVal)) :
    ∃ nfs, withZ z (.obj mfs) = .obj nfs ∧ anonText nfs = anonText mfs ∧
      isStrVal (dictGet "type" nfs) "group" = isStrVal (dictGet "type" mfs) "group" := by
  have e : withZ z (.obj mfs) =
      if dictHas "z" mfs = true then .obj mfs else .obj (dictSet "z" z mfs) := rfl
  by_cases hz : dictHas "z" mfs = true
  · rw [e, if_pos hz]
    exact ⟨mfs, rfl, rfl, rfl⟩
  · rw [e, if_neg hz]
    refine ⟨dictSet "z" z mfs, rfl, ?_, ?_⟩
    · unfold anonText dictHas
      rw [dictGet_dictSet_ne "type" "z" z (by decide),
        dictGet_dictSet_ne "id" "z" z (by decide)]
    · rw [dictGet_dictSet_ne "type" "z" z (by decide)]

/-- `processMember` on a non-anonymous member: delta form and replayability. -/
theorem processMember_tc (ctx : GroupInfo) (z : JVal) (m : JVal) (st st' : VState)
    (hna : noAnonElem m = true)
    (h : processMember ctx st (withZ z m) = .ok st') :
    ∃ d : VDelta, st' = st.addD d ∧ VGrow st d ∧
      ∀ st2 : VState, DFresh st2 d →
        processMember ctx st2 (withZ z m) = .ok (st2.addD d) := by
  cases m with
  | null => simp [withZ, processMember] at h
  | bool b => simp [withZ, processMember] at h
  | int n => simp [withZ, processMember] at h
  | str s2 => simp [withZ, processMember] at h
  | list xs => simp [withZ, processMember] at h
  | obj mfs =>
    obtain ⟨nfs, hw, han, _⟩ := anonText_withZ z mfs
    rw [hw] at h
    unfold processMember at h
    dsimp only [] at h
    split at h
    · cases h
    · rename_i hgrp
      have hna2 : anonText nfs = false := by
        rw [han]
        unfold noAnonElem at hna
        simp only [Bool.not_eq_true'] at hna
        exact hna
      obtain ⟨d, h1, h2, h3⟩ := processShape_tc (some ctx) st nfs st' hna2 h
      refine ⟨d, h1, h2, ?_⟩
      intro st2 hf
      rw [hw]
      unfold processMember
      dsimp only []
      rw [if_neg hgrp]
      exact h3 st2 hf

/-- A run of `processMember` over the members of one group: delta form and
replayability from any state where all new ids are fresh. -/
theorem membersFold_tc (ctx : GroupInfo) (z : JVal) :
    ∀ (ms : List JVal) (st st' : VState),
      (∀ m ∈ ms, noAnonElem m = true) →
      ms.foldlM (fun s m => processMember ctx s (withZ z m)) st = .ok st' →
      ∃ d : VDelta, st' = st.addD d ∧ VGrow st d ∧
        ∀ st2 : VState, DFresh st2 d →
          ms.foldlM (fun s m => processMember ctx s (withZ z m)) st2 =
            .ok (st2.addD d) := by
  intro ms
  induction ms with
  | nil =>
    intro st st' _ h
    simp only [List.foldlM_nil, pure, Except.pure] at h
    cases h
    refine ⟨⟨[], [], []⟩, (addD_nil st).symm, ⟨by simp, by simp⟩, ?_⟩
    intro st2 _
    rw [addD_nil]
    rfl
  | cons m ms ih =>
    intro st st' hna h
    simp only [List.foldlM_cons] at h
    cases hm : processMember ctx st (withZ z m) with
    | error e =>
      rw [hm] at h
      simp [bind, Except.bind] at h
    | ok s1 =>
      rw [hm] at h
      simp only [bind, Except.bind] at h
      obtain ⟨d1, he1, hg1, hc1⟩ :=
        processMember_tc ctx z m st s1 (hna m (List.mem_cons_self _ _)) hm
      obtain ⟨d2, he2, hg2, hc2⟩ := ih s1 st'
        (fun m2 hm2 => hna m2 (List.mem_cons_of_mem _ hm2)) h
      refine ⟨d1.comp d2, ?_, ⟨?_, ?_⟩, ?_⟩
      · rw [he2, he1, addD_comp]
      · show List.Sublist ((d1.dgm ++ d2.dgm).map Prod.fst) (d1.dids ++ d2.dids)
        rw [List.map_append]
        exact List.Sublist.append hg1.1 hg2.1
      · intro eid he
        rcases List.mem_append.mp he with h1 | h1
        · exact hg1.2 eid h1
        · have h2 := hg2.2 eid h1
          rw [he1] at h2
          intro hc
          exact h2 (by
            show eid ∈ st.shape_ids ++ d1.dids
            exact List.mem_append_left _ hc)
      · intro st2 hf
        simp only [List.foldlM_cons]
        have hf1 : DFresh st2 d1 := by
          intro eid he
          exact hf eid (by
            show eid ∈ d1.dids ++ d2.dids
            exact List.mem_append_left _ he)
        rw [hc1 st2 hf1]
        simp only [bind, Except.bind]
        have hf2 : DFresh (st2.addD d1) d2 := by
          intro eid he
          obtain ⟨ha, hb⟩ := hf eid (by
            show eid ∈ d1.dids ++ d2.dids
            exact List.mem_append_right _ he)
          have hnd1 : eid ∉ d1.dids := by
            have h2 := hg2.2 eid he
            rw [he1] at h2
            intro hc
            exact h2 (by
              show eid ∈ st.shape_ids ++ d1.dids
              exact List.mem_append_right _ hc)
          refine ⟨?_, ?_⟩
          · show eid ∉ st2.shape_ids ++ d1.dids
            intro hc
            rcases List.mem_append.mp hc with h2 | h2
            · exact ha h2
            · exact hnd1 h2
          · show dictGet eid (st2.group_map ++ d1.dgm) = none
            rw [dictGet_eq_none_iff, List.map_append]
            intro hc
            rcases List.mem_append.mp hc with h2 | h2
            · exact (dictGet_eq_none_iff _ _).mp hb h2
            · exact hnd1 (hg1.1.subset h2)
        rw [hc2 (st2.addD d1) hf2, addD_comp]

/-- `processTopElem` on an anonymous-text-free success: delta form and
replayability from any state where all new ids are fresh. -/
theorem processTopElem_tc (e : JVal) (st st' : VState)
    (hna : noAnonTop e = true)
    (h : processTopElem st e = .ok st') :
    ∃ d : VDelta, st' = st.addD d ∧ VGrow st d ∧
      ∀ st2 : VState, DFresh st2 d → processTopElem st2 e = .ok (st2.addD d) := by
  cases e with
  | null => simp [processTopElem] at h
  | bool b => simp [processTopElem] at h
  | int n => simp [processTopElem] at h
  | str s2 => simp [processTopElem] at h
  | list xs => simp [processTopElem] at h
  | obj fs =>
    unfold processTopElem at h
    dsimp only [] at h
    by_cases hgrp : isStrVal (dictGet "type" fs) "group" = true
    · rw [if_pos hgrp] at h
      simp only [bind, Except.bind, pure, Except.pure] at h
      split at h
      · cases h
      · rename_i hid
        split at h
        · cases h
        · rename_i gid hgid
          split at h
          · cases h
          · rename_i hpos2
            split at h
            · cases h
            · rename_i hshp
              split at h
              · rename_i pos hpl
                split at h
                · rename_i p0 p1 hp0 hp1
                  split at h
                  · cases h
                  · rename_i gx hgx
                    split at h
                    · cases h
                    · rename_i gy hgy
                      split at h
                      · rename_i ms hms
                        have hms2 : ∀ m ∈ ms, noAnonElem m = true := by
                          unfold noAnonTop at hna
                          dsimp only [] at hna
                          rw [if_pos hgrp, hms] at hna
                          exact fun m hm => List.all_eq_true.mp hna m hm
                        obtain ⟨d, h1, h2, h3⟩ := membersFold_tc
                          (gid, gx, gy, generate_group_id gid)
                          ((dictGet "z" fs).getD (.int 0)) ms st st' hms2 h
                        refine ⟨d, h1, h2, ?_⟩
                        intro st2 hf
                        show processTopElem st2 (.obj fs) = _
                        unfold processTopElem
                        try dsimp only []
                        rw [if_pos hgrp]
                        simp only [bind, Except.bind, pure, Except.pure]
                        rw [if_neg hid]
                        try dsimp only []
                        rw [hgid]
                        try dsimp only []
                        rw [if_neg hpos2]
                        try dsimp only []
                        rw [if_neg hshp]
                        try dsimp only []
                        rw [hpl]
                        try dsimp only []
                        rw [hp0, hp1]
                        try dsimp only []
                        rw [hgx]
                        try dsimp only []
                        rw [hgy]
                        try dsimp only []
                        rw [hms]
                        try dsimp only []
                        exact h3 st2 hf
                      · cases h
                · cases h
              · cases h
    · rw [if_neg hgrp] at h
      have hna2 : anonText fs = false := by
        unfold noAnonTop at hna
        dsimp only [] at hna
        rw [if_neg hgrp] at hna
        simp only [Bool.not_eq_true'] at hna
        exact hna
      obtain ⟨d, h1, h2, h3⟩ := processShape_tc none st fs st' hna2 h
      refine ⟨d, h1, h2, ?_⟩
      intro st2 hf
      show processTopElem st2 (.obj fs) = _
      unfold processTopElem
      try dsimp only []
      rw [if_neg hgrp]
      exact h3 st2 hf

/-- A run of `processTopElem` over top-level elements: delta form and
replayability from any state where all new ids are fresh. -/
theorem topFold_tc :
    ∀ (l : List JVal) (st st' : VState),
      (∀ e ∈ l, noAnonTop e = true) →
      l.foldlM processTopElem st = .ok st' →
      ∃ d : VDelta, st' = st.addD d ∧ VGrow st d ∧
        ∀ st2 : VState, DFresh st2 d →
          l.foldlM processTopElem st2 = .ok (st2.addD d) := by
  intro l
  induction l with
  | nil =>
    intro st st' _ h
    simp only [List.foldlM_nil, pure, Except.pure] at h
    cases h
    refine ⟨⟨[], [], []⟩, (addD_nil st).symm, ⟨by simp, by simp⟩, ?_⟩
    intro st2 _
    rw [addD_nil]
    rfl
  | cons e l ih =>
    intro st st' hna h
    simp only [List.foldlM_cons] at h
    cases hm : processTopElem st e with
    | error err =>
      rw [hm] at h
      simp [bind, Except.bind] at h
    | ok s1 =>
      rw [hm] at h
      simp only [bind, Except.bind] at h
      obtain ⟨d1, he1, hg1, hc1⟩ :=
        processTopElem_tc e st s1 (hna e (List.mem_cons_self _ _)) hm
      obtain ⟨d2, he2, hg2, hc2⟩ := ih s1 st'
        (fun e2 he2 => hna e2 (List.mem_cons_of_mem _ he2)) h
      refine ⟨d1.comp d2, ?_, ⟨?_, ?_⟩, ?_⟩
      · rw [he2, he1, addD_comp]
      · show List.Sublist ((d1.dgm ++ d2.dgm).map Prod.fst) (d1.dids ++ d2.dids)
        rw [List.map_append]
        exact List.Sublist.append hg1.1 hg2.1
      · intro eid he
        rcases List.mem_append.mp he with h1 | h1
        · exact hg1.2 eid h1
        · have h2 := hg2.2 eid h1
          rw [he1] at h2
          intro hc
          exact h2 (by
            show eid ∈ st.shape_ids ++ d1.dids
            exact List.mem_append_left _ hc)
      · intro st2 hf
        simp only [List.foldlM_cons]
        have hf1 : DFresh st2 d1 := by
          intro eid he
          exact hf eid (by
            show eid ∈ d1.dids ++ d2.dids
            exact List.mem_append_left _ he)
        rw [hc1 st2 hf1]
        simp only [bind, Except.bind]
        have hf2 : DFresh (st2.addD d1) d2 := by
          intro eid he
          obtain ⟨ha, hb⟩ := hf eid (by
            show eid ∈ d1.dids ++ d2.dids
            exact List.mem_append_right _ he)
          have hnd1 : eid ∉ d1.dids := by
            have h2 := hg2.2 eid he
            rw [he1] at h2
            intro hc
            exact h2 (by
              show eid ∈ st.shape_ids ++ d1.dids
              exact List.mem_append_right _ hc)
          refine ⟨?_, ?_⟩
          · show eid ∉ st2.shape_ids ++ d1.dids
            intro hc
            rcases List.mem_append.mp hc with h2 | h2
            · exact ha h2
            · exact hnd1 h2
          · show dictGet eid (st2.group_map ++ d1.dgm) = none
            rw [dictGet_eq_none_iff, List.map_append]
            intro hc
            rcases List.mem_append.mp hc with h2 | h2
            · exact (dictGet_eq_none_iff _ _).mp hb h2
            · exact hnd1 (hg1.1.subset h2)
        rw [hc2 (st2.addD d1) hf2, addD_comp]

/-- Group-map keys are always a sub-list of the recorded ids. -/
def GmSub (st : VState) : Prop :=
  (st.group_map.map Prod.fst).Sublist st.shape_ids

theorem GmSub_addD (st : VState) (d : VDelta) (hg : GmSub st)
    (hd : (d.dgm.map Prod.fst).Sublist d.dids) : GmSub (st.addD d) := by
  show List.Sublist ((st.group_map ++ d.dgm).map Prod.fst) (st.shape_ids ++ d.dids)
  rw [List.map_append]
  exact List.Sublist.append hg hd

/-- Ids fresh for a permuted well-formed state are fresh as a delta. -/
theorem DFresh_of_perm (st1 st2 : VState) (d : VDelta)
    (hid : st2.shape_ids.Perm st1.shape_ids) (hg2 : GmSub st2)
    (hfr : ∀ eid ∈ d.dids, eid ∉ st1.shape_ids) : DFresh st2 d := by
  intro eid he
  have h1 : eid ∉ st2.shape_ids := fun hc => hfr eid he (hid.mem_iff.mp hc)
  refine ⟨h1, ?_⟩
  rw [dictGet_eq_none_iff]
  intro hc
  exact h1 (hg2.subset hc)

/-- Appending two deltas in either order after permuted prefixes yields
permuted results. -/
theorem perm_swap_append {α : Type} (s1 s2 a b c : List α) (hp : s2.Perm s1) :
    (((s2 ++ a) ++ b) ++ c).Perm (((s1 ++ b) ++ a) ++ c) := by
  refine List.Perm.append_right c ?_
  rw [List.append_assoc, List.append_assoc]
  exact List.Perm.append hp List.perm_append_comm

/-- The validator's top-level fold is invariant under permutation of the
document (given no anonymous texts): from permutation-related well-formed
states, the permuted fold succeeds and the results are permutation-related. -/
theorem topFold_perm {l1 l2 : List JVal} (hp : l1.Perm l2) :
    (∀ e ∈ l1, noAnonTop e = true) →
    ∀ (st1 st2 t1 : VState),
      l1.foldlM processTopElem st1 = .ok t1 →
      st2.shapes.Perm st1.shapes →
      st2.shape_ids.Perm st1.shape_ids →
      st2.group_map.Perm st1.group_map →
      GmSub st1 → GmSub st2 →
      ∃ t2, l2.foldlM processTopElem st2 = .ok t2 ∧
        t2.shapes.Perm t1.shapes ∧ t2.shape_ids.Perm t1.shape_ids ∧
        t2.group_map.Perm t1.group_map ∧ GmSub t1 ∧ GmSub t2 := by
  induction hp with
  | nil =>
    intro _ st1 st2 t1 h hsh hid hgm hg1 hg2
    simp only [List.foldlM_nil, pure, Except.pure] at h
    cases h
    exact ⟨st2, rfl, hsh, hid, hgm, hg1, hg2⟩
  | cons x hpl ih =>
    intro hna st1 st2 t1 h hsh hid hgm hg1 hg2
    simp only [List.foldlM_cons] at h
    cases hx : processTopElem st1 x with
    | error err =>
      rw [hx] at h
      simp [bind, Except.bind] at h
    | ok s1 =>
      rw [hx] at h
      simp only [bind, Except.bind] at h
      obtain ⟨d, he, hg, hc⟩ := processTopElem_tc x st1 s1
        (hna x (List.mem_cons_self _ _)) hx
      have hf : DFresh st2 d := DFresh_of_perm st1 st2 d hid hg2 hg.2
      have hx2 := hc st2 hf
      obtain ⟨t2, hfold, hr1, hr2, hr3, hr4, hr5⟩ := ih
        (fun e he2 => hna e (List.mem_cons_of_mem _ he2)) s1 (st2.addD d) t1 h
        (by rw [he]; exact hsh.append_right d.dsh)
        (by rw [he]; exact hid.append_right d.dids)
        (by rw [he]; exact hgm.append_right d.dgm)
        (by rw [he]; exact GmSub_addD st1 d hg1 hg.1)
        (GmSub_addD st2 d hg2 hg.1)
      refine ⟨t2, ?_, hr1, hr2, hr3, hr4, hr5⟩
      simp only [List.foldlM_cons]
      rw [hx2]
      simp only [bind, Except.bind]
      exact hfold
  | swap x y l =>
    intro hna st1 st2 t1 h hsh hid hgm hg1 hg2
    simp only [List.foldlM_cons] at h
    cases hy : processTopElem st1 y with
    | error err =>
      rw [hy] at h
      simp [bind, Except.bind] at h
    | ok a =>
      rw [hy] at h
      simp only [bind, Except.bind] at h
      cases hx : processTopElem a x with
      | error err =>
        rw [hx] at h
        simp [bind, Except.bind] at h
      | ok b =>
        rw [hx] at h
        simp only [bind, Except.bind] at h
        obtain ⟨dy, hey, hgy, hcy⟩ := processTopElem_tc y st1 a
          (hna y (List.mem_cons_self _ _)) hy
        obtain ⟨dx, hgx2, hgx, hcx⟩ := processTopElem_tc x a b
          (hna x (List.mem_cons_of_mem _ (List.mem_cons_self _ _))) hx
        have hdx1 : ∀ eid ∈ dx.dids, eid ∉ st1.shape_ids ∧ eid ∉ dy.dids := by
          intro eid he2
          have h2 := hgx.2 eid he2
          rw [hey] at h2
          constructor
          · intro hcm
            exact h2 (by
              show eid ∈ st1.shape_ids ++ dy.dids
              exact List.mem_append_left _ hcm)
          · intro hcm
            exact h2 (by
              show eid ∈ st1.shape_ids ++ dy.dids
              exact List.mem_append_right _ hcm)
        have hfx : DFresh st2 dx :=
          DFresh_of_perm st1 st2 dx hid hg2 (fun eid he2 => (hdx1 eid he2).1)
        have hx2 := hcx st2 hfx
        have hfy : DFresh (st2.addD dx) dy := by
          intro eid he2
          have hny : eid ∉ st1.shape_ids := hgy.2 eid he2
          have hnx : eid ∉ dx.dids := fun hcm => (hdx1 eid hcm).2 he2
          refine ⟨?_, ?_⟩
          · show eid ∉ st2.shape_ids ++ dx.dids
            intro hcm
            rcases List.mem_append.mp hcm with h2 | h2
            · exact hny (hid.mem_iff.mp h2)
            · exact hnx h2
          · show dictGet eid (st2.group_map ++ dx.dgm) = none
            rw [dictGet_eq_none_iff, List.map_append]
            intro hcm
            rcases List.mem_append.mp hcm with h2 | h2
            · exact hny (hid.mem_iff.mp (hg2.subset h2))
            · exact hnx (hgx.1.subset h2)
        have hy2 := hcy (st2.addD dx) hfy
        obtain ⟨D, heD, hgD, hcD⟩ := topFold_tc l b t1
          (fun e he2 => hna e (List.mem_cons_of_mem _ (List.mem_cons_of_mem _ he2))) h
        have hfD : DFresh ((st2.addD dx).addD dy) D := by
          intro eid he2
          have hnb := hgD.2 eid he2
          rw [hgx2, hey] at hnb
          have hn1 : eid ∉ st1.shape_ids := by
            intro hcm
            exact hnb (by
              show eid ∈ (st1.shape_ids ++ dy.dids) ++ dx.dids
              exact List.mem_append_left _ (List.mem_append_left _ hcm))
          have hny : eid ∉ dy.dids := by
            intro hcm
            exact hnb (by
              show eid ∈ (st1.shape_ids ++ dy.dids) ++ dx.dids
              exact List.mem_append_left _ (List.mem_append_right _ hcm))
          have hnx : eid ∉ dx.dids := by
            intro hcm
            exact hnb (by
              show eid ∈ (st1.shape_ids ++ dy.dids) ++ dx.dids
              exact List.mem_append_right _ hcm)
          refine ⟨?_, ?_⟩
          · show eid ∉ (st2.shape_ids ++ dx.dids) ++ dy.dids
            intro hcm
            rcases List.mem_append.mp hcm with h2 | h2
            · rcases List.mem_append.mp h2 with h3 | h3
              · exact hn1 (hid.mem_iff.mp h3)
              · exact hnx h3
            · exact hny h2
          · show dictGet eid ((st2.group_map ++ dx.dgm) ++ dy.dgm) = none
            rw [dictGet_eq_none_iff, List.map_append, List.map_append]
            intro hcm
            rcases List.mem_append.mp hcm with h2 | h2
            · rcases List.mem_append.mp h2 with h3 | h3
              · exact hn1 (hid.mem_iff.mp (hg2.subset h3))
              · exact hnx (hgx.1.subset h3)
            · exact hny (hgy.1.subset h2)
        have hfold2 := hcD ((st2.addD dx).addD dy) hfD
        refine ⟨((st2.addD dx).addD dy).addD D, ?_, ?_, ?_, ?_, ?_, ?_⟩
        · simp only [List.foldlM_cons]
          rw [hx2]
          simp only [bind, Except.bind]
          rw [hy2]
          simp only [bind, Except.bind]
          exact hfold2
        · rw [heD, hgx2, hey]
          show (((st2.shapes ++ dx.dsh) ++ dy.dsh) ++ D.dsh).Perm
            (((st1.shapes ++ dy.dsh) ++ dx.dsh) ++ D.dsh)
          exact perm_swap_append st1.shapes st2.shapes dx.dsh dy.dsh D.dsh hsh
        · rw [heD, hgx2, hey]
          show (((st2.shape_ids ++ dx.dids) ++ dy.dids) ++ D.dids).Perm
            (((st1.shape_ids ++ dy.dids) ++ dx.dids) ++ D.dids)
          exact perm_swap_append st1.shape_ids st2.shape_ids dx.dids dy.dids D.dids hid
        · rw [heD, hgx2, hey]
          show (((st2.group_map ++ dx.dgm) ++ dy.dgm) ++ D.dgm).Perm
            (((st1.group_map ++ dy.dgm) ++ dx.dgm) ++ D.dgm)
          exact perm_swap_append st1.group_map st2.group_map dx.dgm dy.dgm D.dgm hgm
        · rw [heD, hgx2, hey]
          exact GmSub_addD _ _ (GmSub_addD _ _ (GmSub_addD _ _ hg1 hgy.1) hgx.1) hgD.1
        · exact GmSub_addD _ _ (GmSub_addD _ _ (GmSub_addD _ _ hg2 hgx.1) hgy.1) hgD.1
  | trans h12 h23 ih1 ih2 =>
    intro hna st1 st2 t1 h hsh hid hgm hg1 hg2
    obtain ⟨tm, hfm, m1, m2, m3, m4, m5⟩ := ih1 hna st1 st1 t1 h
      (List.Perm.refl _) (List.Perm.refl _) (List.Perm.refl _) hg1 hg1
    obtain ⟨t2, hf2, n1, n2, n3, n4, n5⟩ := ih2
      (fun e he2 => hna e (h12.mem_iff.mpr he2)) st1 st2 tm hfm hsh hid hgm hg1 hg2
    exact ⟨t2, hf2, n1.trans m1, n2.trans m2, n3.trans m3, m4, n5⟩

/-- Looking up the key just assigned returns the assigned value. -/
theorem dictGet_dictSet_self {α : Type} (k : String) (v : α) :
    ∀ l : List (String × α), dictGet k (dictSet k v l) = some v := by
  intro l
  induction l with
  | nil => simp [dictSet, dictGet]
  | cons p ps ih =>
    simp only [dictSet]
    by_cases hp : p.1 = k
    · rw [if_pos hp]
      simp [dictGet]
    · rw [if_neg hp]
      simp only [dictGet, if_neg hp]
      exact ih

/-- Assigning a key absent from a dict appends the binding. -/
theorem dictSet_fresh {α : Type} (k : String) (v : α) :
    ∀ l : List (String × α), k ∉ l.map Prod.fst → dictSet k v l = l ++ [(k, v)] := by
  intro l
  induction l with
  | nil => intro _; rfl
  | cons p ps ih =>
    intro hk
    simp only [List.map_cons, List.mem_cons, not_or] at hk
    have h1 : ¬ (p.1 = k) := fun he => hk.1 he.symm
    simp only [dictSet, if_neg h1]
    rw [ih hk.2]
    rfl

/-- Permuting a dict with duplicate-free keys preserves every lookup. -/
theorem dictGet_perm {α : Type} {l1 l2 : List (String × α)} (hp : l1.Perm l2)
    (hnd : (l1.map Prod.fst).Nodup) (k : String) : dictGet k l1 = dictGet k l2 := by
  cases hv : dictGet k l1 with
  | some v =>
    have hm2 : (k, v) ∈ l2 := hp.mem_iff.mp (dictGet_mem hv)
    have hnd2 : (l2.map Prod.fst).Nodup := ((hp.map Prod.fst).nodup_iff).mp hnd
    rw [dictGet_of_mem_nodup hnd2 hm2]
  | none =>
    symm
    rw [dictGet_eq_none_iff] at hv ⊢
    intro hmem
    exact hv ((hp.map Prod.fst).mem_iff.mpr hmem)

/-- Sorted insertion permutes consing. -/
theorem insertZ_perm (p : (Int × Nat) × JVal) :
    ∀ l : List ((Int × Nat) × JVal), (insertZ p l).Perm (p :: l) := by
  intro l
  induction l with
  | nil => exact List.Perm.refl _
  | cons q qs ih =>
    unfold insertZ
    by_cases hq : zKeyLt q.1 p.1 = true
    · rw [if_pos hq]
      exact (List.Perm.cons q ih).trans (List.Perm.swap p q qs)
    · rw [if_neg hq]

/-- Insertion sort permutes its input. -/
theorem foldr_insertZ_perm :
    ∀ xs : List ((Int × Nat) × JVal), (xs.foldr insertZ []).Perm xs := by
  intro xs
  induction xs with
  | nil => exact List.Perm.refl _
  | cons x l ih =>
    exact (insertZ_perm x (l.foldr insertZ [])).trans (List.Perm.cons x ih)

/-- The z-sort permutes the shapes. -/
theorem sortShapesByZ_perm (shapes : List JVal) : (sortShapesByZ shapes).Perm shapes := by
  unfold sortShapesByZ
  have h1 := (foldr_insertZ_perm
    (shapes.enum.map (fun si => ((zOf si.2, si.1), si.2)))).map
    (fun p : (Int × Nat) × JVal => p.2)
  refine h1.trans ?_
  rw [List.map_map]
  have h2 : shapes.enum.map
      ((fun p : (Int × Nat) × JVal => p.2) ∘ (fun si : Nat × JVal => ((zOf si.2, si.1), si.2)))
      = shapes := List.enum_map_snd shapes
  rw [h2]

/-- Connector validation depends on the id set only through membership. -/
theorem validateConnector_perm (ids1 ids2 : List String) (hp : ids1.Perm ids2) (c : JVal) :
    validateConnector ids1 c = validateConnector ids2 c := by
  cases c <;> simp only [validateConnector, hp.mem_iff]

/-- The entries component of a fold whose step assigns the element under its
id (and fallibly computes something else) is the pure dict fold. -/
theorem pairFold_fst {β : Type}
    (g : (List (String × JVal) × List (String × β)) → JVal →
      Except String (List (String × JVal) × List (String × β)))
    (hg : ∀ acc s out, g acc s = .ok out → out.1 = dictSet (elemIdOf s) s acc.1) :
    ∀ (l : List JVal) (acc out : List (String × JVal) × List (String × β)),
      l.foldlM g acc = .ok out →
      out.1 = l.foldl (fun a s => dictSet (elemIdOf s) s a) acc.1 := by
  intro l
  induction l with
  | nil =>
    intro acc out h
    simp only [List.foldlM_nil, pure, Except.pure] at h
    cases h
    rfl
  | cons s l ih =>
    intro acc out h
    simp only [List.foldlM_cons] at h
    cases hgs : g acc s with
    | error e =>
      rw [hgs] at h
      simp [bind, Except.bind] at h
    | ok mid =>
      rw [hgs] at h
      simp only [bind, Except.bind] at h
      rw [List.foldl_cons, ← hg acc s mid hgs]
      exact ih mid out h

/-- A successful `prepare` decomposes into its validation fold, its connector
fold, and pure dict folds building the entries. -/
theorem prepare_ok_decomp (d : Doc) (p : Prep) (h : prepare d = .ok p) :
    ∃ st cs,
      d.shapes.foldlM processTopElem VState.init = .ok st ∧
      d.connectors.foldlM
        (fun acc c => do
          let c' ← validateConnector st.shape_ids c
          pure (acc ++ [c'])) [] = .ok cs ∧
      p.gmap = st.group_map ∧
      p.entries = cs.foldl (fun a c => dictSet (elemIdOf c) c a)
        ((sortShapesByZ st.shapes).foldl (fun a s => dictSet (elemIdOf s) s a) []) := by
  unfold prepare at h
  simp only [bind, Except.bind, pure, Except.pure] at h
  split at h
  · cases h
  · rename_i vout hval
    unfold validate_yaml at hval
    simp only [bind, Except.bind, pure, Except.pure] at hval
    split at hval
    · cases hval
    · rename_i st hfold
      split at hval
      · cases hval
      · rename_i cs hcfold
        cases hval
        dsimp only [] at h
        split at h
        · cases h
        · rename_i es hesfold
          obtain ⟨e0, s0⟩ := es
          split at h
          · cases h
          · rename_i es1 hes1fold
            obtain ⟨e1, s1⟩ := es1
            cases h
            refine ⟨st, cs, hfold, hcfold, rfl, ?_⟩
            have hA := pairFold_fst _ (by
              intro acc s out hgo
              repeat' split at hgo
              all_goals cases hgo
              all_goals rfl) _ _ _ hesfold
            have hB := pairFold_fst _ (by
              intro acc s out hgo
              repeat' split at hgo
              all_goals cases hgo
              all_goals rfl) _ _ _ hes1fold
            dsimp only [] at hA hB ⊢
            rw [hB, hA]

/-- Folding dict assignment over elements with duplicate-free fresh ids
appends the id-keyed bindings. -/
theorem foldl_dictSet_eq :
    ∀ (l : List JVal) (acc : List (String × JVal)),
      (∀ s ∈ l, elemIdOf s ∉ acc.map Prod.fst) → (l.map elemIdOf).Nodup →
      l.foldl (fun a s => dictSet (elemIdOf s) s a) acc
        = acc ++ l.map (fun s => (elemIdOf s, s)) := by
  intro l
  induction l with
  | nil =>
    intro acc _ _
    simp
  | cons s l ih =>
    intro acc hfr hnd
    rw [List.map_cons, List.nodup_cons] at hnd
    have hfr1 : elemIdOf s ∉ acc.map Prod.fst := hfr s (List.mem_cons_self _ _)
    have hfr2 : ∀ t ∈ l, elemIdOf t ∉ (dictSet (elemIdOf s) s acc).map Prod.fst := by
      intro t ht
      rw [dictSet_fresh _ _ _ hfr1, List.map_append]
      intro hmem
      rcases List.mem_append.mp hmem with h2 | h2
      · exact hfr t (List.mem_cons_of_mem _ ht) h2
      · simp only [List.map_cons, List.map_nil, List.mem_singleton] at h2
        exact hnd.1 (h2 ▸ List.mem_map_of_mem elemIdOf ht)
    rw [List.foldl_cons, ih (dictSet (elemIdOf s) s acc) hfr2 hnd.2,
        dictSet_fresh _ _ _ hfr1, List.append_assoc]
    rfl

/-- Folding identical dict assignments over two pointwise-equal dicts keeps
them pointwise equal. -/
theorem foldl_dictSet_pointwise :
    ∀ (l : List JVal) (a b : List (String × JVal)),
      (∀ k, dictGet k a = dictGet k b) →
      ∀ k, dictGet k (l.foldl (fun acc c => dictSet (elemIdOf c) c acc) a)
        = dictGet k (l.foldl (fun acc c => dictSet (elemIdOf c) c acc) b) := by
  intro l
  induction l with
  | nil =>
    intro a b h k
    exact h k
  | cons c l ih =>
    intro a b h k
    simp only [List.foldl_cons]
    refine ih _ _ ?_ k
    intro k2
    by_cases hk2 : k2 = elemIdOf c
    · subst hk2
      rw [dictGet_dictSet_self, dictGet_dictSet_self]
    · rw [dictGet_dictSet_ne _ _ _ hk2, dictGet_dictSet_ne _ _ _ hk2]
      exact h k2

section SealedHashC6

attribute [local irreducible] compute_hash

/-- C6 (amended): for documents free of anonymous text elements, permuting the
top-level shapes with connectors held equal preserves, for every element id,
the compiled entry, the group info, and therefore the fingerprint. -/
theorem reorder_preserves_fingerprints (d1 d2 : Doc) (p1 p2 : Prep)
    (hsh : d1.shapes.Perm d2.shapes) (hcn : d1.connectors = d2.connectors)
    (hna : ∀ e ∈ d1.shapes, noAnonTop e = true)
    (h1 : prepare d1 = .ok p1) (h2 : prepare d2 = .ok p2) (yid : String) :
    dictGet yid p2.entries = dictGet yid p1.entries ∧
    dictGet yid p2.gmap = dictGet yid p1.gmap ∧
    (dictGet yid p2.entries).map (fun e => entryHash p2.gmap (yid, e)) =
      (dictGet yid p1.entries).map (fun e => entryHash p1.gmap (yid, e)) := by
  obtain ⟨st1, cs1, hf1, hc1, hg1, he1⟩ := prepare_ok_decomp d1 p1 h1
  obtain ⟨st2, cs2, hf2, hc2, hg2, he2⟩ := prepare_ok_decomp d2 p2 h2
  have hinv1 : VInv st1 :=
    foldlM_inv VInv _ (fun s a s' hp hf => processTopElem_inv s _ s' hp hf)
      _ _ _ ⟨List.nodup_nil, rfl⟩ hf1
  have hinv2 : VInv st2 :=
    foldlM_inv VInv _ (fun s a s' hp hf => processTopElem_inv s _ s' hp hf)
      _ _ _ ⟨List.nodup_nil, rfl⟩ hf2
  obtain ⟨t2, hft2, hpsh, hpid, hpgm, hG1, hG2⟩ :=
    topFold_perm hsh hna VState.init VState.init st1 hf1
      (List.Perm.refl _) (List.Perm.refl _) (List.Perm.refl _)
      (List.nil_sublist _) (List.nil_sublist _)
  rw [hf2] at hft2
  injection hft2 with heq2
  subst heq2
  have hcseq : cs2 = cs1 := by
    have hfeq :
        (fun (acc : List JVal) c =>
          (do
            let c' ← validateConnector st2.shape_ids c
            pure (acc ++ [c']) : Except String (List JVal))) =
        (fun (acc : List JVal) c =>
          (do
            let c' ← validateConnector st1.shape_ids c
            pure (acc ++ [c']) : Except String (List JVal))) := by
      funext acc c
      rw [validateConnector_perm st2.shape_ids st1.shape_ids hpid c]
    rw [hfeq, ← hcn, hc1] at hc2
    exact (Except.ok.inj hc2).symm
  have hnd2 : (st2.group_map.map Prod.fst).Nodup := List.Nodup.sublist hG2 hinv2.1
  have hgmpt : ∀ k, dictGet k st2.group_map = dictGet k st1.group_map :=
    fun k => dictGet_perm hpgm hnd2 k
  have hperm_sorted : (sortShapesByZ st2.shapes).Perm (sortShapesByZ st1.shapes) :=
    (sortShapesByZ_perm _).trans (hpsh.trans (sortShapesByZ_perm _).symm)
  have hidnd1 : ((sortShapesByZ st1.shapes).map elemIdOf).Nodup := by
    rw [List.Perm.nodup_iff ((sortShapesByZ_perm st1.shapes).map elemIdOf), hinv1.2]
    exact hinv1.1
  have hidnd2 : ((sortShapesByZ st2.shapes).map elemIdOf).Nodup := by
    rw [List.Perm.nodup_iff ((sortShapesByZ_perm st2.shapes).map elemIdOf), hinv2.2]
    exact hinv2.1
  have hbase : ∀ k,
      dictGet k ((sortShapesByZ st2.shapes).foldl (fun a s => dictSet (elemIdOf s) s a) [])
        = dictGet k ((sortShapesByZ st1.shapes).foldl (fun a s => dictSet (elemIdOf s) s a) []) := by
    intro k
    rw [foldl_dictSet_eq _ _ (by intro s _; simp) hidnd2,
        foldl_dictSet_eq _ _ (by intro s _; simp) hidnd1]
    simp only [List.nil_append]
    refine dictGet_perm (hperm_sorted.map _) ?_ k
    rw [List.map_map]
    exact hidnd2
  have hentpt : ∀ k, dictGet k p2.entries = dictGet k p1.entries := by
    intro k
    rw [he2, he1, hcseq]
    exact foldl_dictSet_pointwise cs1 _ _ hbase k
  have hgmy : dictGet yid p2.gmap = dictGet yid p1.gmap := by
    rw [hg2, hg1]
    exact hgmpt yid
  refine ⟨hentpt yid, hgmy, ?_⟩
  rw [hentpt yid]
  have hfun : (fun e => entryHash p2.gmap (yid, e)) = (fun e => entryHash p1.gmap (yid, e)) := by
    funext e
    simp only [entryHash]
    rw [hgmy]
  rw [hfun]

end SealedHashC6

/-- The prepared form of a document (defaulting on error; used to state
concrete evaluations of successful prepares). -/
def prepOf (d : Doc) : Prep :=
  match prepare d with
  | .ok p => p
  | .error _ => ⟨[], [], []⟩

/-- An anonymous text element (no authored id). -/
def anonHi : JVal :=
  .obj [("type", .str "text"), ("text", .str "hi"), ("pos", .list [.int 0, .int 0])]

/-- A second anonymous text element. -/
def anonYo : JVal :=
  .obj [("type", .str "text"), ("text", .str "yo"), ("pos", .list [.int 1, .int 1])]

/-- The two anonymous texts in authored order. -/
def anonDoc1 : Doc := ⟨[anonHi, anonYo], []⟩

/-- The same two anonymous texts, reordered. -/
def anonDoc2 : Doc := ⟨[anonYo, anonHi], []⟩

/-- The authored text of an element. -/
def textOf (v : JVal) : String :=
  match v with
  | .obj fs =>
    match dictGet "text" fs with
    | some (.str s) => s
    | _ => ""
  | _ => ""

/-- The fingerprints the diff loop would compute for the entries carrying a
given authored text. -/
def fpsForText (p : Prep) (t : String) : List String :=
  (p.entries.filter (fun q => textOf q.2 == t)).map (fun q => entryHash p.gmap q)

/-- C6 counterexample: two documents that differ only in the ordering of two
unrelated anonymous text elements both validate, yet the element authored as
text `hi` receives different fingerprints in the two documents — the
validator's synthetic `_text_\x7bn\x7d` ids depend on document order and are
folded into the hash input. -/
theorem anon_text_reorder_changes_fingerprint :
    anonDoc1.shapes.Perm anonDoc2.shapes ∧
    anonDoc1.connectors = anonDoc2.connectors ∧
    prepare anonDoc1 = .ok (prepOf anonDoc1) ∧
    prepare anonDoc2 = .ok (prepOf anonDoc2) ∧
    fpsForText (prepOf anonDoc1) "hi" ≠ fpsForText (prepOf anonDoc2) "hi" :=
  ⟨List.Perm.swap anonYo anonHi [], rfl, rfl, rfl, by decide⟩

/-- A document with two named rectangles, authored in id order. -/
def wDocAB : Doc := ⟨[rectA, rectB], []⟩

/-- The same two rectangles, reordered. -/
def wDocBA : Doc := ⟨[rectB, rectA], []⟩

theorem reorder_preserves_fingerprints_witness :
    wDocAB.shapes.Perm wDocBA.shapes ∧
    dictGet "a" (prepOf wDocBA).entries = dictGet "a" (prepOf wDocAB).entries ∧
    (dictGet "a" (prepOf wDocBA).entries).map
        (fun e => entryHash (prepOf wDocBA).gmap ("a", e)) =
      (dictGet "a" (prepOf wDocAB).entries).map
        (fun e => entryHash (prepOf wDocAB).gmap ("a", e)) :=
  ⟨List.Perm.swap rectB rectA [],
   (reorder_preserves_fingerprints wDocAB wDocBA (prepOf wDocAB) (prepOf wDocBA)
      (List.Perm.swap rectB rectA []) rfl (by decide) rfl rfl "a").1,
   (reorder_preserves_fingerprints wDocAB wDocBA (prepOf wDocAB) (prepOf wDocBA)
      (List.Perm.swap rectB rectA []) rfl (by decide) rfl rfl "a").2.2⟩

end Box
